import Mathlib

/-! Scoutbook roster tools: composite-field extraction.

A shallow embedding of the parsing core of `roster/parser/RosterParser.go`,
`roster/UserStatusRecord.go`, `roster/User.go` and `date/Date.go`, and of the list
functions of `export-sb-roster-to-gaggle-mail.go`, together with the parts of the Go
standard library they rely on (`regexp`, `strings`, `strconv`, `sort.Slice`, `time.Parse`,
`time.Date` and `Time.Format`).

Conventions of the embedding.

* A Go `string` holding valid UTF-8 is its sequence of code points, `Text`.
* A Go result pair `(value, error)` is an `Except`; an error built with `errors.New` or
  `fmt.Errorf` is its message.  The error value of `time.Parse` is never inspected by the
  parser, so `ParseDate` returns an `Option`.
* A slice is a `List`; the difference between a nil and an empty slice is not modelled.
-/

namespace Scoutbook

/-- Cell text: a Go string of valid UTF-8, as its code points. -/
abbrev Text := List Char

/-! ## Package `time` and `date/Date.go` -/

namespace date

/-- A `date.Date`: a `time.Time` at midnight UTC, determined by its calendar day. -/
structure Date where
  year : Nat
  month : Nat
  day : Nat
deriving DecidableEq, Repr

/-- The zero value `Date{}`; the zero `time.Time` is January 1 of year 1, 00:00 UTC. -/
def Date.zero : Date := ⟨1, 1, 1⟩

/-- Numeric value of a decimal digit, `c - '0'`. -/
def digitVal (c : Char) : Nat := c.toNat - 48

/-- Go `time.getnum(s, fixed)`: a one- or two-digit number; with `fixed`, exactly two digits. -/
def getnum (s : Text) (fixed : Bool) : Option (Nat × Text) :=
  match s with
  | [] => none
  | a :: rest =>
    if !a.isDigit then none else
    match rest with
    | [] => if fixed then none else some (digitVal a, rest)
    | b :: rest2 =>
      if b.isDigit then some (digitVal a * 10 + digitVal b, rest2)
      else if fixed then none else some (digitVal a, rest)

/-- Go `time.skip(value, prefix)` for a one-character literal that is not a space. -/
def skip (value : Text) (c : Char) : Option Text :=
  match value with
  | [] => none
  | a :: rest => if a = c then some rest else none

/-- The `stdLongYear` case of `time.Parse`: four characters, all of them digits. -/
def getyear (value : Text) : Option (Nat × Text) :=
  match value with
  | a :: b :: c :: d :: rest =>
    if a.isDigit && b.isDigit && c.isDigit && d.isDigit then
      some (digitVal a * 1000 + digitVal b * 100 + digitVal c * 10 + digitVal d, rest)
    else none
  | _ => none

/-- Go `time.isLeap`. -/
def isLeap (year : Nat) : Bool := year % 4 = 0 && (year % 100 ≠ 0 || year % 400 = 0)

/-- Go `time.daysIn`. -/
def daysIn (month year : Nat) : Nat :=
  if month = 2 then (if isLeap year then 29 else 28)
  else if month = 4 ∨ month = 6 ∨ month = 9 ∨ month = 11 then 30 else 31

/-- `ParseDate(value)`, that is `time.Parse("01/02/2006", value)`: zero-padded month, `/`,
zero-padded day, `/`, four-digit year, no extra text, and the day within the month. -/
def ParseDate (value : Text) : Option Date :=
  match getnum value true with
  | none => none
  | some (month, v1) =>
    if month = 0 ∨ 12 < month then none else
    match skip v1 '/' with
    | none => none
    | some v2 =>
      match getnum v2 true with
      | none => none
      | some (day, v3) =>
        match skip v3 '/' with
        | none => none
        | some v4 =>
          match getyear v4 with
          | none => none
          | some (year, v5) =>
            if v5 ≠ [] then none
            else if day < 1 ∨ daysIn month year < day then none
            else some ⟨year, month, day⟩

end date

open date

/-! ## Package `regexp`: leftmost-first matching -/

/-- The regular expressions the parser uses.  A repetition `x*` is over a one-character class,
which is all the three patterns of the program need. -/
inductive Regex where
  | eps : Regex
  | lit (c : Char) : Regex
  | cls (p : Char → Bool) : Regex
  | cat (r s : Regex) : Regex
  | alt (r s : Regex) : Regex
  | star (p : Char → Bool) (greedy : Bool) : Regex
  | opt (r : Regex) : Regex
  | group (index : Nat) (name : Text) (r : Regex) : Regex

/-- Capture registers: the text of each numbered group, most recent first. -/
abbrev Caps := List (Nat × Text)

/-- Text of group `i`; a group that took no part in the match reads as the empty string. -/
def Caps.get (c : Caps) (i : Nat) : Text :=
  match c with
  | [] => []
  | (j, t) :: rest => if j = i then t else Caps.get rest i

namespace Regex

/-- A literal string as a pattern. -/
def str : Text → Regex
  | [] => eps
  | c :: rest => cat (lit c) (str rest)

/-- Counted repetition `r{n}`. -/
def rep : Nat → Regex → Regex
  | 0, _ => eps
  | n + 1, r => cat r (rep n r)

/-- Backtracking run of `x*` (greedy) or `x*?` (lazy) followed by the continuation `k`. -/
def runStar {α : Type} (p : Char → Bool) (greedy : Bool) (k : Text → Caps → Option α) :
    Text → Caps → Option α
  | [], c => k [] c
  | x :: t, c =>
    if greedy then
      if p x then
        match runStar p greedy k t c with
        | some r => some r
        | none => k (x :: t) c
      else k (x :: t) c
    else
      match k (x :: t) c with
      | some r => some r
      | none => if p x then runStar p greedy k t c else none

/-- Backtracking matcher with Go (Perl-like, leftmost-first) preference order: `run r s c k`
matches `r` at the start of `s` and hands the remaining text and captures to `k`; alternatives
are tried in priority order and the first one on which `k` succeeds wins. -/
def run {α : Type} : Regex → Text → Caps → (Text → Caps → Option α) → Option α
  | eps, s, c, k => k s c
  | lit a, s, c, k =>
    match s with
    | [] => none
    | x :: t => if x = a then k t c else none
  | cls p, s, c, k =>
    match s with
    | [] => none
    | x :: t => if p x then k t c else none
  | cat r₁ r₂, s, c, k => run r₁ s c (fun s1 c1 => run r₂ s1 c1 k)
  | alt r₁ r₂, s, c, k =>
    match run r₁ s c k with
    | some r => some r
    | none => run r₂ s c k
  | star p greedy, s, c, k => runStar p greedy k s c
  | opt r, s, c, k =>
    match run r s c k with
    | some x => some x
    | none => k s c
  | group i _ r, s, c, k =>
    run r s c (fun s1 c1 => k s1 ((i, s.take (s.length - s1.length)) :: c1))

/-- A match anchored at the start of `s`: the text left after it and the captures. -/
def matchAt (re : Regex) (s : Text) : Option (Text × Caps) :=
  run re s [] (fun rest caps => some (rest, caps))

/-- One match found in a text. -/
structure Match where
  pre : Text
  text : Text
  post : Text
  caps : Caps

/-- Leftmost-first search: the first start position at which the pattern matches. -/
def search (re : Regex) : Text → Option Match
  | [] =>
    match matchAt re [] with
    | some (rest, caps) => some ⟨[], [], rest, caps⟩
    | none => none
  | x :: t =>
    match matchAt re (x :: t) with
    | some (rest, caps) => some ⟨[], (x :: t).take ((x :: t).length - rest.length), rest, caps⟩
    | none =>
      match search re t with
      | some m => some ⟨x :: m.pre, m.text, m.post, m.caps⟩
      | none => none

/-- Number of capture groups, `NumSubexp`. -/
def NumSubexp : Regex → Nat
  | eps => 0
  | lit _ => 0
  | cls _ => 0
  | cat r s => NumSubexp r + NumSubexp s
  | alt r s => NumSubexp r + NumSubexp s
  | star _ _ => 0
  | opt r => NumSubexp r
  | group _ _ r => NumSubexp r + 1

/-- Index of the first group with the given name, if any. -/
def subexp? (name : Text) : Regex → Option Nat
  | eps => none
  | lit _ => none
  | cls _ => none
  | cat r s =>
    match subexp? name r with
    | some i => some i
    | none => subexp? name s
  | alt r s =>
    match subexp? name r with
    | some i => some i
    | none => subexp? name s
  | star _ _ => none
  | opt r => subexp? name r
  | group i n r => if n = name then some i else subexp? name r

/-- Go `SubexpIndex(name)`; the program only asks for names its patterns declare. -/
def SubexpIndex (re : Regex) (name : Text) : Nat := (subexp? name re).getD 0

/-- Go `FindStringSubmatch(s)`: nothing when there is no match, otherwise the text of the
leftmost match followed by the text of every group. -/
def FindStringSubmatch (re : Regex) (s : Text) : Option (List Text) :=
  match search re s with
  | none => none
  | some m => some (m.text :: (List.range (NumSubexp re)).map (fun i => m.caps.get (i + 1)))

/-- The pieces between successive non-overlapping leftmost matches, allowing at most `limit`
cuts.  The pattern is one that never matches the empty text. -/
def splitLoop (re : Regex) : Nat → Text → List Text
  | 0, s => [s]
  | limit + 1, s =>
    match search re s with
    | none => [s]
    | some m => m.pre :: splitLoop re limit m.post

/-- Go `Split(s, n)` for a pattern that never matches the empty text: `n = 0` gives nothing,
the empty text gives one empty piece, `n < 0` cuts at every match and `n > 0` returns at most
`n` pieces, the last one being the unsplit remainder. -/
def Split (re : Regex) (s : Text) (n : Int) : List Text :=
  if n = 0 then []
  else if s = [] then [[]]
  else splitLoop re (if n < 0 then s.length else n.toNat - 1) s

/-- Perl class `\s` of Go regexps: `[\t\n\f\r ]`. -/
def isReSpace (c : Char) : Bool :=
  c = '\t' || c = '\n' || c = Char.ofNat 12 || c = '\r' || c = ' '

/-- Perl class `\d`: `[0-9]`. -/
def isReDigit (c : Char) : Bool := c.isDigit

/-- The class `.` without the `s` flag: anything but a line feed. -/
def isDot (c : Char) : Bool := c != '\n'

/-- The pattern `\d{2}/\d{2}/\d{4}`. -/
def datePattern : Regex :=
  cat (rep 2 (cls isReDigit)) (cat (lit '/') (cat (rep 2 (cls isReDigit))
    (cat (lit '/') (rep 4 (cls isReDigit)))))

end Regex

/-! ## Package `strings` -/

namespace strings

/-- Go `unicode.IsSpace`. -/
def isSpace (c : Char) : Bool :=
  let n := c.toNat
  n = 9 || n = 10 || n = 11 || n = 12 || n = 13 || n = 32 || n = 0x85 || n = 0xA0 ||
  n = 0x1680 || (0x2000 ≤ n && n ≤ 0x200A) || n = 0x2028 || n = 0x2029 || n = 0x202F ||
  n = 0x205F || n = 0x3000

/-- Go `strings.TrimSpace`. -/
def TrimSpace (s : Text) : Text :=
  ((s.dropWhile isSpace).reverse.dropWhile isSpace).reverse

/-- Whether `sub` occurs at the start of `s`. -/
def startsWith : Text → Text → Bool
  | _, [] => true
  | [], _ :: _ => false
  | x :: s, y :: sub => x = y && startsWith s sub

/-- Go `strings.Contains(s, substr)`. -/
def Contains : Text → Text → Bool
  | [], sub => startsWith [] sub
  | x :: s, sub => startsWith (x :: s) sub || Contains s sub

end strings

deriving instance DecidableEq for Except

/-! ## `roster/UserStatusRecord.go` -/

/-- `RecordType`: the kind of a status record. -/
inductive RecordType where
  | Training
  | HealthForm
  | SwimClass
deriving DecidableEq, Repr

/-- `UserStatusRecord`; the field `Type` is written `Type_`. -/
structure UserStatusRecord where
  Type_ : RecordType
  Name : Text
  ExpirationDate : Date
deriving DecidableEq, Repr

/-- `TrainingRecord(name, expirationDate)`. -/
def TrainingRecord (name : Text) (expirationDate : Date) : UserStatusRecord :=
  { Type_ := RecordType.Training, Name := name, ExpirationDate := expirationDate }

/-- `HealthFormABRecord(expirationDate)`. -/
def HealthFormABRecord (expirationDate : Date) : UserStatusRecord :=
  { Type_ := RecordType.HealthForm, Name := "Health Form Parts A/B".toList,
    ExpirationDate := expirationDate }

/-- `HealthFormCRecord(expirationDate)`. -/
def HealthFormCRecord (expirationDate : Date) : UserStatusRecord :=
  { Type_ := RecordType.HealthForm, Name := "Health Form Part C".toList,
    ExpirationDate := expirationDate }

/-- `SwimmerRecord(expirationDate)`. -/
def SwimmerRecord (expirationDate : Date) : UserStatusRecord :=
  { Type_ := RecordType.SwimClass, Name := "Swimmer".toList, ExpirationDate := expirationDate }

/-- The record leaves `ExpirationDate` unset, so it holds the zero `Date`. -/
def NonSwimmerRecord : UserStatusRecord :=
  { Type_ := RecordType.SwimClass, Name := "Non-Swimmer".toList, ExpirationDate := Date.zero }

/-! ## `roster/parser/RosterParser.go` -/

/-- The constant `noLimit`. -/
def noLimit : Int := -1

/-- The pattern `\s*\|\s*`. -/
def paddedPipePattern : Regex :=
  .cat (.star Regex.isReSpace true) (.cat (.lit '|') (.star Regex.isReSpace true))

/-- The pattern `(?P<name>.*?)\s*\(Expiration Date:\s*(?P<date>\d{2}/\d{2}/\d{4})\)`. -/
def trainingPattern : Regex :=
  .cat (.group 1 "name".toList (.star Regex.isDot false))
    (.cat (.star Regex.isReSpace true)
      (.cat (Regex.str "(Expiration Date:".toList)
        (.cat (.star Regex.isReSpace true)
          (.cat (.group 2 "date".toList Regex.datePattern) (.lit ')')))))

/-- The pattern `(?sm)(?P<date>\d{2}/\d{2}/\d{4})\s*\((?P<type>AB|C)\)(?:\s*\(Expired\))?`;
the flags `s` and `m` change `.`, `^` and `$`, none of which the pattern uses. -/
def healthFormPattern : Regex :=
  .cat (.group 1 "date".toList Regex.datePattern)
    (.cat (.star Regex.isReSpace true)
      (.cat (.lit '(')
        (.cat (.group 2 "type".toList (.alt (Regex.str "AB".toList) (Regex.str "C".toList)))
          (.cat (.lit ')')
            (.opt (.cat (.star Regex.isReSpace true) (Regex.str "(Expired)".toList)))))))

/-- The error `fmt.Errorf("invalid date format in training: %s", t)`. -/
def errInvalidTrainingDate (t : Text) : Text :=
  "invalid date format in training: ".toList ++ t

/-- The error `fmt.Errorf("unknown health form type: [%s] in '%s'", formType, healthForms)`. -/
def errUnknownHealthFormType (formType healthForms : Text) : Text :=
  "unknown health form type: [".toList ++ formType ++ "] in \x27".toList ++ healthForms ++
    "\x27".toList

/-- The error of `parseYouthTraining` for a non-empty expiration cell. -/
def errUnexpectedTrainingExpiration : Text :=
  ("training expiration date is not expected. Scoutbook has started sending " ++
    "expiration dates for youth training").toList

/-- The error of `parseSwimClass`. -/
def errInvalidSwimExpiration : Text := "swim class expiration is invalid".toList

/-- The loop of `parseYouthTraining` over the segments, `records` being the slice built so
far. -/
def parseYouthTraining.loop :
    List Text → List UserStatusRecord → Except Text (List UserStatusRecord)
  | [], records => .ok records
  | t :: rest, records =>
    if t = [] then parseYouthTraining.loop rest records
    else
      match trainingPattern.FindStringSubmatch t with
      | none => parseYouthTraining.loop rest records
      | some submatches =>
        let name := submatches[trainingPattern.SubexpIndex "name".toList]?.getD []
        let dateStr := submatches[trainingPattern.SubexpIndex "date".toList]?.getD []
        match ParseDate dateStr with
        | none => .error (errInvalidTrainingDate t)
        | some expirationDate =>
          parseYouthTraining.loop rest
            (records ++ [TrainingRecord (strings.TrimSpace name) expirationDate])

/-- `parseYouthTraining(training, expiration)`. -/
def parseYouthTraining (training expiration : Text) : Except Text (List UserStatusRecord) :=
  if expiration ≠ [] then
    .error errUnexpectedTrainingExpiration
  else if training = [] then .ok []
  else parseYouthTraining.loop (paddedPipePattern.Split training noLimit) []

/-- The loop of `parseAdultTraining`: `i` is the index of the head segment in the split of
the training cell. -/
def parseAdultTraining.loop (expirations : List Text) :
    Nat → List Text → List UserStatusRecord → Except Text (List UserStatusRecord)
  | _, [], records => .ok records
  | i, t :: rest, records =>
    if t = [] then parseAdultTraining.loop expirations (i + 1) rest records
    else
      let exp : Text := if expirations.length > i then expirations[i]?.getD [] else []
      match ParseDate exp with
      | none => .error (errInvalidTrainingDate t)
      | some expirationDate =>
        parseAdultTraining.loop expirations (i + 1) rest
          (records ++ [TrainingRecord t expirationDate])

/-- `parseAdultTraining(training, expiration)`. -/
def parseAdultTraining (training expiration : Text) : Except Text (List UserStatusRecord) :=
  if training = [] then .ok []
  else
    parseAdultTraining.loop (paddedPipePattern.Split expiration noLimit) 0
      (paddedPipePattern.Split training noLimit) []

/-- The loop of `parseHealthForms` over the segments of the cell `healthForms`. -/
def parseHealthForms.loop (healthForms : Text) :
    List Text → List UserStatusRecord → Except Text (List UserStatusRecord)
  | [], records => .ok records
  | form :: rest, records =>
    match healthFormPattern.FindStringSubmatch form with
    | none => parseHealthForms.loop healthForms rest records
    | some submatches =>
      let dateStr := submatches[healthFormPattern.SubexpIndex "date".toList]?.getD []
      let formType := submatches[healthFormPattern.SubexpIndex "type".toList]?.getD []
      if formType = "AB".toList then
        match ParseDate dateStr with
        | some expirationDate =>
          parseHealthForms.loop healthForms rest (records ++ [HealthFormABRecord expirationDate])
        | none => parseHealthForms.loop healthForms rest records
      else if formType = "C".toList then
        match ParseDate dateStr with
        | some expirationDate =>
          parseHealthForms.loop healthForms rest (records ++ [HealthFormCRecord expirationDate])
        | none => parseHealthForms.loop healthForms rest records
      else
        .error (errUnknownHealthFormType formType healthForms)

/-- `parseHealthForms(healthForms)`. -/
def parseHealthForms (healthForms : Text) : Except Text (List UserStatusRecord) :=
  parseHealthForms.loop healthForms (paddedPipePattern.Split healthForms noLimit) []

/-- `parseSwimClass(swimClass, swimClassExpiration)`: the date is parsed only when the
expiration cell is not empty, and every other path of the swimmer branch is the error. -/
def parseSwimClass (swimClass swimClassExpiration : Text) : Except Text UserStatusRecord :=
  if swimClass = [] then .ok NonSwimmerRecord
  else if strings.Contains swimClass "Swimmer".toList then
    match (if swimClassExpiration ≠ [] then ParseDate swimClassExpiration else none) with
    | some expirationDate => .ok (SwimmerRecord expirationDate)
    | none => .error errInvalidSwimExpiration
  else .ok NonSwimmerRecord


/-! ## `Date.String`, `strings.Split` and `roster/User.go` -/

namespace date

/-- The character of the decimal digit `n % 10`. -/
def digitChar (n : Nat) : Char := Char.ofNat (48 + n % 10)

/-- Go `time.appendInt(b, x, width)` for `x ≥ 0`: the decimal digits of `x`, padded with
zeros on the left up to `width` characters. -/
def appendInt (x width : Nat) : Text :=
  if width = 2 ∧ x < 100 then [digitChar (x / 10), digitChar x]
  else if width = 4 ∧ x < 10000 then
    [digitChar (x / 1000), digitChar (x / 100), digitChar (x / 10), digitChar x]
  else List.replicate (width - (Nat.toDigits 10 x).length) '0' ++ Nat.toDigits 10 x

/-- `Date.String()`, that is `d.Format("01/02/2006")`. -/
def Date.String (d : Date) : Text :=
  appendInt d.month 2 ++ '/' :: appendInt d.day 2 ++ '/' :: appendInt d.year 4

end date

namespace strings

/-- The text before and the text after the leftmost occurrence of `sep`, what Go gets from
`Index(s, sep)` as `s[:m]` and `s[m+len(sep):]`. -/
def cut (sep : Text) : Text → Option (Text × Text)
  | [] => if sep = [] then some ([], []) else none
  | x :: t =>
    if startsWith (x :: t) sep then some ([], (x :: t).drop sep.length)
    else
      match cut sep t with
      | some (b, a) => some (x :: b, a)
      | none => none

/-- The loop of Go `strings.genSplit` making at most `n` cuts. -/
def genSplit (sep : Text) : Nat → Text → List Text
  | 0, s => [s]
  | n + 1, s =>
    match cut sep s with
    | none => [s]
    | some (b, a) => b :: genSplit sep n a

/-- Go `strings.Split(s, sep)`: with an empty separator the text is exploded into its
characters; otherwise it is cut at every leftmost non-overlapping occurrence of `sep` (Go
allows `Count(s, sep)` cuts, which the length of `s` bounds). -/
def Split (s sep : Text) : List Text :=
  if sep = [] then s.map (fun c => [c]) else genSplit sep s.length s

/-- Go `strings.Join(elems, sep)`. -/
def Join : List Text → Text → Text
  | [], _ => []
  | [a], _ => a
  | a :: b :: r, sep => a ++ sep ++ Join (b :: r) sep

end strings

/-- The zero value `UserStatusRecord{}`: its `Type` is the first constant, `Training`. -/
def UserStatusRecord.zero : UserStatusRecord :=
  { Type_ := RecordType.Training, Name := [], ExpirationDate := Date.zero }

/-- `AdultScoutbookUser`: the cells of one adult roster row. -/
structure AdultScoutbookUser where
  FirstName : Text
  LastName : Text
  Email : Text
  Gender : Text
  BsaId : Int
  UnitNumber : Text
  Training : Text
  TrainingExpiration : Text
  HealthForms : Text
  SwimClass : Text
  SwimClassExpiration : Text
  Positions : Text
deriving DecidableEq

/-- `AdultUser` of `roster/User.go`. -/
structure AdultUser where
  Name : Text
  BsaId : Int
  Email : Text
  Gender : Text
  UnitNumber : Text
  Training : List UserStatusRecord
  HealthForms : List UserStatusRecord
  SwimClass : UserStatusRecord
  Positions : List Text
deriving DecidableEq

/-- The zero value `AdultUser{}`. -/
def AdultUser.zero : AdultUser :=
  { Name := [], BsaId := 0, Email := [], Gender := [], UnitNumber := [], Training := [],
    HealthForms := [], SwimClass := UserStatusRecord.zero, Positions := [] }

/-- `YouthScoutbookUser`: the cells of one youth roster row. -/
structure YouthScoutbookUser where
  FirstName : Text
  LastName : Text
  BsaId : Int
  Email : Text
  DateOfBirth : Text
  Age : Int
  Gender : Text
  HealthForms : Text
  SwimClass : Text
  SwimClassExpiration : Text
  Positions : Text
  Patrol : Text
  Training : Text
  TrainingExpiration : Text
deriving DecidableEq

/-- `YouthUser` of `roster/User.go`. -/
structure YouthUser where
  Name : Text
  BsaId : Int
  Email : Text
  Gender : Text
  DateOfBirth : Date
  Age : Int
  Patrol : Text
  Training : List UserStatusRecord
  HealthForms : List UserStatusRecord
  SwimClass : UserStatusRecord
  Positions : List Text
deriving DecidableEq

/-- The zero value `YouthUser{}`. -/
def YouthUser.zero : YouthUser :=
  { Name := [], BsaId := 0, Email := [], Gender := [], DateOfBirth := Date.zero, Age := 0,
    Patrol := [], Training := [], HealthForms := [], SwimClass := UserStatusRecord.zero,
    Positions := [] }

/-- `(u *AdultScoutbookUser) ToAdultUser()`: the returned pair of member and error, the
error being `none` for `nil`. -/
def AdultScoutbookUser.ToAdultUser (u : AdultScoutbookUser) : AdultUser × Option Text :=
  match parseHealthForms u.HealthForms with
  | .error err => (AdultUser.zero, some err)
  | .ok healthForms =>
    match parseAdultTraining u.Training u.TrainingExpiration with
    | .error err => (AdultUser.zero, some err)
    | .ok training =>
      match parseSwimClass u.SwimClass u.SwimClassExpiration with
      | .error err => (AdultUser.zero, some err)
      | .ok swimClass =>
        ({ Name := u.FirstName ++ " ".toList ++ u.LastName,
           BsaId := u.BsaId,
           Email := u.Email,
           Gender := u.Gender,
           UnitNumber := u.UnitNumber,
           Training := training,
           HealthForms := healthForms,
           SwimClass := swimClass,
           Positions := strings.Split u.Positions " | ".toList }, none)

/-- How a Go call ends: it returns a value with an error (`none` for `nil`), or it panics. -/
inductive Outcome (α : Type) where
  | returned (value : α) (err : Option Text)
  | panicked
deriving DecidableEq

/-- First byte of the UTF-8 encoding of a character. -/
def firstByte (c : Char) : Nat :=
  let n := c.toNat
  if n < 0x80 then n
  else if n < 0x800 then 0xC0 + n / 0x40
  else if n < 0x10000 then 0xE0 + n / 0x1000
  else 0xF0 + n / 0x40000

/-- The Go conversion `string(b)` of a byte: the text of the one code point `b`. -/
def byteToString (b : Nat) : Text := [Char.ofNat b]

/-- `(u *YouthScoutbookUser) ToYouthUser()`.  The expression `u.FirstName[0]` indexes the
first byte of the first name and panics when the first name is empty. -/
def YouthScoutbookUser.ToYouthUser (u : YouthScoutbookUser) : Outcome YouthUser :=
  match parseHealthForms u.HealthForms with
  | .error err => .returned YouthUser.zero (some err)
  | .ok healthForms =>
    match ParseDate u.DateOfBirth with
    | none => .returned YouthUser.zero none
    | some bday =>
      match parseYouthTraining u.Training u.TrainingExpiration with
      | .error err => .returned YouthUser.zero (some err)
      | .ok training =>
        match parseSwimClass u.SwimClass u.SwimClassExpiration with
        | .error err => .returned YouthUser.zero (some err)
        | .ok swimClass =>
          let positions : List Text :=
            if u.Positions = [] then [] else paddedPipePattern.Split u.Positions noLimit
          match u.FirstName with
          | [] => .panicked
          | c :: _ =>
            .returned
              { Name := byteToString (firstByte c) ++ ". ".toList ++ u.LastName,
                BsaId := u.BsaId,
                Email := [],
                Gender := u.Gender,
                DateOfBirth := bday,
                Age := u.Age,
                Patrol := u.Patrol,
                Training := training,
                HealthForms := healthForms,
                SwimClass := swimClass,
                Positions := positions } none

/-! ## `NewDate` and the normalisation of `time.Date` -/

namespace date

/-- A `time.Time` at midnight UTC as its calendar day.  `NewDate` reaches days that
`ParseDate` cannot return: the year may be negative or have more than four digits. -/
structure Day where
  year : Int
  month : Nat
  day : Nat
deriving DecidableEq

/-- The calendar day of a `Date`. -/
def Date.toDay (d : Date) : Day := ⟨d.year, d.month, d.day⟩

/-- Go `time.isLeap` for a year of either sign. -/
def isLeapYear (year : Int) : Bool := year % 4 = 0 && (year % 100 ≠ 0 || year % 400 = 0)

/-- Go `time.daysIn` for a year of either sign. -/
def daysInMonth (month : Nat) (year : Int) : Nat :=
  if month = 2 then (if isLeapYear year then 29 else 28)
  else if month = 4 ∨ month = 6 ∨ month = 9 ∨ month = 11 then 30 else 31

/-- The day normalisation of `time.Date`: a day before the first of the month is counted
back from the end of the month before, and a day past the end of the month is counted on
into the month after, until the day lies within its month.  The first argument bounds the
number of months crossed. -/
def normDay : Nat → Int → Nat → Int → Day
  | 0, y, m, d => ⟨y, m, d.toNat⟩
  | f + 1, y, m, d =>
    if d < 1 then
      if m = 1 then normDay f (y - 1) 12 (d + 31)
      else normDay f y (m - 1) (d + daysInMonth (m - 1) y)
    else if (daysInMonth m y : Int) < d then
      if m = 12 then normDay f (y + 1) 1 (d - 31)
      else normDay f y (m + 1) (d - daysInMonth m y)
    else ⟨y, m, d.toNat⟩

/-- Go `time.Date(year, month, day, 0, 0, 0, 0, time.UTC)`, for years a `time.Time` can
hold: the month is normalised first, overflowing into the year as `time.norm` does (floor
division by 12), then the day, overflowing into the months; every month crossed takes at
least one day, so `|day| + 1` crossings suffice. -/
def timeDate (year month day : Int) : Day :=
  normDay (day.natAbs + 1) (year + (month - 1) / 12) (((month - 1) % 12).toNat + 1) day

/-- `NewDate(year, month, day)`. -/
def NewDate (year month day : Int) : Day := timeDate year month day

/-- Go `time.appendInt(b, x, width)` for an `x` of either sign: a minus sign for a negative
`x`, then the digits of `|x|` padded with zeros to `width`. -/
def appendSigned (x : Int) (width : Nat) : Text :=
  if x < 0 then '-' :: appendInt x.natAbs width else appendInt x.toNat width

/-- `Date.String()`, that is `d.Format("01/02/2006")`, of a day of any year. -/
def Day.String (d : Day) : Text :=
  appendInt d.month 2 ++ '/' :: appendInt d.day 2 ++ '/' :: appendSigned d.year 4

end date

/-! ## `export-sb-roster-to-gaggle-mail.go` -/

/-- The type `user` of the export program. -/
structure user where
  Name : Text
  Email : Text
deriving DecidableEq

namespace strings

/-- Go `strings.ToLower` on valid UTF-8: the rune map `unicode.ToLower`, here the parameter
`lower`, applied to every code point.  The case tables of package `unicode` are not
transcribed; what is proved of the callers holds for every rune map. -/
def ToLower (lower : Char → Char) (s : Text) : Text := s.map lower

/-- Go string comparison `a < b`: the lexicographic order of the bytes, which for valid UTF-8
is the lexicographic order of the code points. -/
def less : Text → Text → Bool
  | _, [] => false
  | [], _ :: _ => true
  | a :: s, b :: t => decide (a < b) || (a == b && less s t)

end strings

/-- The key `strings.ToLower(user.Name + "," + user.Email)` of `removeDuplicates`. -/
def removeDuplicates.key (lower : Char → Char) (u : user) : Text :=
  strings.ToLower lower (u.Name ++ ",".toList ++ u.Email)

/-- The loop of `removeDuplicates`: `seen` holds the keys set in the map so far and `result`
the slice built so far. -/
def removeDuplicates.loop (lower : Char → Char) :
    List user → List Text → List user → List user
  | [], _, result => result
  | u :: rest, seen, result =>
    if removeDuplicates.key lower u ∈ seen then removeDuplicates.loop lower rest seen result
    else
      removeDuplicates.loop lower rest (removeDuplicates.key lower u :: seen) (result ++ [u])

/-- `removeDuplicates(users)`. -/
def removeDuplicates (lower : Char → Char) (users : List user) : List user :=
  removeDuplicates.loop lower users [] []

namespace sort

/-! Package `sort`: `sort.Slice` as Go has it since release 1.19, the pattern-defeating
quicksort of `zsortfunc.go` with its insertion sort for parts of at most twelve entries and
its heap sort for when the limit of bad pivots is used up.  The slice that the Go functions
change in place is passed in and returned.  A Go loop is a recursion on a bound of its
rounds; the bound is the length of the part that the loop works on, which the loop does not
outlast. -/

/-- `data.Less(i, j)` for the slice `l`: the caller's `less` on the entries at `i` and `j`.
With an index outside the slice, where Go panics, it is false; the lemmas on the sort take
their indices within the slice. -/
def lessAt {α : Type} (less : α → α → Bool) (l : List α) (i j : Nat) : Bool :=
  match l[i]?, l[j]? with
  | some x, some y => less x y
  | _, _ => false

/-- `data.Swap(i, j)`: the slice with the entries at `i` and `j` exchanged.  With an index
outside the slice, where Go panics, the slice is left as it is; the lemmas on the sort take
their indices within the slice. -/
def swapAt {α : Type} (l : List α) (i j : Nat) : List α :=
  match l[i]?, l[j]? with
  | some x, some y => (l.set i y).set j x
  | _, _ => l

/-- The inner loop of `insertionSort_func`,
`for j := i; j > a && data.Less(j, j-1); j-- { data.Swap(j, j-1) }`, entered at `j`. -/
def insertionSort.inner {α : Type} (less : α → α → Bool) (a : Nat) : Nat → List α → List α
  | 0, l => l
  | j + 1, l =>
    if a < j + 1 ∧ lessAt less l (j + 1) j = true then
      insertionSort.inner less a j (swapAt l (j + 1) j)
    else l

/-- The outer loop of `insertionSort_func`, `for i := a + 1; i < b; i++`, with `n` rounds
left. -/
def insertionSort.outer {α : Type} (less : α → α → Bool) (a : Nat) :
    Nat → Nat → List α → List α
  | 0, _, l => l
  | n + 1, i, l => insertionSort.outer less a n (i + 1) (insertionSort.inner less a i l)

/-- Go `insertionSort_func(data, a, b)`: insertion sort of `data[a:b]`. -/
def insertionSort_func {α : Type} (less : α → α → Bool) (l : List α) (a b : Nat) : List α :=
  insertionSort.outer less a (b - (a + 1)) (a + 1) l

/-- The loop of `siftDown_func(data, lo, hi, first)` at the node `root`; the node grows in
every round and stays below `hi`, which bounds the rounds. -/
def siftDown.loop {α : Type} (less : α → α → Bool) (hi first : Nat) :
    Nat → Nat → List α → List α
  | 0, _, l => l
  | f + 1, root, l =>
    if hi ≤ 2 * root + 1 then l
    else
      let child :=
        if 2 * root + 1 + 1 < hi ∧
            lessAt less l (first + (2 * root + 1)) (first + (2 * root + 1) + 1) = true
        then 2 * root + 1 + 1 else 2 * root + 1
      if lessAt less l (first + root) (first + child) = false then l
      else siftDown.loop less hi first f child (swapAt l (first + root) (first + child))

/-- Go `siftDown_func(data, lo, hi, first)`. -/
def siftDown_func {α : Type} (less : α → α → Bool) (l : List α) (lo hi first : Nat) :
    List α :=
  siftDown.loop less hi first hi lo l

/-- The first loop of `heapSort_func`, `for i := (hi - 1) / 2; i >= 0; i--`, with `n` rounds
left, the next one at `i = n - 1`. -/
def heapSort.build {α : Type} (less : α → α → Bool) (hi first : Nat) :
    Nat → List α → List α
  | 0, l => l
  | n + 1, l => heapSort.build less hi first n (siftDown_func less l n hi first)

/-- The second loop of `heapSort_func`, `for i := hi - 1; i >= 0; i--`, with `n` rounds left,
the next one at `i = n - 1`. -/
def heapSort.pop {α : Type} (less : α → α → Bool) (first : Nat) : Nat → List α → List α
  | 0, l => l
  | n + 1, l =>
    heapSort.pop less first n (siftDown_func less (swapAt l first (first + n)) 0 n first)

/-- Go `heapSort_func(data, a, b)`. -/
def heapSort_func {α : Type} (less : α → α → Bool) (l : List α) (a b : Nat) : List α :=
  heapSort.pop less a (b - a) (heapSort.build less (b - a) a ((b - a - 1) / 2 + 1) l)

/-- A loop `for i <= j && p(i) { i++ }`: the final `i`. -/
def scanUp (p : Nat → Bool) (j : Nat) : Nat → Nat → Nat
  | 0, i => i
  | f + 1, i => if i ≤ j ∧ p i = true then scanUp p j f (i + 1) else i

/-- A loop `for i <= j && p(j) { j-- }`: the final `j`. -/
def scanDown (p : Nat → Bool) (i : Nat) : Nat → Nat → Nat
  | 0, j => j
  | f + 1, j => if i ≤ j ∧ p j = true then scanDown p i f (j - 1) else j

/-- The endless loop of `partition_func`: both scans, the test `i > j` that leaves the loop,
the swap and the two steps.  It returns the slice and `j`. -/
def partition.loop {α : Type} (less : α → α → Bool) (a : Nat) :
    Nat → Nat → Nat → List α → List α × Nat
  | 0, _, j, l => (l, j)
  | f + 1, i, j, l =>
    let i1 := scanUp (fun k => lessAt less l k a) j (j + 1 - i) i
    let j1 := scanDown (fun k => !lessAt less l k a) i1 (j + 1 - i1) j
    if j1 < i1 then (l, j1)
    else partition.loop less a f (i1 + 1) (j1 - 1) (swapAt l i1 j1)

/-- Go `partition_func(data, a, b, pivot)`: the slice, the new index of the pivot and whether
the slice was already partitioned. -/
def partition_func {α : Type} (less : α → α → Bool) (l : List α) (a b pivot : Nat) :
    List α × Nat × Bool :=
  let l0 := swapAt l a pivot
  let i := scanUp (fun k => lessAt less l0 k a) (b - 1) (b - 1 + 1 - (a + 1)) (a + 1)
  let j := scanDown (fun k => !lessAt less l0 k a) i (b - 1 + 1 - i) (b - 1)
  if j < i then (swapAt l0 j a, j, true)
  else
    let r := partition.loop less a (b - a) (i + 1) (j - 1) (swapAt l0 i j)
    (swapAt r.1 r.2 a, r.2, false)

/-- The endless loop of `partitionEqual_func`; it returns the slice and `i`. -/
def partitionEqual.loop {α : Type} (less : α → α → Bool) (a : Nat) :
    Nat → Nat → Nat → List α → List α × Nat
  | 0, i, _, l => (l, i)
  | f + 1, i, j, l =>
    let i1 := scanUp (fun k => !lessAt less l a k) j (j + 1 - i) i
    let j1 := scanDown (fun k => lessAt less l a k) i1 (j + 1 - i1) j
    if j1 < i1 then (l, i1)
    else partitionEqual.loop less a f (i1 + 1) (j1 - 1) (swapAt l i1 j1)

/-- Go `partitionEqual_func(data, a, b, pivot)`: the slice and the returned index. -/
def partitionEqual_func {α : Type} (less : α → α → Bool) (l : List α) (a b pivot : Nat) :
    List α × Nat :=
  partitionEqual.loop less a (b - a + 1) (a + 1) (b - 1) (swapAt l a pivot)

/-- The scan `for i < b && !data.Less(i, i-1) { i++ }` of `partialInsertionSort_func`. -/
def partialInsertionSort.scan {α : Type} (less : α → α → Bool) (l : List α) (b : Nat) :
    Nat → Nat → Nat
  | 0, i => i
  | f + 1, i =>
    if i < b ∧ lessAt less l i (i - 1) = false then partialInsertionSort.scan less l b f (i + 1)
    else i

/-- The loop `for j := i - 1; j >= 1; j--` of `partialInsertionSort_func` that shifts the
smaller entry to the left, entered at `j`. -/
def partialInsertionSort.shiftLeft {α : Type} (less : α → α → Bool) : Nat → List α → List α
  | 0, l => l
  | j + 1, l =>
    if lessAt less l (j + 1) j = false then l
    else partialInsertionSort.shiftLeft less j (swapAt l (j + 1) j)

/-- The loop `for j := i + 1; j < b; j++` of `partialInsertionSort_func` that shifts the
greater entry to the right, entered at `j`. -/
def partialInsertionSort.shiftRight {α : Type} (less : α → α → Bool) (b : Nat) :
    Nat → Nat → List α → List α
  | 0, _, l => l
  | f + 1, j, l =>
    if j < b then
      if lessAt less l j (j - 1) = false then l
      else partialInsertionSort.shiftRight less b f (j + 1) (swapAt l j (j - 1))
    else l

/-- The loop `for j := 0; j < maxSteps; j++` of `partialInsertionSort_func`, with `n` rounds
left. -/
def partialInsertionSort.steps {α : Type} (less : α → α → Bool) (a b : Nat) :
    Nat → Nat → List α → List α × Bool
  | 0, _, l => (l, false)
  | n + 1, i, l =>
    let i1 := partialInsertionSort.scan less l b (b - i) i
    if i1 = b then (l, true)
    else if b - a < 50 then (l, false)
    else
      let l1 := swapAt l i1 (i1 - 1)
      let l2 := if 2 ≤ i1 - a then partialInsertionSort.shiftLeft less (i1 - 1) l1 else l1
      let l3 :=
        if 2 ≤ b - i1 then partialInsertionSort.shiftRight less b (b - (i1 + 1)) (i1 + 1) l2
        else l2
      partialInsertionSort.steps less a b n i1 l3

/-- Go `partialInsertionSort_func(data, a, b)`: the slice and whether it is sorted at the
end. -/
def partialInsertionSort_func {α : Type} (less : α → α → Bool) (l : List α) (a b : Nat) :
    List α × Bool :=
  partialInsertionSort.steps less a b 5 (a + 1) l

/-- Go `bits.Len(x)`: the number of bits of `x`, zero for zero. -/
def bitsLen : Nat → Nat → Nat
  | 0, _ => 0
  | f + 1, x => if x = 0 then 0 else bitsLen f (x / 2) + 1

/-- Go `nextPowerOfTwo(length)`. -/
def nextPowerOfTwo (length : Nat) : Nat := 2 ^ bitsLen length length

/-- The loop `for i := 0; i < 3; i++` of `breakPatterns_func`, with `n` rounds left.  `next`
is `xorshift.Next`, the step of the generator `random`: it maps the state to the new state,
which is also the number drawn. -/
def breakPatterns.loop {α : Type} (next : Nat → Nat) (a length modulus idx : Nat) :
    Nat → Nat → Nat → List α → List α
  | 0, _, _, l => l
  | n + 1, i, random, l =>
    let random1 := next random
    let other := random1 &&& (modulus - 1)
    let other1 := if length ≤ other then other - length else other
    breakPatterns.loop next a length modulus idx n (i + 1) random1
      (swapAt l (idx - 1 + i) (a + other1))

/-- Go `breakPatterns_func(data, a, b)`, with `random := xorshift(length)`. -/
def breakPatterns_func {α : Type} (next : Nat → Nat) (l : List α) (a b : Nat) : List α :=
  if 8 ≤ b - a then
    breakPatterns.loop next a (b - a) (nextPowerOfTwo (b - a)) (a + (b - a) / 4 * 2 - 1) 3 0
      (b - a) l
  else l

/-- Go `sortedHint`. -/
inductive sortedHint where
  | unknownHint
  | increasingHint
  | decreasingHint
deriving DecidableEq

/-- Go `order2_func(data, a, b, swaps)`: the two indices in order and the new count. -/
def order2_func {α : Type} (less : α → α → Bool) (l : List α) (a b swaps : Nat) :
    Nat × Nat × Nat :=
  if lessAt less l b a = true then (b, a, swaps + 1) else (a, b, swaps)

/-- Go `median_func(data, a, b, c, swaps)`: the index of the median and the new count. -/
def median_func {α : Type} (less : α → α → Bool) (l : List α) (a b c swaps : Nat) :
    Nat × Nat :=
  let r1 := order2_func less l a b swaps
  let r2 := order2_func less l r1.2.1 c r1.2.2
  let r3 := order2_func less l r1.1 r2.1 r2.2.2
  (r3.2.1, r3.2.2)

/-- Go `medianAdjacent_func(data, a, swaps)`. -/
def medianAdjacent_func {α : Type} (less : α → α → Bool) (l : List α) (a swaps : Nat) :
    Nat × Nat :=
  median_func less l (a - 1) a (a + 1) swaps

/-- Go `choosePivot_func(data, a, b)`. -/
def choosePivot_func {α : Type} (less : α → α → Bool) (l : List α) (a b : Nat) :
    Nat × sortedHint :=
  let len := b - a
  let i := a + len / 4 * 1
  let j := a + len / 4 * 2
  let k := a + len / 4 * 3
  let r :=
    if 8 ≤ len then
      if 50 ≤ len then
        let ri := medianAdjacent_func less l i 0
        let rj := medianAdjacent_func less l j ri.2
        let rk := medianAdjacent_func less l k rj.2
        median_func less l ri.1 rj.1 rk.1 rk.2
      else median_func less l i j k 0
    else (j, 0)
  if r.2 = 0 then (r.1, sortedHint.increasingHint)
  else if r.2 = 12 then (r.1, sortedHint.decreasingHint)
  else (r.1, sortedHint.unknownHint)

/-- The loop `for i < j` of `reverseRange_func`. -/
def reverseRange.loop {α : Type} : Nat → Nat → Nat → List α → List α
  | 0, _, _, l => l
  | f + 1, i, j, l => if i < j then reverseRange.loop f (i + 1) (j - 1) (swapAt l i j) else l

/-- Go `reverseRange_func(data, a, b)`. -/
def reverseRange_func {α : Type} (l : List α) (a b : Nat) : List α :=
  reverseRange.loop (b - a) a (b - 1) l

/-- Go `pdqsort_func(data, a, b, limit)`.  The loop of the Go function is the recursion on
the part that is left; `wasBalanced` and `wasPartitioned` are its two local variables, true
on entry.  Every round makes the part shorter, so its length bounds the rounds. -/
def pdqsort.loop {α : Type} (next : Nat → Nat) (less : α → α → Bool) :
    Nat → List α → Nat → Nat → Nat → Bool → Bool → List α
  | 0, l, _, _, _, _, _ => l
  | f + 1, l, a, b, limit, wasBalanced, wasPartitioned =>
    if b - a ≤ 12 then insertionSort_func less l a b
    else if limit = 0 then heapSort_func less l a b
    else
      let l1 := if wasBalanced then l else breakPatterns_func next l a b
      let limit1 := if wasBalanced then limit else limit - 1
      let c := choosePivot_func less l1 a b
      let l2 := if c.2 = sortedHint.decreasingHint then reverseRange_func l1 a b else l1
      let pivot := if c.2 = sortedHint.decreasingHint then (b - 1) - (c.1 - a) else c.1
      let hint :=
        if c.2 = sortedHint.decreasingHint then sortedHint.increasingHint else c.2
      let p :=
        if wasBalanced ∧ wasPartitioned ∧ hint = sortedHint.increasingHint then
          partialInsertionSort_func less l2 a b
        else (l2, false)
      if p.2 = true then p.1
      else if 0 < a ∧ lessAt less p.1 (a - 1) pivot = false then
        let e := partitionEqual_func less p.1 a b pivot
        pdqsort.loop next less f e.1 e.2 b limit1 wasBalanced wasPartitioned
      else
        let q := partition_func less p.1 a b pivot
        let mid := q.2.1
        if mid - a < b - mid then
          pdqsort.loop next less f (pdqsort.loop next less f q.1 a mid limit1 true true) (mid + 1) b
            limit1 (decide ((b - a) / 8 ≤ mid - a)) q.2.2
        else
          pdqsort.loop next less f (pdqsort.loop next less f q.1 (mid + 1) b limit1 true true) a mid
            limit1 (decide ((b - a) / 8 ≤ b - mid)) q.2.2

/-- Go `pdqsort_func(data, a, b, limit)`. -/
def pdqsort_func {α : Type} (next : Nat → Nat) (less : α → α → Bool) (l : List α)
    (a b limit : Nat) : List α :=
  pdqsort.loop next less (b - a) l a b limit true true

/-- Go `sort.Slice(x, less)`: the slice after the call.  `less(i, j)` compares the entries
that are at `i` and `j` when it is called.  `next` is the step `xorshift.Next` of the
generator that `breakPatterns_func` draws from. -/
def Slice {α : Type} (next : Nat → Nat) (less : α → α → Bool) (x : List α) : List α :=
  pdqsort_func next less x 0 x.length (bitsLen x.length x.length)

end sort

/-- `sortUsers(users)`: the slice after the call.  `next` is the step of the generator of
`sort.Slice`, `lower` the rune map of `strings.ToLower`. -/
def sortUsers (next : Nat → Nat) (lower : Char → Char) (users : List user) : List user :=
  sort.Slice next
    (fun a b => strings.less (strings.ToLower lower a.Name) (strings.ToLower lower b.Name))
    users

/-! ## The CSV parsers of `roster/parser/RosterParser.go` -/

namespace strings

/-- Go `strings.Trim(s, cutset)`: `s` without its leading and trailing code points that
occur in `cutset`. -/
def Trim (s cutset : Text) : Text :=
  ((s.dropWhile (fun c => cutset.contains c)).reverse.dropWhile
    (fun c => cutset.contains c)).reverse

end strings

namespace strconv

/-- Go `strconv.ParseInt(s, 10, 64)`, `none` standing for any error: an optional sign, then
at least one character, all of them decimal digits, denoting a number that fits 64 bits. -/
def ParseInt (s : Text) : Option Int :=
  let neg : Bool := s.head? = some '-'
  let digits : Text := if s.head? = some '+' ∨ s.head? = some '-' then s.tail else s
  if digits = [] ∨ digits.all Char.isDigit = false then none
  else
    let un : Nat := digits.foldl (fun n c => n * 10 + digitVal c) 0
    if neg then (if 2 ^ 63 < un then none else some (-(un : Int)))
    else (if 2 ^ 63 ≤ un then none else some (un : Int))

/-- Go `strconv.Atoi(s)` where `int` has 64 bits. -/
def Atoi (s : Text) : Option Int := ParseInt s

end strconv

/-- The constant `SPACE`. -/
def SPACE : Text := " ".toList

/-- `parseString(value)`. -/
def parseString (value : Text) : Text := strings.Trim value SPACE

/-- `parseInt(value)`: zero when the trimmed text is not a number. -/
def parseInt (value : Text) : Int := (strconv.Atoi (strings.Trim value SPACE)).getD 0

/-- `parseInt64(value)`: zero when the trimmed text is not a number. -/
def parseInt64 (value : Text) : Int := (strconv.ParseInt (strings.Trim value SPACE)).getD 0

/-- The error `EmptyRosterError`. -/
def EmptyRosterError : Text := "roster file is empty".toList

/-- The raw adult user that `ParseAdultRoster` builds from a record with at least 13
fields. -/
def adultOfRecord (record : List Text) : AdultScoutbookUser :=
  { FirstName := parseString (record[1]?.getD []),
    LastName := parseString (record[2]?.getD []),
    Email := parseString (record[3]?.getD []),
    Gender := parseString (record[4]?.getD []),
    BsaId := parseInt64 (record[5]?.getD []),
    UnitNumber := parseString (record[6]?.getD []),
    Training := parseString (record[7]?.getD []),
    TrainingExpiration := parseString (record[8]?.getD []),
    HealthForms := parseString (record[9]?.getD []),
    SwimClass := parseString (record[10]?.getD []),
    SwimClassExpiration := parseString (record[11]?.getD []),
    Positions := parseString (record[12]?.getD []) }

/-- The raw youth user that `ParseYouthRoster` builds from a record with at least 14 fields;
the `Email` field is left unset. -/
def youthOfRecord (record : List Text) : YouthScoutbookUser :=
  { FirstName := parseString (record[1]?.getD []),
    LastName := parseString (record[2]?.getD []),
    BsaId := parseInt64 (record[3]?.getD []),
    Email := [],
    DateOfBirth := parseString (record[4]?.getD []),
    Age := parseInt (record[5]?.getD []),
    Gender := parseString (record[6]?.getD []),
    HealthForms := parseString (record[7]?.getD []),
    SwimClass := parseString (record[8]?.getD []),
    SwimClassExpiration := parseString (record[9]?.getD []),
    Positions := parseString (record[10]?.getD []),
    Patrol := parseString (record[11]?.getD []),
    Training := parseString (record[12]?.getD []),
    TrainingExpiration := parseString (record[13]?.getD []) }

/-- The loop of `ParseAdultRoster` over `records[2:]`; indexing `record[12]` panics on a
record with fewer than 13 fields. -/
def csvParser.ParseAdultRoster.loop :
    List (List Text) → List AdultScoutbookUser → Outcome (List AdultScoutbookUser)
  | [], users => .returned users none
  | record :: rest, users =>
    if record.length ≤ 12 then .panicked
    else csvParser.ParseAdultRoster.loop rest (users ++ [adultOfRecord record])

/-- `ParseAdultRoster(input)`, as a function of what `csv.NewReader(input).ReadAll()`
returns: the records of the file, or an error. -/
def csvParser.ParseAdultRoster (readAll : Except Text (List (List Text))) :
    Outcome (List AdultScoutbookUser) :=
  match readAll with
  | .error err => .returned [] (some err)
  | .ok records =>
    if records.length ≤ 2 then .returned [] (some EmptyRosterError)
    else csvParser.ParseAdultRoster.loop (records.drop 2) []

/-- The loop of `ParseYouthRoster` over `records[2:]`; indexing `record[13]` panics on a
record with fewer than 14 fields. -/
def csvParser.ParseYouthRoster.loop :
    List (List Text) → List YouthScoutbookUser → Outcome (List YouthScoutbookUser)
  | [], users => .returned users none
  | record :: rest, users =>
    if record.length ≤ 13 then .panicked
    else csvParser.ParseYouthRoster.loop rest (users ++ [youthOfRecord record])

/-- `ParseYouthRoster(input)`, as a function of what `csv.NewReader(input).ReadAll()`
returns. -/
def csvParser.ParseYouthRoster (readAll : Except Text (List (List Text))) :
    Outcome (List YouthScoutbookUser) :=
  match readAll with
  | .error err => .returned [] (some err)
  | .ok records =>
    if records.length ≤ 2 then .returned [] (some EmptyRosterError)
    else csvParser.ParseYouthRoster.loop (records.drop 2) []

/-! ## Specification vocabulary -/

/-- Whether the characters of a text satisfy, one by one, a list of classes. -/
def shaped : List (Char → Bool) → Text → Bool
  | [], [] => true
  | p :: ps, x :: t => p x && shaped ps t
  | [], _ :: _ => false
  | _ :: _, [] => false

/-- The classes of a date token: two digits, `/`, two digits, `/`, four digits. -/
def dateShape : List (Char → Bool) :=
  [Regex.isReDigit, Regex.isReDigit, (· == '/'), Regex.isReDigit, Regex.isReDigit, (· == '/'),
    Regex.isReDigit, Regex.isReDigit, Regex.isReDigit, Regex.isReDigit]

/-- Whether a text is a date token. -/
def dateShaped (dt : Text) : Bool := shaped dateShape dt

/-- The pattern matching one character of each class in turn. -/
def Regex.classes : List (Char → Bool) → Regex
  | [] => Regex.eps
  | p :: ps => Regex.cat (Regex.cls p) (Regex.classes ps)

/-- The text left after an optional `(Expired)` marker, itself after optional whitespace. -/
def expiredRest (post : Text) : Text :=
  if "(Expired)".toList <+: post.dropWhile Regex.isReSpace then
    (post.dropWhile Regex.isReSpace).drop 9
  else post

/-- A direct reading of the health-form pattern at the start of `s`: the date token, the tag
and the text after the closing parenthesis of the tag. -/
def healthTokenAt? (s : Text) : Option (Text × Text × Text) :=
  if dateShaped (s.take 10) then
    match (s.drop 10).dropWhile Regex.isReSpace with
    | '(' :: r =>
      if "AB)".toList <+: r then some (s.take 10, "AB".toList, r.drop 3)
      else if "C)".toList <+: r then some (s.take 10, "C".toList, r.drop 2)
      else none
    | _ => none
  else none

/-- Date token and tag of the leftmost health-form token of a segment. -/
def firstHealthToken? : Text → Option (Text × Text)
  | [] => none
  | x :: t =>
    match healthTokenAt? (x :: t) with
    | some (dt, tag, _) => some (dt, tag)
    | none => firstHealthToken? t

/-- The training pattern after its name group:
`\s*\(Expiration Date:\s*(?P<date>\d{2}/\d{2}/\d{4})\)`. -/
def expirationPattern : Regex :=
  .cat (.star Regex.isReSpace true)
    (.cat (Regex.str "(Expiration Date:".toList)
      (.cat (.star Regex.isReSpace true)
        (.cat (.group 2 "date".toList Regex.datePattern) (.lit ')'))))

/-- The literal part of the training pattern. -/
def expirationMarker : Text := "(Expiration Date:".toList

/-- A direct reading of the training pattern after the name group, at the start of `s`:
optional whitespace, the marker, optional whitespace, a date token and `)`.  Gives the date
token and the text after the closing parenthesis. -/
def expirationAt? (s : Text) : Option (Text × Text) :=
  if expirationMarker <+: s.dropWhile Regex.isReSpace then
    let s2 := ((s.dropWhile Regex.isReSpace).drop 17).dropWhile Regex.isReSpace
    if dateShaped (s2.take 10) then
      if [')'] <+: s2.drop 10 then some (s2.take 10, (s2.drop 10).drop 1) else none
    else none
  else none

/-- Date token of the leftmost place of a segment at which `expirationAt?` succeeds. -/
def firstExpiration? : Text → Option Text
  | [] => none
  | x :: t =>
    match expirationAt? (x :: t) with
    | some (dt, _) => some dt
    | none => firstExpiration? t

/-- `s` begins with an expiration marker for the date token `dt`: optional whitespace,
`(Expiration Date:`, optional whitespace, `dt` and `)`. -/
def ExpirationAt (s dt : Text) : Prop :=
  dateShaped dt = true ∧
    ∃ w1 w2 post, w1.all Regex.isReSpace = true ∧ w2.all Regex.isReSpace = true ∧
      s = w1 ++ expirationMarker ++ w2 ++ dt ++ ')' :: post

/-- The segment holds an expiration marker somewhere. -/
def HasExpiration (seg : Text) : Prop :=
  ∃ pre s dt, seg = pre ++ s ∧ ExpirationAt s dt

/-- The leftmost expiration marker of the segment has date token `dt`. -/
def FirstExpiration (seg dt : Text) : Prop :=
  ∃ pre s, seg = pre ++ s ∧ ExpirationAt s dt ∧
    ∀ pre2 s2 dt2, seg = pre2 ++ s2 → ExpirationAt s2 dt2 → pre.length ≤ pre2.length

/-- The record a segment contributes in `parseYouthTraining` when its date parses. -/
def youthRecordOf (seg : Text) : Option UserStatusRecord :=
  match trainingPattern.FindStringSubmatch seg with
  | none => none
  | some sub =>
    match ParseDate (sub[trainingPattern.SubexpIndex "date".toList]?.getD []) with
    | none => none
    | some d =>
      some (TrainingRecord
        (strings.TrimSpace (sub[trainingPattern.SubexpIndex "name".toList]?.getD [])) d)

/-- One entry of a well-formed youth training cell: the name, the date as written, the date
it denotes, and the separator that follows the segment. -/
structure YouthEntry where
  name : Text
  dateText : Text
  date : Date
  sep : Text

/-- The segment `<name> (Expiration Date: <d>)`. -/
def youthSegment (name dateText : Text) : Text :=
  name ++ " (Expiration Date: ".toList ++ dateText ++ ")".toList

/-- The cell made of the segments of the entries, each followed by its separator. -/
def youthCell : List YouthEntry → Text
  | [] => []
  | e :: rest => youthSegment e.name e.dateText ++ e.sep ++ youthCell rest

/-- A padded pipe: `|` with regexp whitespace on either side. -/
def PaddedPipe (sep : Text) : Prop :=
  ∃ w1 w2, w1.all Regex.isReSpace = true ∧ w2.all Regex.isReSpace = true ∧
    sep = w1 ++ '|' :: w2

/-- A name text: no pipe, no line feed, no complete expiration marker
`(Expiration Date: dd/dd/dddd)` inside it, and no leading or trailing whitespace (trimming
leaves it unchanged). -/
def YouthName (name : Text) : Prop :=
  '|' ∉ name ∧ '\n' ∉ name ∧ ¬ HasExpiration name ∧ strings.TrimSpace name = name

/-- Every entry has a name text and a date; every segment but the last is followed by a
padded pipe, and the last by a padded pipe or by nothing. -/
def WellFormedYouth : List YouthEntry → Prop
  | [] => True
  | e :: rest =>
    YouthName e.name ∧ ParseDate e.dateText = some e.date ∧
      (PaddedPipe e.sep ∨ (e.sep = [] ∧ rest = [])) ∧ WellFormedYouth rest

/-- A piece of text without a pipe whose last character is not regexp whitespace. -/
def Tight (a : Text) : Prop :=
  '|' ∉ a ∧ ∃ t x, a = t ++ [x] ∧ Regex.isReSpace x = false

/-- The pieces into which the padded-pipe split cuts the text `a ++ sep ++ youthCell rest`. -/
def youthPieces (a sep : Text) : List YouthEntry → List Text
  | [] => if sep = [] then [a] else [a, []]
  | e :: rest =>
    a :: youthPieces ((youthSegment e.name e.dateText).dropWhile Regex.isReSpace) e.sep rest

/-- `s` begins with a health-form token: the date token `dt`, optional whitespace and the
parenthesised tag `tag`, which is `AB` or `C`. -/
def HealthTokenAt (s dt tag : Text) : Prop :=
  dateShaped dt = true ∧ (tag = "AB".toList ∨ tag = "C".toList) ∧
    ∃ w post, w.all Regex.isReSpace = true ∧ s = dt ++ w ++ '(' :: tag ++ ')' :: post

/-- The segment holds a health-form token somewhere. -/
def HasHealthToken (seg : Text) : Prop :=
  ∃ pre s dt tag, seg = pre ++ s ∧ HealthTokenAt s dt tag

/-- The leftmost health-form token of the segment has date token `dt` and tag `tag`. -/
def FirstHealthToken (seg dt tag : Text) : Prop :=
  ∃ pre s, seg = pre ++ s ∧ HealthTokenAt s dt tag ∧
    ∀ pre2 s2 dt2 tag2, seg = pre2 ++ s2 → HealthTokenAt s2 dt2 tag2 → pre.length ≤ pre2.length

/-- The record a segment contributes: that of its leftmost health-form token, provided the
date token is a calendar date. -/
def healthFormOf (seg : Text) : Option UserStatusRecord :=
  match firstHealthToken? seg with
  | none => none
  | some (dt, tag) =>
    match ParseDate dt with
    | none => none
    | some d =>
      some { Type_ := RecordType.HealthForm,
             Name := if tag = "AB".toList then "Health Form Parts A/B".toList
               else "Health Form Part C".toList,
             ExpirationDate := d }

/-- The record of a health-form token: labelled by the tag, expiring on the date. -/
def healthFormRecord (tag : Text) (d : Date) : UserStatusRecord :=
  { Type_ := RecordType.HealthForm,
    Name := if tag = "AB".toList then "Health Form Parts A/B".toList
      else "Health Form Part C".toList,
    ExpirationDate := d }

/-- The record a non-empty training segment at split index `p.1` may produce: its label is the
segment, its date the parsed expiration entry at the same index (a missing entry reads as the
empty string). -/
def AdultPairing (expirations : List Text) (p : Nat × Text) (r : UserStatusRecord) : Prop :=
  ∃ d, ParseDate (expirations[p.1]?.getD []) = some d ∧ r = TrainingRecord p.2 d

/-- A non-empty training segment at split index `i` whose paired expiration entry is missing
or is not a date. -/
def Offending (ts es : List Text) (i : Nat) (t : Text) : Prop :=
  ts[i]? = some t ∧ t ≠ [] ∧ (es[i]? = none ∨ ∃ e, es[i]? = some e ∧ ParseDate e = none)

/-- Length of a month of the Gregorian calendar: thirty days for April, June, September and
November, thirty-one for the other months but February, which has twenty-nine days in a leap
year (a year divisible by 4, and not by 100 unless also by 400) and twenty-eight otherwise. -/
def gregorianMonthLength (year month : Nat) : Nat :=
  match month with
  | 1 => 31
  | 2 => if year % 4 = 0 ∧ (year % 100 ≠ 0 ∨ year % 400 = 0) then 29 else 28
  | 3 => 31
  | 4 => 30
  | 5 => 31
  | 6 => 30
  | 7 => 31
  | 8 => 31
  | 9 => 30
  | 10 => 31
  | 11 => 30
  | 12 => 31
  | _ => 0

/-- The adult row `Dan Dewey` of the mapping test, with the given positions cell. -/
def adultRow (positions : Text) : AdultScoutbookUser :=
  { FirstName := "Dan".toList, LastName := "Dewey".toList,
    Email := "ddewey@example.com".toList, Gender := "M".toList, BsaId := 4,
    UnitNumber := "Troop 77 B".toList,
    Training := "Y01 Youth Protection Training Certification".toList,
    TrainingExpiration := "02/22/2027".toList, HealthForms := [], SwimClass := [],
    SwimClassExpiration := [], Positions := positions }

/-- The youth row `Abe Ames` of the mapping test, with the given first name, date-of-birth
cell and positions cell. -/
def youthRow (firstName dateOfBirth positions : Text) : YouthScoutbookUser :=
  { FirstName := firstName, LastName := "Ames".toList, BsaId := 100, Email := [],
    DateOfBirth := dateOfBirth, Age := 10, Gender := "M".toList,
    HealthForms := "06/19/2026(AB) | 06/08/2026(C)".toList, SwimClass := [],
    SwimClassExpiration := [], Positions := positions, Patrol := "Vikings".toList,
    Training := [], TrainingExpiration := [] }

/-- A text without the whitespace at its start. -/
def stripLeft (s : Text) : Text := s.dropWhile Regex.isReSpace

/-- A text without the whitespace at its end. -/
def stripRight (s : Text) : Text := s.rdropWhile Regex.isReSpace

/-- The fields of a text between its pipes, one more than it has pipes. -/
def pipeFields : Text → List Text
  | [] => [[]]
  | c :: s =>
    if c = '|' then [] :: pipeFields s
    else
      match pipeFields s with
      | [] => [[c]]
      | f :: fs => (c :: f) :: fs

/-- The fields without the whitespace that touches a pipe: every field but the first loses
the whitespace at its start and every field but the last the whitespace at its end.  The
flag tells whether the head of the list is the first field of the text. -/
def trimFields : Bool → List Text → List Text
  | _, [] => []
  | first, [f] => [if first then f else stripLeft f]
  | first, f :: g :: fs =>
    stripRight (if first then f else stripLeft f) :: trimFields false (g :: fs)

/-- The pieces of a text between its padded pipes, a pipe with the whitespace around it. -/
def paddedPieces (s : Text) : List Text := trimFields true (pipeFields s)

/-- Two texts that are equal, or of which the second is the first with the text `ins`
inserted right after an occurrence of `tag`. -/
def InsertedAfter (tag ins a b : Text) : Prop :=
  a = b ∨ ∃ u v, a = u ++ tag ++ v ∧ b = u ++ tag ++ ins ++ v

/-- The text after the last line feed of `pre`, all of `pre` when it has none. -/
def lastLine (pre : Text) : Text := pre.rtakeWhile Regex.isDot

/-! ### The vocabulary of the sort -/

namespace sort

/-- The exchange of the indices `i` and `j`, at `k`. -/
def tr (i j k : Nat) : Nat := if k = i then j else if k = j then i else k

/-- The function `less` is a strict weak order: it is asymmetric, and what is less than an
entry is less than any other entry or has that other entry below the first. -/
def StrictWeakOrder {α : Type} (less : α → α → Bool) : Prop :=
  (∀ a b, less a b = true → less b a = false) ∧
  (∀ a b c, less c a = true → less c b = true ∨ less b a = true)

/-- The entries of `l` at the indices `a ≤ i < b` are in order: no later one is less than an
earlier one. -/
def SortedOn {α : Type} (less : α → α → Bool) (a b : Nat) (l : List α) : Prop :=
  ∀ i j, a ≤ i → i < j → j < b → lessAt less l j i = false

/-- The slice `l2` is `l` with the entries at the indices `a ≤ i < b` rearranged: the same
length, a permutation, the same entry at every other index, and every entry of the part an
entry of the part before. -/
def Within {α : Type} (a b : Nat) (l l2 : List α) : Prop :=
  l2.length = l.length ∧ l2.Perm l ∧ (∀ k, k < a ∨ b ≤ k → l2[k]? = l[k]?) ∧
  (∀ k, a ≤ k → k < b → ∃ k2, a ≤ k2 ∧ k2 < b ∧ l2[k]? = l[k2]?)

/-- The entry before the part `a ≤ i < b` of `l`, if there is one, is less than no entry of
the part. -/
def LowerB {α : Type} (less : α → α → Bool) (a b : Nat) (l : List α) : Prop :=
  ∀ k, 0 < a → a ≤ k → k < b → lessAt less l k (a - 1) = false

/-- The heap that starts at the index `first` of `l` is in order at every node from `lo` on
other than `root`: no child below `hi` of such a node is greater than the node. -/
def HeapEx {α : Type} (less : α → α → Bool) (first lo hi root : Nat) (l : List α) : Prop :=
  ∀ r c, lo ≤ r → r ≠ root → (c = 2 * r + 1 ∨ c = 2 * r + 2) → c < hi →
    lessAt less l (first + r) (first + c) = false

end sort

/-! ## Lemmas on the library model -/

theorem ParseDate_nil : ParseDate [] = none := rfl

theorem getD_guard (es : List Text) (i : Nat) :
    (if es.length > i then es[i]?.getD [] else []) = es[i]?.getD [] := by
  split
  · rfl
  · rw [List.getElem?_eq_none (by omega)]; rfl

namespace strings

theorem startsWith_iff (s sub : Text) : startsWith s sub = true ↔ sub <+: s := by
  induction s generalizing sub with
  | nil => cases sub <;> simp [startsWith]
  | cons x s ih =>
    cases sub with
    | nil => simp [startsWith]
    | cons y sub =>
      simp only [startsWith, Bool.and_eq_true, decide_eq_true_eq, ih, List.cons_prefix_cons]
      constructor <;> rintro ⟨rfl, h⟩ <;> exact ⟨rfl, h⟩

theorem Contains_iff (s sub : Text) : Contains s sub = true ↔ sub <:+: s := by
  induction s with
  | nil =>
    simp only [Contains, startsWith_iff, List.prefix_nil, List.infix_nil]
  | cons x s ih =>
    simp only [Contains, Bool.or_eq_true, startsWith_iff, ih, List.infix_cons_iff]

end strings

/-! ## The matcher: repetition, literals and search -/

namespace Regex

theorem run_str {α : Type} (w t : Text) (c : Caps) (k : Text → Caps → Option α) :
    run (str w) (w ++ t) c k = k t c := by
  induction w with
  | nil => rfl
  | cons x w ih => simpa [str, run] using ih

theorem run_str_none {α : Type} (w s : Text) (c : Caps) (k : Text → Caps → Option α)
    (h : ¬ w <+: s) : run (str w) s c k = none := by
  induction w generalizing s with
  | nil => exact absurd List.nil_prefix h
  | cons x w ih =>
    cases s with
    | nil => rfl
    | cons y s =>
      simp only [str, run]
      by_cases hxy : y = x
      · subst hxy
        rw [if_pos rfl]
        exact ih s (fun hp => h ((List.cons_prefix_cons).mpr ⟨rfl, hp⟩))
      · rw [if_neg hxy]

theorem runStar_greedy_reject {α : Type} (p : Char → Bool) (k : Text → Caps → Option α)
    (hk : ∀ x t c, p x = true → k (x :: t) c = none) (s : Text) (c : Caps) :
    runStar p true k s c = k (s.dropWhile p) c := by
  induction s with
  | nil => rfl
  | cons x t ih =>
    by_cases hx : p x = true
    · simp only [runStar, if_true, hx, ih, List.dropWhile_cons_of_pos hx]
      cases h : k (t.dropWhile p) c with
      | none => exact hk x t c hx
      | some r => rfl
    · simp only [runStar, if_true, hx, List.dropWhile_cons_of_neg hx]
      simp

theorem runStar_greedy_first {α : Type} (p : Char → Bool) (k : Text → Caps → Option α)
    (s : Text) (c : Caps) (r : α) (h : k (s.dropWhile p) c = some r) :
    runStar p true k s c = some r := by
  induction s with
  | nil => exact h
  | cons x t ih =>
    by_cases hx : p x = true
    · rw [List.dropWhile_cons_of_pos hx] at h
      simp only [runStar, if_true, hx, ih h]
    · rw [List.dropWhile_cons_of_neg hx] at h
      simp only [runStar, if_true, hx]
      simpa using h

theorem runStar_lazy_here {α : Type} (p : Char → Bool) (k : Text → Caps → Option α)
    (s : Text) (c : Caps) (r : α) (h : k s c = some r) : runStar p false k s c = some r := by
  cases s with
  | nil => exact h
  | cons x t => simp [runStar, h]

theorem runStar_lazy_skip {α : Type} (p : Char → Bool) (k : Text → Caps → Option α)
    (u v : Text) (c : Caps) (hp : ∀ x ∈ u, p x = true)
    (hk : ∀ u1 u2, u = u1 ++ u2 → u2 ≠ [] → k (u2 ++ v) c = none) :
    runStar p false k (u ++ v) c = runStar p false k v c := by
  induction u with
  | nil => rfl
  | cons x u ih =>
    have h0 : k (x :: (u ++ v)) c = none := hk [] (x :: u) rfl (by simp)
    have hx : p x = true := hp x (by simp)
    simp only [List.cons_append, runStar, List.append_eq, h0, hx, if_true]
    simp only [Bool.false_eq_true, if_false]
    exact ih (fun y hy => hp y (by simp [hy]))
      (fun u1 u2 he hne => hk (x :: u1) u2 (by simp [he]) hne)

theorem runStar_lazy_none {α : Type} (p : Char → Bool) (k : Text → Caps → Option α)
    (s : Text) (c : Caps) (h : ∀ t, t <:+ s → k t c = none) :
    runStar p false k s c = none := by
  induction s with
  | nil => exact h [] (List.suffix_refl _)
  | cons x t ih =>
    have h0 : k (x :: t) c = none := h _ (List.suffix_refl _)
    have ht := ih (fun u hu => h u (hu.trans (List.suffix_cons x t)))
    simp only [runStar, h0, ht]
    simp

theorem runStar_lazy_some {α : Type} (p : Char → Bool) (k : Text → Caps → Option α)
    (s : Text) (c : Caps) (r : α) (h : runStar p false k s c = some r) :
    ∃ u v, s = u ++ v ∧ (∀ x ∈ u, p x = true) ∧ k v c = some r ∧
      ∀ u1 u2, u = u1 ++ u2 → u2 ≠ [] → k (u2 ++ v) c = none := by
  induction s with
  | nil => exact ⟨[], [], rfl, by simp, h, by simp⟩
  | cons x t ih =>
    cases h0 : k (x :: t) c with
    | some r0 =>
      have : runStar p false k (x :: t) c = some r0 := runStar_lazy_here p k _ c r0 h0
      rw [this] at h
      exact ⟨[], x :: t, rfl, by simp, by rw [h0, h], by simp⟩
    | none =>
      simp only [runStar, h0, Bool.false_eq_true, if_false] at h
      by_cases hx : p x = true
      · rw [if_pos hx] at h
        obtain ⟨u, v, rfl, hu, hv, hmin⟩ := ih h
        refine ⟨x :: u, v, rfl, ?_, hv, ?_⟩
        · intro y hy
          rcases List.mem_cons.mp hy with rfl | hy
          · exact hx
          · exact hu y hy
        · intro u1 u2 he hne
          cases u1 with
          | nil =>
            simp only [List.nil_append] at he
            subst he
            exact h0
          | cons y u1 =>
            simp only [List.cons_append, List.cons.injEq] at he
            exact hmin u1 u2 he.2 hne
      · rw [if_neg hx] at h
        cases h

theorem search_eq_none (re : Regex) (s : Text) :
    search re s = none ↔ ∀ t, t <:+ s → matchAt re t = none := by
  induction s with
  | nil =>
    simp only [search, List.suffix_nil]
    constructor
    · intro h t ht
      subst ht
      cases hm : matchAt re [] with
      | none => rfl
      | some r => rw [hm] at h; cases h
    · intro h
      rw [h [] rfl]
  | cons x t ih =>
    simp only [search]
    constructor
    · intro h u hu
      cases hm : matchAt re (x :: t) with
      | some r => rw [hm] at h; cases h
      | none =>
        rw [hm] at h
        rcases List.suffix_cons_iff.mp hu with rfl | hu
        · exact hm
        · refine ih.mp ?_ u hu
          cases hs : search re t with
          | none => rfl
          | some m => rw [hs] at h; cases h
    · intro h
      rw [h _ (List.suffix_refl _), ih.mpr (fun u hu => h u (hu.trans (List.suffix_cons x t)))]

theorem search_some (re : Regex) (pre t rest : Text) (caps : Caps)
    (hfail : ∀ p1 p2, pre = p1 ++ p2 → p2 ≠ [] → matchAt re (p2 ++ t) = none)
    (h : matchAt re t = some (rest, caps)) :
    search re (pre ++ t) = some ⟨pre, t.take (t.length - rest.length), rest, caps⟩ := by
  induction pre with
  | nil =>
    cases t with
    | nil => simp [search, h]
    | cons x t => simp [search, h]
  | cons x pre ih =>
    have h0 : matchAt re (x :: (pre ++ t)) = none := hfail [] (x :: pre) rfl (by simp)
    have := ih (fun p1 p2 he hne => hfail (x :: p1) p2 (by simp [he]) hne)
    simp only [List.cons_append, search, List.append_eq, h0, this]

theorem search_some_inv (re : Regex) (s : Text) (m : Match) (h : search re s = some m) :
    ∃ t, s = m.pre ++ t ∧ matchAt re t = some (m.post, m.caps) ∧
      m.text = t.take (t.length - m.post.length) ∧
      ∀ p1 p2, m.pre = p1 ++ p2 → p2 ≠ [] → matchAt re (p2 ++ t) = none := by
  induction s generalizing m with
  | nil =>
    simp only [search] at h
    cases hm : matchAt re [] with
    | none => rw [hm] at h; cases h
    | some r =>
      rw [hm] at h
      obtain ⟨rest, caps⟩ := r
      simp only [Option.some.injEq] at h
      subst h
      exact ⟨[], rfl, hm, by simp, by simp⟩
  | cons x t ih =>
    simp only [search] at h
    cases hm : matchAt re (x :: t) with
    | some r =>
      rw [hm] at h
      obtain ⟨rest, caps⟩ := r
      simp only [Option.some.injEq] at h
      subst h
      exact ⟨x :: t, rfl, hm, rfl, by simp⟩
    | none =>
      rw [hm] at h
      cases hs : search re t with
      | none => rw [hs] at h; cases h
      | some m0 =>
        rw [hs] at h
        simp only [Option.some.injEq] at h
        subst h
        obtain ⟨u, hu, hmu, htext, hmin⟩ := ih m0 hs
        refine ⟨u, by simp [hu], hmu, htext, ?_⟩
        intro p1 p2 he hne
        cases p1 with
        | nil =>
          simp only [List.nil_append] at he
          subst he
          simpa [← hu] using hm
        | cons y p1 =>
          simp only [List.cons_append, List.cons.injEq] at he
          exact hmin p1 p2 he.2 hne

end Regex

/-! ## The patterns of the parser -/

theorem shaped_length (ps : List (Char → Bool)) (s : Text) (h : shaped ps s = true) :
    s.length = ps.length := by
  induction ps generalizing s with
  | nil => cases s <;> simp_all [shaped]
  | cons p ps ih =>
    cases s with
    | nil => simp [shaped] at h
    | cons x t =>
      simp only [shaped, Bool.and_eq_true] at h
      simp [ih t h.2]

theorem dateShaped_length (dt : Text) (h : dateShaped dt = true) : dt.length = 10 :=
  shaped_length dateShape dt h

theorem run_classes {α : Type} (ps : List (Char → Bool)) (s : Text) (c : Caps)
    (k : Text → Caps → Option α) :
    Regex.run (Regex.classes ps) s c k =
      if shaped ps (s.take ps.length) then k (s.drop ps.length) c else none := by
  induction ps generalizing s with
  | nil => simp [Regex.classes, Regex.run, shaped]
  | cons p ps ih =>
    cases s with
    | nil => simp [Regex.classes, Regex.run, shaped]
    | cons x t =>
      simp only [Regex.classes, Regex.run, ih, List.length_cons, List.take_succ_cons,
        List.drop_succ_cons, shaped, Bool.and_eq_true]
      split_ifs <;> simp_all

theorem run_cat {α : Type} (r₁ r₂ : Regex) (s : Text) (c : Caps)
    (k : Text → Caps → Option α) :
    Regex.run (Regex.cat r₁ r₂) s c k = Regex.run r₁ s c (fun s1 c1 => Regex.run r₂ s1 c1 k) := by
  simp only [Regex.run]

theorem run_eps {α : Type} (s : Text) (c : Caps) (k : Text → Caps → Option α) :
    Regex.run Regex.eps s c k = k s c := by
  simp only [Regex.run]

theorem run_lit_eq_cls {α : Type} (a : Char) (s : Text) (c : Caps)
    (k : Text → Caps → Option α) :
    Regex.run (Regex.lit a) s c k = Regex.run (Regex.cls (· == a)) s c k := by
  cases s <;> simp [Regex.run]

theorem run_datePattern {α : Type} (s : Text) (c : Caps) (k : Text → Caps → Option α) :
    Regex.run Regex.datePattern s c k =
      if dateShaped (s.take 10) then k (s.drop 10) c else none := by
  have h : Regex.run Regex.datePattern s c k = Regex.run (Regex.classes dateShape) s c k := by
    simp only [Regex.datePattern, Regex.rep, Regex.classes, dateShape, run_cat, run_eps,
      run_lit_eq_cls]
  rw [h, run_classes]
  rfl

theorem run_group {α : Type} (i : Nat) (n : Text) (r : Regex) (s : Text) (c : Caps)
    (k : Text → Caps → Option α) :
    Regex.run (Regex.group i n r) s c k =
      Regex.run r s c (fun s1 c1 => k s1 ((i, s.take (s.length - s1.length)) :: c1)) := by
  simp only [Regex.run]

theorem isReSpace_ne (x a : Char) (hx : Regex.isReSpace x = true)
    (ha : Regex.isReSpace a = false) : x ≠ a := by
  rintro rfl
  rw [hx] at ha
  cases ha

theorem run_star {α : Type} (p : Char → Bool) (g : Bool) (s : Text) (c : Caps)
    (k : Text → Caps → Option α) :
    Regex.run (Regex.star p g) s c k = Regex.runStar p g k s c := by
  simp only [Regex.run]

theorem run_opt {α : Type} (r : Regex) (s : Text) (c : Caps) (k : Text → Caps → Option α) :
    Regex.run (Regex.opt r) s c k =
      match Regex.run r s c k with
      | some x => some x
      | none => k s c := by
  simp only [Regex.run]

theorem run_alt {α : Type} (r₁ r₂ : Regex) (s : Text) (c : Caps)
    (k : Text → Caps → Option α) :
    Regex.run (Regex.alt r₁ r₂) s c k =
      match Regex.run r₁ s c k with
      | some x => some x
      | none => Regex.run r₂ s c k := by
  simp only [Regex.run]

theorem run_lit_cons {α : Type} (a x : Char) (t : Text) (c : Caps)
    (k : Text → Caps → Option α) :
    Regex.run (Regex.lit a) (x :: t) c k = if x = a then k t c else none := by
  simp only [Regex.run]

theorem run_lit_nil {α : Type} (a : Char) (c : Caps) (k : Text → Caps → Option α) :
    Regex.run (Regex.lit a) [] c k = none := by
  simp only [Regex.run]

theorem run_space_then_str {α : Type} (w s : Text) (c : Caps) (k : Text → Caps → Option α)
    (hw : ∃ a t, w = a :: t ∧ Regex.isReSpace a = false) :
    Regex.run (Regex.cat (Regex.star Regex.isReSpace true) (Regex.str w)) s c k =
      if w <+: s.dropWhile Regex.isReSpace then
        k ((s.dropWhile Regex.isReSpace).drop w.length) c
      else none := by
  rw [run_cat, run_star, Regex.runStar_greedy_reject]
  · split_ifs with h
    · obtain ⟨u, hu⟩ := h
      rw [← hu, Regex.run_str]
      simp
    · exact Regex.run_str_none _ _ _ _ h
  · intro x u c1 hx
    obtain ⟨a, t, rfl, ha⟩ := hw
    exact Regex.run_str_none _ _ _ _
      (fun h => isReSpace_ne x a hx ha (List.cons_prefix_cons.mp h).1.symm)

theorem run_opt_expired (post : Text) (c : Caps) :
    Regex.run (Regex.opt (Regex.cat (Regex.star Regex.isReSpace true)
        (Regex.str "(Expired)".toList))) post c (fun rest caps => some (rest, caps)) =
      some (expiredRest post, c) := by
  rw [run_opt, run_space_then_str "(Expired)".toList post c _
    ⟨'(', "Expired)".toList, rfl, by decide⟩]
  unfold expiredRest
  split_ifs <;> rfl

theorem run_close_expired (u : Text) (c : Caps) :
    Regex.run (Regex.cat (Regex.lit ')') (Regex.opt (Regex.cat (Regex.star Regex.isReSpace true)
        (Regex.str "(Expired)".toList)))) u c (fun rest caps => some (rest, caps)) =
      if [')'] <+: u then some (expiredRest (u.drop 1), c) else none := by
  rw [run_cat]
  cases u with
  | nil => simp [run_lit_nil]
  | cons x post =>
    rw [run_lit_cons]
    by_cases hx : x = ')'
    · subst hx
      rw [if_pos rfl, run_opt_expired, if_pos ⟨post, rfl⟩]
      rfl
    · have : ¬ [')'] <+: x :: post := fun h => hx (List.cons_prefix_cons.mp h).1.symm
      rw [if_neg hx, if_neg this]

theorem run_tag (r : Text) (c : Caps) :
    Regex.run (Regex.cat (Regex.group 2 "type".toList
        (Regex.alt (Regex.str "AB".toList) (Regex.str "C".toList)))
      (Regex.cat (Regex.lit ')') (Regex.opt (Regex.cat (Regex.star Regex.isReSpace true)
        (Regex.str "(Expired)".toList))))) r c (fun rest caps => some (rest, caps)) =
      if "AB)".toList <+: r then some (expiredRest (r.drop 3), (2, "AB".toList) :: c)
      else if "C)".toList <+: r then some (expiredRest (r.drop 2), (2, "C".toList) :: c)
      else none := by
  have eAB : "AB".toList = ['A', 'B'] := rfl
  have eABc : "AB)".toList = ['A', 'B', ')'] := rfl
  have eC : "C".toList = ['C'] := rfl
  have eCc : "C)".toList = ['C', ')'] := rfl
  rw [run_cat, run_group, run_alt]
  by_cases hAB : "AB".toList <+: r
  · obtain ⟨u, rfl⟩ := hAB
    have hC : ¬ "C".toList <+: "AB".toList ++ u := by
      rw [eAB, eC]
      intro h
      exact absurd (List.cons_prefix_cons.mp h).1 (by decide)
    have hCc : ¬ "C)".toList <+: "AB".toList ++ u := by
      rw [eAB, eCc]
      intro h
      exact absurd (List.cons_prefix_cons.mp h).1 (by decide)
    rw [Regex.run_str, Regex.run_str_none _ _ _ _ hC, run_close_expired u]
    rw [if_neg hCc]
    by_cases hu : [')'] <+: u
    · obtain ⟨post, rfl⟩ := hu
      have : "AB)".toList <+: "AB".toList ++ ([')'] ++ post) := by
        rw [eAB, eABc]
        exact ⟨post, rfl⟩
      rw [if_pos this, if_pos ⟨post, rfl⟩]
      simp [eAB]
    · have : ¬ "AB)".toList <+: "AB".toList ++ u := by
        rw [eAB, eABc]
        rintro ⟨v, hv⟩
        exact hu ⟨v, by simpa using hv⟩
      rw [if_neg this, if_neg hu]
  · have hABc : ¬ "AB)".toList <+: r := by
      rintro ⟨v, rfl⟩
      exact hAB ⟨')' :: v, by simp [eAB, eABc]⟩
    rw [Regex.run_str_none _ _ _ _ hAB, if_neg hABc]
    by_cases hC : "C".toList <+: r
    · obtain ⟨u, rfl⟩ := hC
      rw [Regex.run_str, run_close_expired u]
      by_cases hu : [')'] <+: u
      · obtain ⟨post, rfl⟩ := hu
        have : "C)".toList <+: "C".toList ++ ([')'] ++ post) := by
          rw [eC, eCc]
          exact ⟨post, rfl⟩
        rw [if_pos this, if_pos ⟨post, rfl⟩]
        simp [eC]
      · have : ¬ "C)".toList <+: "C".toList ++ u := by
          rw [eC, eCc]
          rintro ⟨v, hv⟩
          exact hu ⟨v, by simpa using hv⟩
        rw [if_neg this, if_neg hu]
    · have hCc : ¬ "C)".toList <+: r := by
        rintro ⟨v, rfl⟩
        exact hC ⟨')' :: v, by simp [eC, eCc]⟩
      rw [Regex.run_str_none _ _ _ _ hC, if_neg hCc]

theorem matchAt_healthFormPattern (s : Text) :
    healthFormPattern.matchAt s =
      (healthTokenAt? s).map
        (fun tok => (expiredRest tok.2.2, [(2, tok.2.1), (1, tok.1)])) := by
  unfold Regex.matchAt healthFormPattern healthTokenAt?
  rw [run_cat, run_group, run_datePattern]
  by_cases hd : dateShaped (s.take 10) = true
  · have hlen : s.take (s.length - (s.drop 10).length) = s.take 10 := by
      have h10 := dateShaped_length _ hd
      rw [List.length_take] at h10
      rw [List.length_drop]
      congr 1
      omega
    rw [if_pos hd, if_pos hd, hlen, run_cat, run_star, Regex.runStar_greedy_reject]
    · cases hr : List.dropWhile Regex.isReSpace (List.drop 10 s) with
      | nil => simp [run_cat, run_lit_nil]
      | cons x r =>
        rw [run_cat, run_lit_cons]
        by_cases hx : x = '('
        · subst hx
          simp only [if_true, run_tag]
          split_ifs <;> rfl
        · rw [if_neg hx]
          split
          · rename_i heq
            exact absurd (List.cons.inj heq).1 hx
          · rfl
    · intro x t c hx
      rw [run_cat, run_lit_cons, if_neg (isReSpace_ne x '(' hx (by decide))]
  · rw [if_neg hd, if_neg hd]
    rfl

theorem dropWhile_space_append (w : Text) (a : Char) (t : Text)
    (hw : w.all Regex.isReSpace = true) (ha : Regex.isReSpace a = false) :
    (w ++ a :: t).dropWhile Regex.isReSpace = a :: t := by
  induction w with
  | nil => simp [List.dropWhile, ha]
  | cons x w ih =>
    simp only [List.all_cons, Bool.and_eq_true] at hw
    simp only [List.cons_append, List.dropWhile_cons_of_pos hw.1]
    exact ih hw.2

theorem takeWhile_all (p : Char → Bool) (s : Text) : (s.takeWhile p).all p = true := by
  induction s with
  | nil => rfl
  | cons x t ih =>
    by_cases hx : p x = true
    · simp [List.takeWhile_cons_of_pos hx, hx, ih]
    · simp [List.takeWhile_cons_of_neg hx]

theorem healthTokenAt_iff (s dt tag post : Text) :
    healthTokenAt? s = some (dt, tag, post) ↔
      dateShaped dt = true ∧ (tag = "AB".toList ∨ tag = "C".toList) ∧
        ∃ w, w.all Regex.isReSpace = true ∧ s = dt ++ w ++ '(' :: tag ++ ')' :: post := by
  have eAB : "AB".toList = ['A', 'B'] := rfl
  have eABc : "AB)".toList = ['A', 'B', ')'] := rfl
  have eC : "C".toList = ['C'] := rfl
  have eCc : "C)".toList = ['C', ')'] := rfl
  constructor
  · intro h
    unfold healthTokenAt? at h
    by_cases hd : dateShaped (s.take 10) = true
    · rw [if_pos hd] at h
      have hs : s = s.take 10 ++
          ((s.drop 10).takeWhile Regex.isReSpace ++ (s.drop 10).dropWhile Regex.isReSpace) := by
        rw [List.takeWhile_append_dropWhile, List.take_append_drop]
      cases hr : List.dropWhile Regex.isReSpace (List.drop 10 s) with
      | nil => rw [hr] at h; cases h
      | cons x r =>
        rw [hr] at h hs
        by_cases hx : x = '('
        · subst hx
          simp only [] at h
          by_cases h1 : "AB)".toList <+: r
          · rw [if_pos h1] at h
            obtain ⟨u, rfl⟩ := h1
            simp only [Option.some.injEq, Prod.mk.injEq] at h
            obtain ⟨rfl, rfl, rfl⟩ := h
            refine ⟨hd, Or.inl rfl, (s.drop 10).takeWhile Regex.isReSpace, takeWhile_all _ _, ?_⟩
            rw [eABc] at hs
            rw [eAB, eABc]
            simpa using hs
          · rw [if_neg h1] at h
            by_cases h2 : "C)".toList <+: r
            · rw [if_pos h2] at h
              obtain ⟨u, rfl⟩ := h2
              simp only [Option.some.injEq, Prod.mk.injEq] at h
              obtain ⟨rfl, rfl, rfl⟩ := h
              refine ⟨hd, Or.inr rfl, (s.drop 10).takeWhile Regex.isReSpace, takeWhile_all _ _, ?_⟩
              rw [eCc] at hs
              rw [eC, eCc]
              simpa using hs
            · rw [if_neg h2] at h
              cases h
        · split at h
          · rename_i heq
            exact absurd (List.cons.inj heq).1 hx
          · cases h
    · rw [if_neg hd] at h
      cases h
  · rintro ⟨hd, htag, w, hw, rfl⟩
    have h10 := dateShaped_length dt hd
    unfold healthTokenAt?
    have ht : (dt ++ w ++ '(' :: tag ++ ')' :: post).take 10 = dt := by
      rw [List.append_assoc, List.append_assoc, List.take_left' h10]
    have hdr : (dt ++ w ++ '(' :: tag ++ ')' :: post).drop 10 = w ++ '(' :: (tag ++ ')' :: post) := by
      rw [List.append_assoc, List.append_assoc, List.drop_left' h10]
      simp
    rw [ht, hdr, if_pos hd, dropWhile_space_append w '(' _ hw (by decide)]
    rcases htag with rfl | rfl
    · have : "AB)".toList <+: "AB".toList ++ ')' :: post := ⟨post, by simp [eAB, eABc]⟩
      simp only []
      rw [if_pos this]
      simp [eAB]
    · have h1 : ¬ "AB)".toList <+: "C".toList ++ ')' :: post := by
        rw [eABc, eC]
        intro h
        exact absurd (List.cons_prefix_cons.mp h).1 (by decide)
      have h2 : "C)".toList <+: "C".toList ++ ')' :: post := ⟨post, by simp [eC, eCc]⟩
      simp only []
      rw [if_neg h1, if_pos h2]
      simp [eC]

theorem healthTokenAt_spec (s dt tag : Text) :
    (∃ post, healthTokenAt? s = some (dt, tag, post)) ↔ HealthTokenAt s dt tag := by
  unfold HealthTokenAt
  constructor
  · rintro ⟨post, h⟩
    obtain ⟨h1, h2, w, hw, hs⟩ := (healthTokenAt_iff s dt tag post).mp h
    exact ⟨h1, h2, w, post, hw, hs⟩
  · rintro ⟨h1, h2, w, post, hw, hs⟩
    exact ⟨post, (healthTokenAt_iff s dt tag post).mpr ⟨h1, h2, w, hw, hs⟩⟩

theorem healthTokenAt_nil : healthTokenAt? [] = none := by decide

theorem firstHealthToken_none (seg : Text) :
    firstHealthToken? seg = none ↔ ¬ HasHealthToken seg := by
  unfold HasHealthToken
  induction seg with
  | nil =>
    simp only [firstHealthToken?, true_iff]
    rintro ⟨pre, s, dt, tag, he, hs⟩
    obtain ⟨rfl, rfl⟩ := List.append_eq_nil.mp he.symm
    obtain ⟨post, hp⟩ := (healthTokenAt_spec _ _ _).mpr hs
    rw [healthTokenAt_nil] at hp
    cases hp
  | cons x t ih =>
    simp only [firstHealthToken?]
    cases h0 : healthTokenAt? (x :: t) with
    | some tok =>
      obtain ⟨dt, tag, post⟩ := tok
      constructor
      · intro h
        cases h
      · intro h
        exact absurd ⟨[], x :: t, dt, tag, rfl, (healthTokenAt_spec _ _ _).mp ⟨post, h0⟩⟩ h
    | none =>
      simp only [ih]
      constructor
      · rintro h ⟨pre, s, dt, tag, he, hs⟩
        cases pre with
        | nil =>
          simp only [List.nil_append] at he
          subst he
          obtain ⟨post, hp⟩ := (healthTokenAt_spec _ _ _).mpr hs
          rw [h0] at hp
          cases hp
        | cons y pre =>
          simp only [List.cons_append, List.cons.injEq] at he
          exact h ⟨pre, s, dt, tag, he.2, hs⟩
      · rintro h ⟨pre, s, dt, tag, he, hs⟩
        exact h ⟨x :: pre, s, dt, tag, by simp [he], hs⟩

theorem firstHealthToken_some (seg dt tag : Text) (h : FirstHealthToken seg dt tag) :
    firstHealthToken? seg = some (dt, tag) := by
  obtain ⟨pre, s, rfl, hs, hmin⟩ := h
  induction pre with
  | nil =>
    obtain ⟨post, hp⟩ := (healthTokenAt_spec _ _ _).mpr hs
    cases s with
    | nil => rw [healthTokenAt_nil] at hp; cases hp
    | cons x t => simp [firstHealthToken?, hp]
  | cons x pre ih =>
    have h0 : healthTokenAt? (x :: (pre ++ s)) = none := by
      cases h0 : healthTokenAt? (x :: (pre ++ s)) with
      | none => rfl
      | some tok =>
        obtain ⟨dt2, tag2, post2⟩ := tok
        have := hmin [] (x :: (pre ++ s)) dt2 tag2 rfl
          ((healthTokenAt_spec _ _ _).mp ⟨post2, h0⟩)
        simp at this
    simp only [List.cons_append, firstHealthToken?, List.append_eq, h0]
    apply ih
    intro pre2 s2 dt2 tag2 he hs2
    have := hmin (x :: pre2) s2 dt2 tag2 (by simp [he]) hs2
    simpa using this

theorem firstHealthToken_first (seg dt tag : Text)
    (h : firstHealthToken? seg = some (dt, tag)) : FirstHealthToken seg dt tag := by
  unfold FirstHealthToken
  induction seg with
  | nil => simp [firstHealthToken?] at h
  | cons x t ih =>
    simp only [firstHealthToken?] at h
    cases h0 : healthTokenAt? (x :: t) with
    | some tok =>
      obtain ⟨dt2, tag2, post⟩ := tok
      rw [h0] at h
      simp only [Option.some.injEq, Prod.mk.injEq] at h
      obtain ⟨rfl, rfl⟩ := h
      exact ⟨[], x :: t, rfl, (healthTokenAt_spec _ _ _).mp ⟨post, h0⟩, by simp⟩
    | none =>
      rw [h0] at h
      obtain ⟨pre, s, hseg, hs, hmin⟩ := ih h
      refine ⟨x :: pre, s, by simp [hseg], hs, ?_⟩
      intro pre2 s2 dt2 tag2 he hs2
      cases pre2 with
      | nil =>
        simp only [List.nil_append] at he
        subst he
        obtain ⟨post, hp⟩ := (healthTokenAt_spec _ _ _).mpr hs2
        rw [h0] at hp
        cases hp
      | cons y pre2 =>
        simp only [List.cons_append, List.cons.injEq] at he
        have := hmin pre2 s2 dt2 tag2 he.2 hs2
        simpa using this

theorem hasHealthToken_first (seg : Text) (h : HasHealthToken seg) :
    ∃ dt tag, FirstHealthToken seg dt tag := by
  cases hf : firstHealthToken? seg with
  | none => exact absurd h ((firstHealthToken_none seg).mp hf)
  | some p => exact ⟨p.1, p.2, firstHealthToken_first seg p.1 p.2 hf⟩

theorem firstHealthToken_tag (seg dt tag : Text) (h : firstHealthToken? seg = some (dt, tag)) :
    tag = "AB".toList ∨ tag = "C".toList := by
  induction seg with
  | nil => simp [firstHealthToken?] at h
  | cons x t ih =>
    simp only [firstHealthToken?] at h
    cases h0 : healthTokenAt? (x :: t) with
    | none =>
      rw [h0] at h
      exact ih h
    | some tok =>
      obtain ⟨dt2, tag2, post⟩ := tok
      rw [h0] at h
      simp only [Option.some.injEq, Prod.mk.injEq] at h
      obtain ⟨rfl, rfl⟩ := h
      exact ((healthTokenAt_iff _ _ _ _).mp h0).2.1

theorem search_healthFormPattern (seg : Text) :
    (healthFormPattern.search seg).map (fun m => (m.caps.get 1, m.caps.get 2)) =
      firstHealthToken? seg := by
  induction seg with
  | nil =>
    simp only [Regex.search, matchAt_healthFormPattern, healthTokenAt_nil, firstHealthToken?]
    rfl
  | cons x t ih =>
    simp only [Regex.search, matchAt_healthFormPattern, firstHealthToken?]
    cases h0 : healthTokenAt? (x :: t) with
    | none =>
      rw [← ih]
      cases healthFormPattern.search t <;> rfl
    | some tok =>
      obtain ⟨dt, tag, post⟩ := tok
      simp [Caps.get]

theorem find_healthFormPattern (form : Text) :
    (healthFormPattern.FindStringSubmatch form).map
        (fun sub => (sub[healthFormPattern.SubexpIndex "date".toList]?.getD [],
          sub[healthFormPattern.SubexpIndex "type".toList]?.getD [])) =
      firstHealthToken? form := by
  rw [← search_healthFormPattern]
  unfold Regex.FindStringSubmatch
  have h1 : healthFormPattern.SubexpIndex "date".toList = 1 := by decide
  have h2 : healthFormPattern.SubexpIndex "type".toList = 2 := by decide
  have h3 : healthFormPattern.NumSubexp = 2 := by decide
  rw [h1, h2, h3]
  cases healthFormPattern.search form with
  | none => rfl
  | some m => simp [List.range_succ]

theorem health_loop (cell : Text) (segs : List Text) (acc : List UserStatusRecord) :
    parseHealthForms.loop cell segs acc = .ok (acc ++ segs.filterMap healthFormOf) := by
  induction segs generalizing acc with
  | nil => simp [parseHealthForms.loop]
  | cons form rest ih =>
    have hf := find_healthFormPattern form
    unfold parseHealthForms.loop
    cases hs : healthFormPattern.FindStringSubmatch form with
    | none =>
      rw [hs] at hf
      simp only [Option.map_none'] at hf
      simp only [ih, List.filterMap_cons, healthFormOf, ← hf]
    | some sub =>
      rw [hs] at hf
      simp only [Option.map_some'] at hf
      have htag := firstHealthToken_tag form _ _ hf.symm
      simp only [ih, List.filterMap_cons, healthFormOf, ← hf]
      rcases htag with htag | htag
      · rw [htag]
        simp only [if_true]
        cases ParseDate (sub[healthFormPattern.SubexpIndex "date".toList]?.getD []) with
        | none => rfl
        | some d => simp [HealthFormABRecord]
      · rw [htag]
        have hne : "C".toList ≠ "AB".toList := by decide
        simp only [if_neg hne, if_true]
        cases ParseDate (sub[healthFormPattern.SubexpIndex "date".toList]?.getD []) with
        | none => rfl
        | some d => simp [HealthFormCRecord]

/-! ## The training pattern -/

theorem dateShaped_head_not_space (x : Char) (t : Text) (hx : Regex.isReSpace x = true) :
    dateShaped ((x :: t).take 10) = false := by
  have hd : Regex.isReDigit x = false := by
    unfold Regex.isReSpace at hx
    simp only [Bool.or_eq_true, decide_eq_true_eq] at hx
    rcases hx with (((rfl | rfl) | rfl) | rfl) | rfl <;> decide
  simp [dateShaped, dateShape, shaped, hd]

theorem run_expirationPattern {α : Type} (s : Text) (c : Caps) (k : Text → Caps → Option α) :
    Regex.run expirationPattern s c k =
      match expirationAt? s with
      | some (dt, rest) => k rest ((2, dt) :: c)
      | none => none := by
  have h1 : Regex.run expirationPattern s c k =
      Regex.run (Regex.cat (Regex.star Regex.isReSpace true)
        (Regex.str "(Expiration Date:".toList)) s c
        (fun s2 c2 => Regex.run (Regex.cat (Regex.star Regex.isReSpace true)
          (Regex.cat (Regex.group 2 "date".toList Regex.datePattern) (Regex.lit ')'))) s2 c2 k) := by
    simp only [expirationPattern, run_cat]
  rw [h1, run_space_then_str "(Expiration Date:".toList s c _
    ⟨'(', "Expiration Date:".toList, rfl, by decide⟩]
  unfold expirationAt?
  by_cases hm : expirationMarker <+: s.dropWhile Regex.isReSpace
  · have hm2 : "(Expiration Date:".toList <+: s.dropWhile Regex.isReSpace := hm
    have hlen : "(Expiration Date:".toList.length = 17 := by decide
    rw [if_pos hm, if_pos hm2, hlen, run_cat, run_star, Regex.runStar_greedy_reject]
    · simp only []
      generalize (List.dropWhile Regex.isReSpace
        (List.drop 17 (List.dropWhile Regex.isReSpace s))) = s2
      rw [run_cat, run_group, run_datePattern]
      by_cases hd : dateShaped (s2.take 10) = true
      · have htake : s2.take (s2.length - (s2.drop 10).length) = s2.take 10 := by
          have h10 := dateShaped_length _ hd
          rw [List.length_take] at h10
          rw [List.length_drop]
          congr 1
          omega
        rw [if_pos hd, if_pos hd, htake]
        cases hr : s2.drop 10 with
        | nil => simp [run_lit_nil]
        | cons y r =>
          rw [run_lit_cons]
          by_cases hy : y = ')'
          · subst hy
            simp
          · have : ¬ [')'] <+: y :: r := fun h => hy (List.cons_prefix_cons.mp h).1.symm
            rw [if_neg hy, if_neg this]
      · rw [if_neg hd, if_neg hd]
    · intro x t c1 hx
      rw [run_cat, run_group, run_datePattern, dateShaped_head_not_space x t hx]
      simp
  · have hm2 : ¬ "(Expiration Date:".toList <+: s.dropWhile Regex.isReSpace := hm
    rw [if_neg hm, if_neg hm2]

theorem matchAt_trainingPattern (s : Text) :
    trainingPattern.matchAt s =
      Regex.runStar Regex.isDot false
        (fun s1 c1 => (expirationAt? s1).map
          (fun p => (p.2, (2, p.1) :: (1, s.take (s.length - s1.length)) :: c1))) s [] := by
  have h1 : trainingPattern =
      Regex.cat (Regex.group 1 "name".toList (Regex.star Regex.isDot false))
        expirationPattern := rfl
  unfold Regex.matchAt
  rw [h1, run_cat, run_group, run_star]
  congr 1
  funext s1 c1
  rw [run_expirationPattern]
  cases expirationAt? s1 <;> rfl

theorem expirationAt_nil : expirationAt? [] = none := by decide

theorem expirationAt_of_matchAt_none (t : Text) (h : trainingPattern.matchAt t = none) :
    expirationAt? t = none := by
  cases he : expirationAt? t with
  | none => rfl
  | some p =>
    rw [matchAt_trainingPattern, Regex.runStar_lazy_here _ _ _ _ _ (by rw [he]; rfl)] at h
    cases h

theorem firstExpiration_eq_none (seg : Text) :
    firstExpiration? seg = none ↔ ∀ t, t <:+ seg → expirationAt? t = none := by
  induction seg with
  | nil =>
    simp only [firstExpiration?, List.suffix_nil, true_iff]
    rintro t rfl
    exact expirationAt_nil
  | cons x t ih =>
    simp only [firstExpiration?]
    cases h0 : expirationAt? (x :: t) with
    | some p =>
      constructor
      · intro h
        cases h
      · intro h
        rw [h _ (List.suffix_refl _)] at h0
        cases h0
    | none =>
      simp only [ih]
      constructor
      · intro h u hu
        rcases List.suffix_cons_iff.mp hu with rfl | hu
        · exact h0
        · exact h u hu
      · intro h u hu
        exact h u (hu.trans (List.suffix_cons x t))

theorem firstExpiration_of_first (pre u dt rest : Text)
    (hmin : ∀ p1 p2, pre = p1 ++ p2 → p2 ≠ [] → expirationAt? (p2 ++ u) = none)
    (hu : expirationAt? u = some (dt, rest)) : firstExpiration? (pre ++ u) = some dt := by
  induction pre with
  | nil =>
    cases u with
    | nil => rw [expirationAt_nil] at hu; cases hu
    | cons x t => simp [firstExpiration?, hu]
  | cons x pre ih =>
    have h0 : expirationAt? (x :: (pre ++ u)) = none := hmin [] (x :: pre) rfl (by simp)
    simp only [List.cons_append, firstExpiration?, List.append_eq, h0]
    exact ih (fun p1 p2 he hne => hmin (x :: p1) p2 (by simp [he]) hne)

theorem search_trainingPattern (seg : Text) :
    (trainingPattern.search seg).map (fun m => m.caps.get 2) = firstExpiration? seg := by
  cases hs : trainingPattern.search seg with
  | none =>
    have h := (Regex.search_eq_none _ _).mp hs
    have : firstExpiration? seg = none :=
      (firstExpiration_eq_none seg).mpr
        (fun t ht => expirationAt_of_matchAt_none t (h t ht))
    rw [this]
    rfl
  | some m =>
    obtain ⟨t, hseg, hm, -, hmin⟩ := Regex.search_some_inv _ _ _ hs
    rw [matchAt_trainingPattern] at hm
    obtain ⟨name, u, rfl, -, hu, hmin2⟩ := Regex.runStar_lazy_some _ _ _ _ _ hm
    cases he : expirationAt? u with
    | none => rw [he] at hu; cases hu
    | some p =>
      obtain ⟨dt, rest⟩ := p
      rw [he] at hu
      simp only [Option.map_some', Option.some.injEq, Prod.mk.injEq] at hu
      have hcap : m.caps.get 2 = dt := by
        rw [← hu.2]
        simp [Caps.get]
      simp only [Option.map_some', hcap]
      rw [hseg, ← List.append_assoc]
      symm
      apply firstExpiration_of_first _ _ _ _ _ he
      intro p1 p2 hsplit hne
      rcases List.append_eq_append_iff.mp hsplit with ⟨a, rfl, hname⟩ | ⟨b, hpre, rfl⟩
      · have := hmin2 a p2 hname hne
        cases h2 : expirationAt? (p2 ++ u) with
        | none => rfl
        | some q => rw [h2] at this; cases this
      · by_cases hb : b = []
        · subst hb
          have := hmin2 [] name rfl (by simpa using hne)
          cases h2 : expirationAt? (name ++ u) with
          | none => simpa using h2
          | some q => rw [h2] at this; cases this
        · have := hmin p1 b hpre hb
          rw [List.append_assoc]
          exact expirationAt_of_matchAt_none _ this

theorem find_trainingPattern (seg : Text) :
    (trainingPattern.FindStringSubmatch seg).map
        (fun sub => sub[trainingPattern.SubexpIndex "date".toList]?.getD []) =
      firstExpiration? seg := by
  rw [← search_trainingPattern]
  unfold Regex.FindStringSubmatch
  have h2 : trainingPattern.SubexpIndex "date".toList = 2 := by decide
  have h3 : trainingPattern.NumSubexp = 2 := by decide
  rw [h2, h3]
  cases trainingPattern.search seg with
  | none => rfl
  | some m => simp [List.range_succ]

theorem expirationAt_iff (s dt post : Text) :
    expirationAt? s = some (dt, post) ↔
      dateShaped dt = true ∧
        ∃ w1 w2, w1.all Regex.isReSpace = true ∧ w2.all Regex.isReSpace = true ∧
          s = w1 ++ expirationMarker ++ w2 ++ dt ++ ')' :: post := by
  have hlen : expirationMarker.length = 17 := by decide
  constructor
  · intro h
    unfold expirationAt? at h
    by_cases hm : expirationMarker <+: s.dropWhile Regex.isReSpace
    · rw [if_pos hm] at h
      simp only [] at h
      obtain ⟨r, hr⟩ := hm
      have hdrop : (s.dropWhile Regex.isReSpace).drop 17 = r := by
        rw [← hr, List.drop_left' hlen]
      rw [hdrop] at h
      by_cases hd : dateShaped ((r.dropWhile Regex.isReSpace).take 10) = true
      · rw [if_pos hd] at h
        by_cases hc : [')'] <+: (r.dropWhile Regex.isReSpace).drop 10
        · rw [if_pos hc] at h
          simp only [Option.some.injEq, Prod.mk.injEq] at h
          obtain ⟨rfl, rfl⟩ := h
          obtain ⟨v, hv⟩ := hc
          refine ⟨hd, s.takeWhile Regex.isReSpace, r.takeWhile Regex.isReSpace,
            takeWhile_all _ _, takeWhile_all _ _, ?_⟩
          have e1 : s = s.takeWhile Regex.isReSpace ++ s.dropWhile Regex.isReSpace :=
            (List.takeWhile_append_dropWhile _ _).symm
          have e2 : r = r.takeWhile Regex.isReSpace ++ r.dropWhile Regex.isReSpace :=
            (List.takeWhile_append_dropWhile _ _).symm
          have e3 : r.dropWhile Regex.isReSpace =
              (r.dropWhile Regex.isReSpace).take 10 ++ (r.dropWhile Regex.isReSpace).drop 10 :=
            (List.take_append_drop _ _).symm
          have e4 : (r.dropWhile Regex.isReSpace).drop 10 =
              ')' :: ((r.dropWhile Regex.isReSpace).drop 10).drop 1 := by
            rw [← hv]
            rfl
          calc s = s.takeWhile Regex.isReSpace ++ s.dropWhile Regex.isReSpace := e1
            _ = s.takeWhile Regex.isReSpace ++ (expirationMarker ++ r) := by rw [hr]
            _ = s.takeWhile Regex.isReSpace ++ (expirationMarker ++
                  (r.takeWhile Regex.isReSpace ++ r.dropWhile Regex.isReSpace)) := by rw [← e2]
            _ = s.takeWhile Regex.isReSpace ++ (expirationMarker ++
                  (r.takeWhile Regex.isReSpace ++ ((r.dropWhile Regex.isReSpace).take 10 ++
                    (r.dropWhile Regex.isReSpace).drop 10))) := by rw [← e3]
            _ = s.takeWhile Regex.isReSpace ++ (expirationMarker ++
                  (r.takeWhile Regex.isReSpace ++ ((r.dropWhile Regex.isReSpace).take 10 ++
                    ')' :: ((r.dropWhile Regex.isReSpace).drop 10).drop 1))) := by rw [← e4]
            _ = _ := by simp only [List.append_assoc]
        · rw [if_neg hc] at h
          cases h
      · rw [if_neg hd] at h
        cases h
    · rw [if_neg hm] at h
      cases h
  · rintro ⟨hd, w1, w2, hw1, hw2, rfl⟩
    have h10 := dateShaped_length dt hd
    have hdig : ∃ a t, dt = a :: t ∧ Regex.isReSpace a = false := by
      cases dt with
      | nil => simp at h10
      | cons a t =>
        refine ⟨a, t, rfl, ?_⟩
        cases hsp : Regex.isReSpace a with
        | false => rfl
        | true =>
          have := dateShaped_head_not_space a t hsp
          rw [List.take_of_length_le (by omega)] at this
          rw [this] at hd
          cases hd
    obtain ⟨a, t, rfl, ha⟩ := hdig
    unfold expirationAt?
    have e1 : (w1 ++ expirationMarker ++ w2 ++ a :: t ++ ')' :: post).dropWhile Regex.isReSpace =
        expirationMarker ++ (w2 ++ (a :: t ++ ')' :: post)) := by
      have : w1 ++ expirationMarker ++ w2 ++ a :: t ++ ')' :: post =
          w1 ++ '(' :: ("Expiration Date:".toList ++ (w2 ++ (a :: t ++ ')' :: post))) := by
        simp [expirationMarker]
      rw [this, dropWhile_space_append w1 '(' _ hw1 (by decide)]
      simp [expirationMarker]
    have e2 : (w2 ++ (a :: t ++ ')' :: post)).dropWhile Regex.isReSpace =
        a :: t ++ ')' :: post := by
      rw [List.cons_append, dropWhile_space_append w2 a _ hw2 ha]
    rw [e1, if_pos ⟨_, rfl⟩]
    simp only []
    rw [List.drop_left' hlen, e2, List.take_left' h10, List.drop_left' h10, if_pos hd,
      if_pos ⟨post, rfl⟩]
    rfl

theorem expirationAt_spec (s dt : Text) :
    (∃ post, expirationAt? s = some (dt, post)) ↔ ExpirationAt s dt := by
  unfold ExpirationAt
  constructor
  · rintro ⟨post, h⟩
    obtain ⟨h1, w1, w2, hw1, hw2, hs⟩ := (expirationAt_iff s dt post).mp h
    exact ⟨h1, w1, w2, post, hw1, hw2, hs⟩
  · rintro ⟨h1, w1, w2, post, hw1, hw2, hs⟩
    exact ⟨post, (expirationAt_iff s dt post).mpr ⟨h1, w1, w2, hw1, hw2, hs⟩⟩

theorem firstExpiration_none (seg : Text) :
    firstExpiration? seg = none ↔ ¬ HasExpiration seg := by
  rw [firstExpiration_eq_none]
  unfold HasExpiration
  constructor
  · rintro h ⟨pre, s, dt, rfl, hs⟩
    obtain ⟨post, hp⟩ := (expirationAt_spec _ _).mpr hs
    rw [h s (List.suffix_append pre s)] at hp
    cases hp
  · intro h t ht
    cases he : expirationAt? t with
    | none => rfl
    | some p =>
      obtain ⟨pre, rfl⟩ := ht
      exact absurd ⟨pre, t, p.1, rfl, (expirationAt_spec _ _).mp ⟨p.2, he⟩⟩ h

theorem firstExpiration_iff (seg dt : Text) :
    firstExpiration? seg = some dt ↔ FirstExpiration seg dt := by
  unfold FirstExpiration
  constructor
  · intro h
    induction seg with
    | nil => simp [firstExpiration?] at h
    | cons x t ih =>
      simp only [firstExpiration?] at h
      cases h0 : expirationAt? (x :: t) with
      | some p =>
        obtain ⟨dt2, post⟩ := p
        rw [h0] at h
        simp only [Option.some.injEq] at h
        subst h
        exact ⟨[], x :: t, rfl, (expirationAt_spec _ _).mp ⟨post, h0⟩, by simp⟩
      | none =>
        rw [h0] at h
        obtain ⟨pre, s, hseg, hs, hmin⟩ := ih h
        refine ⟨x :: pre, s, by simp [hseg], hs, ?_⟩
        intro pre2 s2 dt2 he hs2
        cases pre2 with
        | nil =>
          simp only [List.nil_append] at he
          subst he
          obtain ⟨post, hp⟩ := (expirationAt_spec _ _).mpr hs2
          rw [h0] at hp
          cases hp
        | cons y pre2 =>
          simp only [List.cons_append, List.cons.injEq] at he
          have := hmin pre2 s2 dt2 he.2 hs2
          simpa using this
  · rintro ⟨pre, s, rfl, hs, hmin⟩
    obtain ⟨post, hp⟩ := (expirationAt_spec _ _).mpr hs
    apply firstExpiration_of_first _ _ _ _ _ hp
    intro p1 p2 he hne
    cases h2 : expirationAt? (p2 ++ s) with
    | none => rfl
    | some q =>
      have := hmin p1 (p2 ++ s) q.1 (by simp [he])
        ((expirationAt_spec _ _).mp ⟨q.2, h2⟩)
      subst he
      simp at this
      exact absurd this hne

theorem hasExpiration_first (seg : Text) (h : HasExpiration seg) :
    ∃ dt, FirstExpiration seg dt := by
  cases hf : firstExpiration? seg with
  | none => exact absurd h ((firstExpiration_none seg).mp hf)
  | some dt => exact ⟨dt, (firstExpiration_iff seg dt).mp hf⟩

/-! ## Youth training: the loop -/

theorem youth_loop_error (segs : List Text) (acc : List UserStatusRecord) (e : Text)
    (h : parseYouthTraining.loop segs acc = .error e) :
    ∃ seg dt, seg ∈ segs ∧ firstExpiration? seg = some dt ∧ ParseDate dt = none ∧
      e = errInvalidTrainingDate seg := by
  induction segs generalizing acc with
  | nil => simp [parseYouthTraining.loop] at h
  | cons t rest ih =>
    have lift : (∃ seg dt, seg ∈ rest ∧ firstExpiration? seg = some dt ∧ ParseDate dt = none ∧
        e = errInvalidTrainingDate seg) →
        ∃ seg dt, seg ∈ t :: rest ∧ firstExpiration? seg = some dt ∧ ParseDate dt = none ∧
          e = errInvalidTrainingDate seg := by
      rintro ⟨seg, dt, hm, h1, h2, h3⟩
      exact ⟨seg, dt, List.mem_cons_of_mem _ hm, h1, h2, h3⟩
    unfold parseYouthTraining.loop at h
    by_cases ht : t = []
    · rw [if_pos ht] at h
      exact lift (ih _ h)
    · rw [if_neg ht] at h
      have hf := find_trainingPattern t
      cases hs : trainingPattern.FindStringSubmatch t with
      | none =>
        rw [hs] at h
        exact lift (ih _ h)
      | some sub =>
        rw [hs] at h hf
        simp only [Option.map_some'] at hf
        simp only [] at h
        cases hd : ParseDate (sub[trainingPattern.SubexpIndex "date".toList]?.getD []) with
        | none =>
          rw [hd] at h
          simp only [Except.error.injEq] at h
          exact ⟨t, _, by simp, hf.symm, hd, h.symm⟩
        | some d =>
          rw [hd] at h
          exact lift (ih _ h)

theorem youth_loop_ok (segs : List Text) (acc : List UserStatusRecord)
    (h : ∀ seg dt, seg ∈ segs → firstExpiration? seg = some dt → ParseDate dt ≠ none) :
    parseYouthTraining.loop segs acc = .ok (acc ++ segs.filterMap youthRecordOf) := by
  induction segs generalizing acc with
  | nil => simp [parseYouthTraining.loop]
  | cons t rest ih =>
    have hrest : ∀ seg dt, seg ∈ rest → firstExpiration? seg = some dt → ParseDate dt ≠ none :=
      fun seg dt hm => h seg dt (List.mem_cons_of_mem _ hm)
    unfold parseYouthTraining.loop
    by_cases ht : t = []
    · rw [if_pos ht, ih _ hrest]
      subst ht
      have : youthRecordOf [] = none := by decide
      simp [List.filterMap_cons, this]
    · rw [if_neg ht]
      have hf := find_trainingPattern t
      cases hs : trainingPattern.FindStringSubmatch t with
      | none => simp [ih _ hrest, List.filterMap_cons, youthRecordOf, hs]
      | some sub =>
        rw [hs] at hf
        simp only [Option.map_some'] at hf
        simp only []
        cases hd : ParseDate (sub[trainingPattern.SubexpIndex "date".toList]?.getD []) with
        | none => exact absurd hd (h t _ (by simp) hf.symm)
        | some d =>
          simp only [ih _ hrest, List.filterMap_cons, youthRecordOf, hs, hd, List.append_assoc,
            List.singleton_append]

theorem youth_loop_bad (segs : List Text) (acc : List UserStatusRecord) (seg dt : Text)
    (hm : seg ∈ segs) (h1 : firstExpiration? seg = some dt) (h2 : ParseDate dt = none) :
    ∃ e, parseYouthTraining.loop segs acc = .error e := by
  induction segs generalizing acc with
  | nil => cases hm
  | cons t rest ih =>
    unfold parseYouthTraining.loop
    have hf := find_trainingPattern t
    by_cases ht : t = []
    · rw [if_pos ht]
      rcases List.mem_cons.mp hm with rfl | hm
      · subst ht
        simp [firstExpiration?] at h1
      · exact ih _ hm
    · rw [if_neg ht]
      cases hs : trainingPattern.FindStringSubmatch t with
      | none =>
        rw [hs] at hf
        simp only [Option.map_none'] at hf
        rcases List.mem_cons.mp hm with rfl | hm
        · rw [h1] at hf
          cases hf
        · exact ih _ hm
      | some sub =>
        rw [hs] at hf
        simp only [Option.map_some'] at hf
        simp only []
        cases hd : ParseDate (sub[trainingPattern.SubexpIndex "date".toList]?.getD []) with
        | none => exact ⟨_, rfl⟩
        | some d =>
          rcases List.mem_cons.mp hm with rfl | hm
          · rw [h1] at hf
            simp only [Option.some.injEq] at hf
            rw [hf, h2] at hd
            cases hd
          · exact ih _ hm

theorem youthRecordOf_none (seg : Text) (h : firstExpiration? seg = none) :
    youthRecordOf seg = none := by
  have hf := find_trainingPattern seg
  unfold youthRecordOf
  cases hs : trainingPattern.FindStringSubmatch seg with
  | none => rfl
  | some sub =>
    rw [hs, h] at hf
    cases hf

theorem youthRecordOf_some (seg dt : Text) (d : Date) (h : firstExpiration? seg = some dt)
    (hd : ParseDate dt = some d) :
    ∃ name, youthRecordOf seg = some (TrainingRecord name d) := by
  have hf := find_trainingPattern seg
  unfold youthRecordOf
  cases hs : trainingPattern.FindStringSubmatch seg with
  | none =>
    rw [hs, h] at hf
    cases hf
  | some sub =>
    rw [hs, h] at hf
    simp only [Option.map_some', Option.some.injEq] at hf
    simp only [hf, hd]
    exact ⟨_, rfl⟩

/-! ## Dates and whitespace -/

theorem getnum_fixed (v rest : Text) (n : Nat) (h : getnum v true = some (n, rest)) :
    ∃ a b, v = a :: b :: rest ∧ a.isDigit = true ∧ b.isDigit = true := by
  unfold getnum at h
  cases v with
  | nil => cases h
  | cons a t =>
    simp only [] at h
    cases ha : a.isDigit with
    | false => simp [ha] at h
    | true =>
      simp only [ha, Bool.not_true, Bool.false_eq_true, if_false] at h
      cases t with
      | nil => simp at h
      | cons b t2 =>
        simp only [] at h
        cases hb : b.isDigit with
        | false => simp [hb] at h
        | true =>
          simp only [hb, if_true, Option.some.injEq, Prod.mk.injEq] at h
          exact ⟨a, b, by rw [h.2], ha, hb⟩

theorem skip_some (v rest : Text) (c : Char) (h : skip v c = some rest) : v = c :: rest := by
  unfold skip at h
  cases v with
  | nil => cases h
  | cons a t =>
    simp only [] at h
    by_cases hac : a = c
    · rw [if_pos hac] at h
      simp only [Option.some.injEq] at h
      rw [hac, h]
    · rw [if_neg hac] at h
      cases h

theorem getyear_some (v rest : Text) (n : Nat) (h : getyear v = some (n, rest)) :
    ∃ a b c d, v = a :: b :: c :: d :: rest ∧ a.isDigit = true ∧ b.isDigit = true ∧
      c.isDigit = true ∧ d.isDigit = true := by
  unfold getyear at h
  split at h
  · rename_i a b c d r
    by_cases hd : (a.isDigit && b.isDigit && c.isDigit && d.isDigit) = true
    · rw [if_pos hd] at h
      simp only [Option.some.injEq, Prod.mk.injEq] at h
      simp only [Bool.and_eq_true] at hd
      exact ⟨a, b, c, d, by rw [h.2], hd.1.1.1, hd.1.1.2, hd.1.2, hd.2⟩
    · rw [if_neg hd] at h
      cases h
  · cases h

theorem ParseDate_shaped (v : Text) (d : Date) (h : ParseDate v = some d) :
    dateShaped v = true := by
  unfold ParseDate at h
  cases h1 : getnum v true with
  | none => rw [h1] at h; cases h
  | some p1 =>
    obtain ⟨month, v1⟩ := p1
    rw [h1] at h
    simp only [] at h
    split_ifs at h with hm
    cases h2 : skip v1 '/' with
    | none => rw [h2] at h; cases h
    | some v2 =>
      rw [h2] at h
      simp only [] at h
      cases h3 : getnum v2 true with
      | none => rw [h3] at h; cases h
      | some p3 =>
        obtain ⟨day, v3⟩ := p3
        rw [h3] at h
        simp only [] at h
        cases h4 : skip v3 '/' with
        | none => rw [h4] at h; cases h
        | some v4 =>
          rw [h4] at h
          simp only [] at h
          cases h5 : getyear v4 with
          | none => rw [h5] at h; cases h
          | some p5 =>
            obtain ⟨year, v5⟩ := p5
            rw [h5] at h
            simp only [] at h
            split_ifs at h with hv5 hday
            simp only [ne_eq, not_not] at hv5
            subst hv5
            obtain ⟨a, b, rfl, ha, hb⟩ := getnum_fixed _ _ _ h1
            have e2 := skip_some _ _ _ h2
            subst e2
            obtain ⟨c, d1, rfl, hc, hd1⟩ := getnum_fixed _ _ _ h3
            have e4 := skip_some _ _ _ h4
            subst e4
            obtain ⟨e, f, g, i, rfl, he, hf, hg, hi⟩ := getyear_some _ _ _ h5
            simp [dateShaped, dateShape, shaped, Regex.isReDigit, ha, hb, hc, hd1, he, hf, hg, hi]

theorem shaped_mem (ps : List (Char → Bool)) (s : Text) (h : shaped ps s = true) (c : Char)
    (hc : c ∈ s) : ∃ p ∈ ps, p c = true := by
  induction ps generalizing s with
  | nil =>
    cases s with
    | nil => cases hc
    | cons x t => simp [shaped] at h
  | cons p ps ih =>
    cases s with
    | nil => cases hc
    | cons x t =>
      simp only [shaped, Bool.and_eq_true] at h
      rcases List.mem_cons.mp hc with rfl | hc
      · exact ⟨p, by simp, h.1⟩
      · obtain ⟨q, hq, hqc⟩ := ih t h.2 hc
        exact ⟨q, List.mem_cons_of_mem _ hq, hqc⟩

theorem dateShaped_mem (dt : Text) (h : dateShaped dt = true) (c : Char) (hc : c ∈ dt) :
    c.isDigit = true ∨ c = '/' := by
  obtain ⟨p, hp, hpc⟩ := shaped_mem _ _ h c hc
  simp only [dateShape, List.mem_cons, List.mem_singleton, List.not_mem_nil, or_false] at hp
  rcases hp with rfl | rfl | rfl | rfl | rfl | rfl | rfl | rfl | rfl | rfl
  all_goals first
    | exact Or.inl hpc
    | exact Or.inr (by simpa using hpc)

theorem isSpace_of_isReSpace (c : Char) (h : Regex.isReSpace c = true) :
    strings.isSpace c = true := by
  unfold Regex.isReSpace at h
  simp only [Bool.or_eq_true, decide_eq_true_eq] at h
  rcases h with (((rfl | rfl) | rfl) | rfl) | rfl <;> decide

theorem dropWhile_eq_self_of_length {p : Char → Bool} (s : Text)
    (h : (s.dropWhile p).length = s.length) : s.dropWhile p = s := by
  cases s with
  | nil => rfl
  | cons x t =>
    by_cases hx : p x = true
    · rw [List.dropWhile_cons_of_pos hx] at h
      have := (List.dropWhile_suffix p (l := t)).length_le
      simp only [List.length_cons] at h
      omega
    · rw [List.dropWhile_cons_of_neg hx]

theorem dropWhile_length_le {p : Char → Bool} (s : Text) :
    (s.dropWhile p).length ≤ s.length :=
  (List.dropWhile_suffix p).length_le

theorem TrimSpace_fixed (name : Text) (h : strings.TrimSpace name = name) :
    name.dropWhile strings.isSpace = name ∧
      name.reverse.dropWhile strings.isSpace = name.reverse := by
  unfold strings.TrimSpace at h
  have hlen := congrArg List.length h
  simp only [List.length_reverse] at hlen
  have h1 := dropWhile_length_le (p := strings.isSpace) (name.dropWhile strings.isSpace).reverse
  have h2 := dropWhile_length_le (p := strings.isSpace) name
  simp only [List.length_reverse] at h1
  have e1 : name.dropWhile strings.isSpace = name :=
    dropWhile_eq_self_of_length name (by omega)
  refine ⟨e1, ?_⟩
  rw [e1] at hlen
  exact dropWhile_eq_self_of_length _ (by simpa using hlen)

theorem head_not_space (name : Text) (h : strings.TrimSpace name = name) (x : Char) (t : Text)
    (hx : name = x :: t) : Regex.isReSpace x = false := by
  have h1 := (TrimSpace_fixed name h).1
  subst hx
  cases hsp : Regex.isReSpace x with
  | false => rfl
  | true =>
    have hx2 := isSpace_of_isReSpace x hsp
    rw [List.dropWhile_cons_of_pos hx2] at h1
    have := dropWhile_length_le (p := strings.isSpace) t
    have h3 := congrArg List.length h1
    simp only [List.length_cons] at h3
    omega

theorem last_not_space (name : Text) (h : strings.TrimSpace name = name) (t : Text) (x : Char)
    (hx : name = t ++ [x]) : Regex.isReSpace x = false := by
  have h1 := (TrimSpace_fixed name h).2
  subst hx
  cases hsp : Regex.isReSpace x with
  | false => rfl
  | true =>
    have hx2 := isSpace_of_isReSpace x hsp
    rw [List.reverse_append, List.reverse_singleton, List.singleton_append,
      List.dropWhile_cons_of_pos hx2] at h1
    have := dropWhile_length_le (p := strings.isSpace) t.reverse
    have h3 := congrArg List.length h1
    simp only [List.length_cons, List.length_reverse] at h3 this
    omega

/-! ## The padded pipe -/

theorem matchAt_paddedPipe_some (s t : Text) (h : s.dropWhile Regex.isReSpace = '|' :: t) :
    paddedPipePattern.matchAt s = some (t.dropWhile Regex.isReSpace, []) := by
  unfold Regex.matchAt paddedPipePattern
  rw [run_cat, run_star, Regex.runStar_greedy_reject]
  · rw [h, run_cat, run_lit_cons, if_pos rfl, run_star]
    exact Regex.runStar_greedy_first _ _ _ _ _ rfl
  · intro x u c hx
    rw [run_cat, run_lit_cons, if_neg (isReSpace_ne x '|' hx (by decide))]

theorem matchAt_paddedPipe_none (s : Text) (h : ∀ t, s.dropWhile Regex.isReSpace ≠ '|' :: t) :
    paddedPipePattern.matchAt s = none := by
  unfold Regex.matchAt paddedPipePattern
  rw [run_cat, run_star, Regex.runStar_greedy_reject]
  · cases hr : s.dropWhile Regex.isReSpace with
    | nil => rw [run_cat, run_lit_nil]
    | cons x u =>
      have hx : x ≠ '|' := by
        rintro rfl
        exact h u hr
      rw [run_cat, run_lit_cons, if_neg hx]
  · intro x u c hx
    rw [run_cat, run_lit_cons, if_neg (isReSpace_ne x '|' hx (by decide))]

theorem matchAt_paddedPipe_consumes (s rest : Text) (caps : Caps)
    (h : paddedPipePattern.matchAt s = some (rest, caps)) : rest.length < s.length := by
  cases hr : s.dropWhile Regex.isReSpace with
  | nil =>
    rw [matchAt_paddedPipe_none s (by rw [hr]; simp)] at h
    cases h
  | cons x t =>
    by_cases hx : x = '|'
    · subst hx
      rw [matchAt_paddedPipe_some s t hr] at h
      simp only [Option.some.injEq, Prod.mk.injEq] at h
      have h1 := (List.dropWhile_suffix Regex.isReSpace (l := t)).length_le
      have h2 := (List.dropWhile_suffix Regex.isReSpace (l := s)).length_le
      rw [hr, List.length_cons] at h2
      rw [← h.1]
      omega
    · rw [matchAt_paddedPipe_none s (by
        rw [hr]
        intro u hu
        exact hx (List.cons.inj hu).1)] at h
      cases h

theorem splitLoop_fuel (fuel : Nat) (s : Text) (h : s.length ≤ fuel) :
    paddedPipePattern.splitLoop (fuel + 1) s = paddedPipePattern.splitLoop fuel s := by
  induction fuel generalizing s with
  | zero =>
    have hs : s = [] := List.length_eq_zero.mp (Nat.le_zero.mp h)
    subst hs
    decide
  | succ f ih =>
    rw [Regex.splitLoop, Regex.splitLoop]
    cases hm : paddedPipePattern.search s with
    | none => rfl
    | some m =>
      obtain ⟨t, hst, hmt, -, -⟩ := Regex.search_some_inv _ _ _ hm
      have h1 := matchAt_paddedPipe_consumes _ _ _ hmt
      have h2 : t.length ≤ s.length := by
        rw [hst, List.length_append]
        omega
      simp only []
      rw [ih m.post (by omega)]

theorem dropWhile_append_of_ne_nil (p : Char → Bool) (l r : Text) (h : l.dropWhile p ≠ []) :
    (l ++ r).dropWhile p = l.dropWhile p ++ r := by
  induction l with
  | nil => simp at h
  | cons x t ih =>
    by_cases hx : p x = true
    · rw [List.dropWhile_cons_of_pos hx] at h
      rw [List.cons_append, List.dropWhile_cons_of_pos hx, List.dropWhile_cons_of_pos hx, ih h]
    · rw [List.cons_append, List.dropWhile_cons_of_neg hx, List.dropWhile_cons_of_neg hx]
      rfl

theorem dropWhile_ne_nil_of_mem (p : Char → Bool) (l : Text) (x : Char) (hx : x ∈ l)
    (hp : p x = false) : l.dropWhile p ≠ [] := by
  intro h
  have := List.dropWhile_eq_nil_iff.mp h x hx
  rw [hp] at this
  cases this

theorem matchAt_paddedPipe_no_pipe (a r : Text) (x : Char) (hx : x ∈ a)
    (hsp : Regex.isReSpace x = false) (hpipe : '|' ∉ a) :
    paddedPipePattern.matchAt (a ++ r) = none := by
  apply matchAt_paddedPipe_none
  intro t ht
  have hne := dropWhile_ne_nil_of_mem Regex.isReSpace a x hx hsp
  rw [dropWhile_append_of_ne_nil _ _ _ hne] at ht
  cases hd : a.dropWhile Regex.isReSpace with
  | nil => exact hne hd
  | cons y u =>
    rw [hd, List.cons_append] at ht
    have hy : y ∈ a := (List.dropWhile_suffix _).subset (by rw [hd]; simp)
    have : y = '|' := (List.cons.inj ht).1
    exact hpipe (this ▸ hy)

theorem search_paddedPipe_none (a : Text) (hpipe : '|' ∉ a) :
    paddedPipePattern.search a = none := by
  rw [Regex.search_eq_none]
  intro t ht
  apply matchAt_paddedPipe_none
  intro u hu
  have h1 : '|' ∈ t.dropWhile Regex.isReSpace := by rw [hu]; simp
  exact hpipe (ht.subset ((List.dropWhile_suffix _).subset h1))

theorem splitLoop_sep (a w1 rest : Text) (fuel : Nat) (hpipe : '|' ∉ a)
    (hlast : ∃ t x, a = t ++ [x] ∧ Regex.isReSpace x = false)
    (hw1 : w1.all Regex.isReSpace = true) :
    paddedPipePattern.splitLoop (fuel + 1) (a ++ (w1 ++ '|' :: rest)) =
      a :: paddedPipePattern.splitLoop fuel (rest.dropWhile Regex.isReSpace) := by
  obtain ⟨t0, x, ha, hx⟩ := hlast
  have hm : paddedPipePattern.matchAt (w1 ++ '|' :: rest) =
      some (rest.dropWhile Regex.isReSpace, []) :=
    matchAt_paddedPipe_some _ _ (dropWhile_space_append w1 '|' rest hw1 (by decide))
  have hfail : ∀ p1 p2, a = p1 ++ p2 → p2 ≠ [] →
      paddedPipePattern.matchAt (p2 ++ (w1 ++ '|' :: rest)) = none := by
    intro p1 p2 he hne
    have hx2 : x ∈ p2 := by
      have h1 : p2.getLast? = some x := by
        have : (p1 ++ p2).getLast? = some x := by rw [← he, ha]; simp
        rwa [List.getLast?_append_of_ne_nil _ hne] at this
      exact List.mem_of_getLast?_eq_some h1
    apply matchAt_paddedPipe_no_pipe p2 _ x hx2 hx
    intro hp
    exact hpipe (by rw [he]; exact List.mem_append_right _ hp)
  simp only [Regex.splitLoop, Regex.search_some _ a _ _ _ hfail hm]

theorem splitLoop_no_pipe (a : Text) (fuel : Nat) (hpipe : '|' ∉ a) :
    paddedPipePattern.splitLoop fuel a = [a] := by
  cases fuel with
  | zero => rfl
  | succ f => simp only [Regex.splitLoop, search_paddedPipe_none a hpipe]

theorem dropWhile_all_append (p : Char → Bool) (w r : Text) (hw : w.all p = true) :
    (w ++ r).dropWhile p = r.dropWhile p := by
  induction w with
  | nil => rfl
  | cons x w ih =>
    simp only [List.all_cons, Bool.and_eq_true] at hw
    rw [List.cons_append, List.dropWhile_cons_of_pos hw.1, ih hw.2]

theorem youthSegment_eq (name d : Text) :
    youthSegment name d = name ++ (' ' :: expirationMarker ++ ' ' :: d ++ [')']) := by
  simp [youthSegment, expirationMarker]

theorem youthSegment_tight (name d : Text) (hpipe : '|' ∉ name)
    (hd : dateShaped d = true) :
    Tight (youthSegment name d) ∧
      Tight ((youthSegment name d).dropWhile Regex.isReSpace) := by
  have hseg : '|' ∉ youthSegment name d := by
    unfold youthSegment
    intro h
    rcases List.mem_append.mp h with h | h
    · rcases List.mem_append.mp h with h | h
      · rcases List.mem_append.mp h with h | h
        · exact hpipe h
        · exact absurd h (by decide)
      · rcases dateShaped_mem d hd _ h with h2 | h2
        · exact absurd h2 (by decide)
        · exact absurd h2 (by decide)
    · exact absurd h (by decide)
  have hend : youthSegment name d = (name ++ " (Expiration Date: ".toList ++ d) ++ [')'] := rfl
  refine ⟨⟨hseg, _, ')', hend, by decide⟩, ?_, ?_⟩
  · intro h
    exact hseg ((List.dropWhile_suffix _).subset h)
  · have hne : (youthSegment name d).dropWhile Regex.isReSpace ≠ [] :=
      dropWhile_ne_nil_of_mem _ _ ')' (by rw [hend]; exact List.mem_append_right _ (by simp))
        (by decide)
    obtain ⟨pre, hpre⟩ := List.dropWhile_suffix Regex.isReSpace (l := youthSegment name d)
    have hlast : ((youthSegment name d).dropWhile Regex.isReSpace).getLast? = some ')' := by
      have h1 : (pre ++ (youthSegment name d).dropWhile Regex.isReSpace).getLast? =
          some ')' := by
        rw [hpre, hend]
        exact List.getLast?_eq_some_iff.mpr ⟨_, rfl⟩
      rwa [List.getLast?_append_of_ne_nil _ hne] at h1
    obtain ⟨ys, hys⟩ := List.getLast?_eq_some_iff.mp hlast
    exact ⟨ys, ')', hys, by decide⟩

theorem split_youth (rest : List YouthEntry) (a sep : Text) (fuel : Nat) (ha : Tight a)
    (hsep : PaddedPipe sep ∨ (sep = [] ∧ rest = [])) (hwf : WellFormedYouth rest)
    (hfuel : (a ++ sep ++ youthCell rest).length ≤ fuel) :
    paddedPipePattern.splitLoop fuel (a ++ sep ++ youthCell rest) = youthPieces a sep rest := by
  induction rest generalizing a sep fuel with
  | nil =>
    simp only [youthCell, List.append_nil, youthPieces]
    rcases hsep with ⟨w1, w2, hw1, hw2, rfl⟩ | ⟨rfl, -⟩
    · have hne : w1 ++ '|' :: w2 ≠ [] := by simp
      rw [if_neg hne]
      cases fuel with
      | zero =>
        simp only [youthCell, List.append_nil, List.length_append, List.length_cons] at hfuel
        omega
      | succ f =>
        rw [splitLoop_sep a w1 w2 f ha.1 ha.2 hw1,
          List.dropWhile_eq_nil_iff.mpr (fun x hx => List.all_eq_true.mp hw2 x hx),
          splitLoop_no_pipe [] f (by simp)]
    · simp only [List.append_nil, if_true]
      exact splitLoop_no_pipe a fuel ha.1
  | cons e rest ih =>
    obtain ⟨hname, hdate, hsepe, hwf2⟩ := hwf
    rcases hsep with ⟨w1, w2, hw1, hw2, rfl⟩ | ⟨-, h⟩
    · have hd := ParseDate_shaped _ _ hdate
      have htight := (youthSegment_tight e.name e.dateText hname.1 hd).2
      have hne : (youthSegment e.name e.dateText).dropWhile Regex.isReSpace ≠ [] := by
        obtain ⟨t, x, hx, -⟩ := htight.2
        rw [hx]
        simp
      have htext : a ++ (w1 ++ '|' :: w2) ++ youthCell (e :: rest) =
          a ++ (w1 ++ '|' :: (w2 ++ (youthSegment e.name e.dateText ++
            (e.sep ++ youthCell rest)))) := by
        simp [youthCell]
      have hdrop : (w2 ++ (youthSegment e.name e.dateText ++
          (e.sep ++ youthCell rest))).dropWhile Regex.isReSpace =
          (youthSegment e.name e.dateText).dropWhile Regex.isReSpace ++ e.sep ++
            youthCell rest := by
        rw [dropWhile_all_append _ _ _ hw2, dropWhile_append_of_ne_nil _ _ _ hne,
          List.append_assoc]
      cases fuel with
      | zero =>
        rw [htext] at hfuel
        simp only [List.length_append, List.length_cons] at hfuel
        omega
      | succ f =>
        rw [htext, splitLoop_sep a w1 _ f ha.1 ha.2 hw1, hdrop, youthPieces]
        congr 1
        apply ih _ _ _ htight hsepe hwf2
        rw [htext] at hfuel
        have hle := dropWhile_length_le (p := Regex.isReSpace) (youthSegment e.name e.dateText)
        simp only [List.length_append, List.length_cons] at hfuel ⊢
        omega
    · cases h

/-! ## Well-formed youth segments -/

theorem marker_paren : ∀ q < 17, 1 ≤ q → expirationMarker[q]? ≠ some '(' := by
  decide

theorem marker_no_overlap (b w0 X Y : Text) (hb : b ≠ [])
    (hw0 : w0.all Regex.isReSpace = true)
    (h : b ++ (w0 ++ (expirationMarker ++ X)) = expirationMarker ++ Y) :
    expirationMarker <+: b := by
  have hlen : expirationMarker.length = 17 := by decide
  have hget : ∀ i, i < 17 →
      (b ++ (w0 ++ (expirationMarker ++ X)))[i]? = expirationMarker[i]? := by
    intro i hi
    rw [h, List.getElem?_append_left (by omega)]
  have hb1 : 1 ≤ b.length := by
    cases b with
    | nil => exact absurd rfl hb
    | cons x t => simp
  by_cases hq : b.length + w0.length < 17
  · exfalso
    have h1 := hget (b.length + w0.length) hq
    rw [List.getElem?_append_right (by omega), List.getElem?_append_right (by omega)] at h1
    have h2 : (expirationMarker ++ X)[b.length + w0.length - b.length - w0.length]? =
        some '(' := by
      rw [show b.length + w0.length - b.length - w0.length = 0 by omega]
      rfl
    rw [h2] at h1
    exact marker_paren _ hq (by omega) h1.symm
  · by_cases hb17 : 17 ≤ b.length
    · have hp1 : expirationMarker <+: b ++ (w0 ++ (expirationMarker ++ X)) := ⟨Y, h.symm⟩
      have hp2 : b <+: b ++ (w0 ++ (expirationMarker ++ X)) := List.prefix_append _ _
      exact List.prefix_of_prefix_length_le hp1 hp2 (by omega)
    · exfalso
      have h1 := hget 16 (by omega)
      rw [List.getElem?_append_right (by omega), List.getElem?_append_left (by omega)] at h1
      have h2 : expirationMarker[16]? = some ':' := by decide
      rw [h2] at h1
      have hmem : ':' ∈ w0 := List.getElem?_mem h1
      have := List.all_eq_true.mp hw0 _ hmem
      exact absurd this (by decide)

theorem date_no_overlap (c w0 X w2 dt post : Text) (hw0 : w0.all Regex.isReSpace = true)
    (hw2 : w2.all Regex.isReSpace = true) (hd : dateShaped dt = true)
    (h : c ++ (w0 ++ (expirationMarker ++ X)) = w2 ++ (dt ++ ')' :: post)) :
    ∃ c3, c = w2 ++ (dt ++ ')' :: c3) := by
  have h10 := dateShaped_length dt hd
  have hparen : (c ++ (w0 ++ (expirationMarker ++ X)))[c.length + w0.length]? = some '(' := by
    rw [List.getElem?_append_right (by omega), List.getElem?_append_right (by omega),
      show c.length + w0.length - c.length - w0.length = 0 by omega]
    rfl
  by_cases hc : w2.length + 11 ≤ c.length
  · have hp1 : w2 ++ (dt ++ [')']) <+: c ++ (w0 ++ (expirationMarker ++ X)) :=
      ⟨post, by rw [h]; simp⟩
    have hp2 : c <+: c ++ (w0 ++ (expirationMarker ++ X)) := List.prefix_append _ _
    obtain ⟨c3, hc3⟩ := List.prefix_of_prefix_length_le hp1 hp2
      (by simp only [List.length_append, List.length_cons, List.length_nil]; omega)
    exact ⟨c3, by rw [← hc3]; simp⟩
  · exfalso
    rcases Nat.lt_trichotomy (c.length + w0.length) (w2.length + 10) with hlt | heq | hgt
    · rw [h] at hparen
      by_cases hj : c.length + w0.length < w2.length
      · rw [List.getElem?_append_left hj] at hparen
        have := List.all_eq_true.mp hw2 _ (List.getElem?_mem hparen)
        exact absurd this (by decide)
      · rw [List.getElem?_append_right (by omega), List.getElem?_append_left (by omega)]
          at hparen
        rcases dateShaped_mem dt hd _ (List.getElem?_mem hparen) with h2 | h2
        · exact absurd h2 (by decide)
        · exact absurd h2 (by decide)
    · rw [h, List.getElem?_append_right (by omega), List.getElem?_append_right (by omega),
        show c.length + w0.length - w2.length - dt.length = 0 by omega] at hparen
      simp at hparen
    · have hk : (c ++ (w0 ++ (expirationMarker ++ X)))[w2.length + 10]? = some ')' := by
        rw [h, List.getElem?_append_right (by omega), List.getElem?_append_right (by omega),
          show w2.length + 10 - w2.length - dt.length = 0 by omega]
        simp
      rw [List.getElem?_append_right (by omega), List.getElem?_append_left (by omega)] at hk
      have := List.all_eq_true.mp hw0 _ (List.getElem?_mem hk)
      exact absurd this (by decide)

theorem marker_of_expiration (name : Text) (h : HasExpiration name) :
    expirationMarker <:+: name := by
  obtain ⟨pre, s, dt, rfl, -, w1, w2, post, -, -, rfl⟩ := h
  exact ⟨pre ++ w1, w2 ++ dt ++ ')' :: post, by simp⟩

theorem find_youth_piece (name w0 d : Text) (hname : YouthName name)
    (hw0 : w0.all Regex.isReSpace = true) (hd : dateShaped d = true) :
    trainingPattern.FindStringSubmatch (name ++ (w0 ++ (expirationMarker ++ ' ' :: d ++ [')']))) =
      some [name ++ (w0 ++ (expirationMarker ++ ' ' :: d ++ [')'])), name, d] := by
  obtain ⟨-, hnl, hinf, htrim⟩ := hname
  have hu : expirationAt? (w0 ++ (expirationMarker ++ ' ' :: d ++ [')'])) = some (d, []) :=
    (expirationAt_iff _ d []).mpr ⟨hd, w0, [' '], hw0, by decide, by simp⟩
  have hdot : ∀ x ∈ name, Regex.isDot x = true := by
    intro x hx
    unfold Regex.isDot
    simp only [bne_iff_ne, ne_eq]
    rintro rfl
    exact hnl hx
  have hskip : ∀ n1 n2, name = n1 ++ n2 → n2 ≠ [] →
      expirationAt? (n2 ++ (w0 ++ (expirationMarker ++ ' ' :: d ++ [')']))) = none := by
    intro n1 n2 he hne
    cases hx : expirationAt? (n2 ++ (w0 ++ (expirationMarker ++ ' ' :: d ++ [')']))) with
    | none => rfl
    | some q =>
      exfalso
      obtain ⟨dt, post⟩ := q
      obtain ⟨hdt, w1, w2, hw1, hw2, hs⟩ := (expirationAt_iff _ _ _).mp hx
      obtain ⟨ys, x, hlast⟩ : ∃ ys x, n2 = ys ++ [x] := by
        obtain ⟨x, hxl⟩ : ∃ x, n2.getLast? = some x := by
          cases hl : n2.getLast? with
          | none => exact absurd (List.getLast?_eq_none_iff.mp hl) hne
          | some x => exact ⟨x, rfl⟩
        obtain ⟨ys, hys⟩ := List.getLast?_eq_some_iff.mp hxl
        exact ⟨ys, x, hys⟩
      have hxsp : Regex.isReSpace x = false :=
        last_not_space name htrim (n1 ++ ys) x (by rw [he, hlast, List.append_assoc])
      have hs2 : n2 ++ (w0 ++ (expirationMarker ++ ' ' :: d ++ [')'])) =
          w1 ++ (expirationMarker ++ (w2 ++ dt ++ ')' :: post)) := by
        rw [hs]
        simp only [List.append_assoc]
      have hxw : ∀ w : Text, w.all Regex.isReSpace = true → x ∈ w → False := by
        intro w hw hmem
        have := List.all_eq_true.mp hw x hmem
        rw [hxsp] at this
        cases this
      rcases List.append_eq_append_iff.mp hs2 with ⟨a, hw1a, -⟩ | ⟨c, hn2, hc⟩
      · apply hxw w1 hw1
        rw [hw1a, hlast]
        simp
      · have hcne : c ≠ [] := by
          rintro rfl
          apply hxw w1 hw1
          rw [List.append_nil] at hn2
          rw [← hn2, hlast]
          simp
        obtain ⟨c2, hc2⟩ := marker_no_overlap c w0 (' ' :: d ++ [')'])
          (w2 ++ dt ++ ')' :: post) hcne hw0 (by simpa using hc.symm)
        subst hc2
        have hc3 : c2 ++ (w0 ++ (expirationMarker ++ (' ' :: d ++ [')']))) =
            w2 ++ (dt ++ ')' :: post) := by
          have := List.append_cancel_left (by simpa using hc.symm :
            expirationMarker ++ (c2 ++ (w0 ++ (expirationMarker ++ (' ' :: d ++ [')'])))) =
              expirationMarker ++ (w2 ++ (dt ++ ')' :: post)))
          exact this
        obtain ⟨c3, rfl⟩ := date_no_overlap c2 w0 _ w2 dt post hw0 hw2 hdt hc3
        apply hinf
        refine ⟨n1, w1 ++ expirationMarker ++ w2 ++ dt ++ ')' :: c3, dt, ?_, hdt, w1, w2, c3,
          hw1, hw2, rfl⟩
        rw [he, hn2]
        simp
  have hm : trainingPattern.matchAt (name ++ (w0 ++ (expirationMarker ++ ' ' :: d ++ [')']))) =
      some ([], [(2, d), (1, name)]) := by
    rw [matchAt_trainingPattern, Regex.runStar_lazy_skip _ _ name _ [] hdot]
    · apply Regex.runStar_lazy_here
      rw [hu]
      simp
    · intro u1 u2 he hne
      rw [hskip u1 u2 he hne]
      rfl
  have hsearch := Regex.search_some trainingPattern [] _ _ _ (by simp) hm
  unfold Regex.FindStringSubmatch
  have h3 : trainingPattern.NumSubexp = 2 := by decide
  rw [List.nil_append] at hsearch
  rw [hsearch, h3]
  simp [List.range_succ, Caps.get]

theorem youthSegment_form (name d : Text) :
    youthSegment name d = name ++ ([' '] ++ (expirationMarker ++ ' ' :: d ++ [')'])) := by
  simp [youthSegment, expirationMarker]

theorem youthSegment_trimmed (name d : Text) (hname : YouthName name) :
    ∃ w0, w0.all Regex.isReSpace = true ∧
      (youthSegment name d).dropWhile Regex.isReSpace =
        name ++ (w0 ++ (expirationMarker ++ ' ' :: d ++ [')'])) := by
  cases hn : name with
  | nil =>
    refine ⟨[], rfl, ?_⟩
    rw [youthSegment_form, List.nil_append, List.nil_append, List.nil_append,
      dropWhile_all_append _ [' '] _ (by decide)]
    have : expirationMarker ++ ' ' :: d ++ [')'] =
        [] ++ '(' :: ("Expiration Date:".toList ++ ' ' :: d ++ [')']) := by
      simp [expirationMarker]
    rw [this, dropWhile_space_append [] '(' _ (by decide) (by decide)]
    rfl
  | cons x t =>
    refine ⟨[' '], by decide, ?_⟩
    have hx := head_not_space name hname.2.2.2 x t hn
    rw [youthSegment_form, List.cons_append, List.dropWhile_cons_of_neg (by simp [hx])]

theorem youth_piece_step (a name dtext : Text) (date : Date) (rest : List Text)
    (acc : List UserStatusRecord)
    (hfind : trainingPattern.FindStringSubmatch a = some [a, name, dtext]) (hne : a ≠ [])
    (htrim : strings.TrimSpace name = name) (hdate : ParseDate dtext = some date) :
    parseYouthTraining.loop (a :: rest) acc =
      parseYouthTraining.loop rest (acc ++ [TrainingRecord name date]) := by
  have h1 : trainingPattern.SubexpIndex "name".toList = 1 := by decide
  have h2 : trainingPattern.SubexpIndex "date".toList = 2 := by decide
  rw [parseYouthTraining.loop, if_neg hne, hfind]
  simp only [h1, h2]
  have e1 : ([a, name, dtext] : List Text)[1]?.getD [] = name := rfl
  have e2 : ([a, name, dtext] : List Text)[2]?.getD [] = dtext := rfl
  rw [e1, e2, hdate, htrim]

theorem youth_pieces_loop (rest : List YouthEntry) (a sep name dtext : Text) (date : Date)
    (acc : List UserStatusRecord)
    (hfind : trainingPattern.FindStringSubmatch a = some [a, name, dtext]) (hne : a ≠ [])
    (htrim : strings.TrimSpace name = name) (hdate : ParseDate dtext = some date)
    (hwf : WellFormedYouth rest) :
    parseYouthTraining.loop (youthPieces a sep rest) acc =
      .ok (acc ++ TrainingRecord name date ::
        rest.map (fun e => TrainingRecord e.name e.date)) := by
  induction rest generalizing a sep name dtext date acc with
  | nil =>
    unfold youthPieces
    split_ifs
    · rw [youth_piece_step a name dtext date [] acc hfind hne htrim hdate]
      simp [parseYouthTraining.loop]
    · rw [youth_piece_step a name dtext date [[]] acc hfind hne htrim hdate]
      simp [parseYouthTraining.loop]
  | cons e rest ih =>
    obtain ⟨hname, hd, -, hwf2⟩ := hwf
    obtain ⟨w0, hw0, hform⟩ := youthSegment_trimmed e.name e.dateText hname
    have hshape := ParseDate_shaped _ _ hd
    have hfind2 := find_youth_piece e.name w0 e.dateText hname hw0 hshape
    rw [← hform] at hfind2
    have hne2 : (youthSegment e.name e.dateText).dropWhile Regex.isReSpace ≠ [] := by
      obtain ⟨t, x, hx, -⟩ := (youthSegment_tight e.name e.dateText hname.1 hshape).2.2
      rw [hx]
      simp
    rw [youthPieces, youth_piece_step a name dtext date _ acc hfind hne htrim hdate,
      ih _ e.sep e.name e.dateText e.date _ hfind2 hne2 hname.2.2.2 hd hwf2]
    simp

/-! ## Adult training: the loop -/

theorem adult_loop_ok_iff (es : List Text) (ts : List Text) (i : Nat)
    (acc rs : List UserStatusRecord) :
    parseAdultTraining.loop es i ts acc = .ok rs ↔
      ∃ tl, rs = acc ++ tl ∧
        List.Forall₂ (AdultPairing es) ((ts.enumFrom i).filter (fun p => p.2 ≠ [])) tl := by
  induction ts generalizing i acc with
  | nil =>
    simp only [parseAdultTraining.loop, List.enumFrom_nil, List.filter_nil,
      List.forall₂_nil_left_iff, Except.ok.injEq]
    constructor
    · rintro rfl; exact ⟨[], by simp, rfl⟩
    · rintro ⟨tl, rfl, rfl⟩; simp
  | cons t rest ih =>
    by_cases ht : t = []
    · subst ht
      simp only [parseAdultTraining.loop, if_true, ih, List.enumFrom_cons]
      simp
    · simp only [parseAdultTraining.loop, if_neg ht, getD_guard, List.enumFrom_cons]
      rw [List.filter_cons_of_pos (by simpa using ht)]
      cases hd : ParseDate (es[i]?.getD []) with
      | none =>
        simp only [List.forall₂_cons_left_iff, AdultPairing, hd]
        constructor
        · intro h; cases h
        · rintro ⟨tl, -, r, us, ⟨d, hd2, -⟩, -, -⟩; cases hd2
      | some d =>
        simp only [ih, List.forall₂_cons_left_iff, AdultPairing, hd, Option.some.injEq]
        constructor
        · rintro ⟨tl, rfl, h⟩
          exact ⟨TrainingRecord t d :: tl, by simp, _, tl, ⟨d, rfl, rfl⟩, h, rfl⟩
        · rintro ⟨tl, rfl, r, us, ⟨d2, rfl, rfl⟩, h, rfl⟩
          exact ⟨us, by simp, h⟩

theorem offending_iff (ts es : List Text) (i : Nat) (t : Text) :
    Offending ts es i t ↔ ts[i]? = some t ∧ t ≠ [] ∧ ParseDate (es[i]?.getD []) = none := by
  unfold Offending
  cases he : es[i]? with
  | none => simp [ParseDate_nil]
  | some e => simp

theorem adult_loop_error_iff (es : List Text) (ts : List Text) (i : Nat)
    (acc : List UserStatusRecord) (e : Text) :
    parseAdultTraining.loop es i ts acc = .error e ↔
      ∃ j t, ts[j]? = some t ∧ t ≠ [] ∧ ParseDate (es[i + j]?.getD []) = none ∧
        (∀ k u, k < j → ts[k]? = some u → u ≠ [] → ParseDate (es[i + k]?.getD []) ≠ none) ∧
        e = errInvalidTrainingDate t := by
  induction ts generalizing i acc with
  | nil => simp [parseAdultTraining.loop]
  | cons t rest ih =>
    have shift : ∀ (P : Nat → Text → Prop),
        (∃ j u, (t :: rest)[j]? = some u ∧ P j u) ↔
          P 0 t ∨ ∃ j u, rest[j]? = some u ∧ P (j + 1) u := by
      intro P
      constructor
      · rintro ⟨j, u, hj, hP⟩
        cases j with
        | zero => simp at hj; subst hj; exact Or.inl hP
        | succ j => exact Or.inr ⟨j, u, by simpa using hj, hP⟩
      · rintro (hP | ⟨j, u, hj, hP⟩)
        · exact ⟨0, t, by simp, hP⟩
        · exact ⟨j + 1, u, by simpa using hj, hP⟩
    rw [shift (fun j u => u ≠ [] ∧ ParseDate (es[i + j]?.getD []) = none ∧
        (∀ k v, k < j → (t :: rest)[k]? = some v → v ≠ [] →
            ParseDate (es[i + k]?.getD []) ≠ none) ∧
        e = errInvalidTrainingDate u)]
    have first : ∀ j : Nat,
        (∀ k v, k < j + 1 → (t :: rest)[k]? = some v → v ≠ [] →
            ParseDate (es[i + k]?.getD []) ≠ none) ↔
          (t ≠ [] → ParseDate (es[i]?.getD []) ≠ none) ∧
            ∀ k v, k < j → rest[k]? = some v → v ≠ [] →
              ParseDate (es[i + 1 + k]?.getD []) ≠ none := by
      intro j
      constructor
      · intro h
        refine ⟨fun ht => by simpa using h 0 t (by omega) (by simp) ht, ?_⟩
        intro k v hk hv hne
        have := h (k + 1) v (by omega) (by simpa using hv) hne
        rwa [show i + (k + 1) = i + 1 + k by omega] at this
      · rintro ⟨h0, h1⟩ k v hk hv hne
        cases k with
        | zero => simp at hv; subst hv; simpa using h0 hne
        | succ k =>
          have := h1 k v (by omega) (by simpa using hv) hne
          rwa [show i + 1 + k = i + (k + 1) by omega] at this
    have reidx : ∀ j : Nat, i + 1 + j = i + (j + 1) := fun j => by omega
    by_cases ht : t = []
    · subst ht
      simp only [parseAdultTraining.loop, if_true, ih, first, reidx]
      simp
    · simp only [parseAdultTraining.loop, if_neg ht, getD_guard]
      cases hd : ParseDate (es[i]?.getD []) with
      | none =>
        simp only [first, hd]
        constructor
        · intro h
          injection h with h
          exact Or.inl ⟨ht, by simpa using hd, by simp, h.symm⟩
        · rintro (⟨-, -, -, rfl⟩ | ⟨j, u, -, -, -, ⟨h0, -⟩, -⟩)
          · rfl
          · exact absurd rfl (h0 ht)
      | some d =>
        simp only [ih, first, reidx]
        simp [ht, hd]

theorem adult_loop_all (es ts : List Text) (i : Nat) (acc : List UserStatusRecord)
    (ds : List Date) (hne : ∀ t ∈ ts, t ≠ []) (hlen : ds.length = ts.length)
    (h : ∀ j d, ds[j]? = some d → ParseDate (es[i + j]?.getD []) = some d) :
    parseAdultTraining.loop es i ts acc = .ok (acc ++ List.zipWith TrainingRecord ts ds) := by
  induction ts generalizing i acc ds with
  | nil => simp [parseAdultTraining.loop]
  | cons t rest ih =>
    cases ds with
    | nil => simp at hlen
    | cons d ds =>
      have ht : t ≠ [] := hne t (by simp)
      have h0 : ParseDate (es[i]?.getD []) = some d := by simpa using h 0 d (by simp)
      simp only [parseAdultTraining.loop, if_neg ht, getD_guard, h0]
      rw [ih (i + 1) _ ds (fun u hu => hne u (by simp [hu])) (by simpa using hlen)]
      · simp
      · intro j e hj
        have := h (j + 1) e (by simpa using hj)
        rwa [show i + (j + 1) = i + 1 + j by omega] at this

theorem take_map_parse (es : List Text) (ds : List Date)
    (h : (es.take ds.length).map ParseDate = ds.map some) (j : Nat) (d : Date)
    (hj : ds[j]? = some d) : ParseDate (es[j]?.getD []) = some d := by
  have hlt : j < ds.length := by
    rcases Nat.lt_or_ge j ds.length with h1 | h1
    · exact h1
    · rw [List.getElem?_eq_none h1] at hj; cases hj
  have h1 : ((es.take ds.length).map ParseDate)[j]? = (ds.map some)[j]? := by rw [h]
  rw [List.getElem?_map, List.getElem?_map, List.getElem?_take_of_lt hlt, hj] at h1
  cases he : es[j]? with
  | none => rw [he] at h1; cases h1
  | some e => rw [he] at h1; simpa using h1

/-! ## Parsing and formatting dates -/

theorem isDigit_range (a : Char) (h : a.isDigit = true) : 48 ≤ a.toNat ∧ a.toNat ≤ 57 := by
  simp only [Char.isDigit, Bool.and_eq_true, decide_eq_true_eq, ge_iff_le] at h
  obtain ⟨h1, h2⟩ := h
  rw [UInt32.le_def] at h1 h2
  exact ⟨h1, h2⟩

theorem digitVal_lt (a : Char) (h : a.isDigit = true) : digitVal a < 10 := by
  have := isDigit_range a h
  unfold digitVal
  omega

theorem digitChar_of_digit (a : Char) (h : a.isDigit = true) (n : Nat)
    (hn : n % 10 = digitVal a) : digitChar n = a := by
  have hr := isDigit_range a h
  unfold digitChar
  rw [hn]
  unfold digitVal
  rw [show 48 + (a.toNat - 48) = a.toNat by omega]
  exact Char.ofNat_toNat a

theorem getnum_fixed_val (v rest : Text) (n : Nat) (h : getnum v true = some (n, rest)) :
    ∃ a b, v = a :: b :: rest ∧ a.isDigit = true ∧ b.isDigit = true ∧
      n = digitVal a * 10 + digitVal b := by
  unfold getnum at h
  cases v with
  | nil => cases h
  | cons a t =>
    simp only [] at h
    cases ha : a.isDigit with
    | false => simp [ha] at h
    | true =>
      simp only [ha, Bool.not_true, Bool.false_eq_true, if_false] at h
      cases t with
      | nil => simp at h
      | cons b t2 =>
        simp only [] at h
        cases hb : b.isDigit with
        | false => simp [hb] at h
        | true =>
          simp only [hb, if_true, Option.some.injEq, Prod.mk.injEq] at h
          exact ⟨a, b, by rw [h.2], ha, hb, h.1.symm⟩

theorem getyear_val (v rest : Text) (n : Nat) (h : getyear v = some (n, rest)) :
    ∃ a b c d, v = a :: b :: c :: d :: rest ∧ a.isDigit = true ∧ b.isDigit = true ∧
      c.isDigit = true ∧ d.isDigit = true ∧
      n = digitVal a * 1000 + digitVal b * 100 + digitVal c * 10 + digitVal d := by
  unfold getyear at h
  split at h
  · rename_i a b c d r
    by_cases hd : (a.isDigit && b.isDigit && c.isDigit && d.isDigit) = true
    · rw [if_pos hd] at h
      simp only [Option.some.injEq, Prod.mk.injEq] at h
      simp only [Bool.and_eq_true] at hd
      exact ⟨a, b, c, d, by rw [h.2], hd.1.1.1, hd.1.1.2, hd.1.2, hd.2, h.1.symm⟩
    · rw [if_neg hd] at h
      cases h
  · cases h

theorem daysIn_eq (year month : Nat) (h1 : 1 ≤ month) (h2 : month ≤ 12) :
    daysIn month year = gregorianMonthLength year month := by
  interval_cases month <;> simp [daysIn, gregorianMonthLength, isLeap]

theorem ParseDate_digits (a b c e y1 y2 y3 y4 : Char) (ha : a.isDigit = true)
    (hb : b.isDigit = true) (hc : c.isDigit = true) (he : e.isDigit = true)
    (h1 : y1.isDigit = true) (h2 : y2.isDigit = true) (h3 : y3.isDigit = true)
    (h4 : y4.isDigit = true) :
    ParseDate [a, b, '/', c, e, '/', y1, y2, y3, y4] =
      if digitVal a * 10 + digitVal b = 0 ∨ 12 < digitVal a * 10 + digitVal b then none
      else if digitVal c * 10 + digitVal e < 1 ∨
          daysIn (digitVal a * 10 + digitVal b)
            (digitVal y1 * 1000 + digitVal y2 * 100 + digitVal y3 * 10 + digitVal y4) <
            digitVal c * 10 + digitVal e then none
      else some ⟨digitVal y1 * 1000 + digitVal y2 * 100 + digitVal y3 * 10 + digitVal y4,
        digitVal a * 10 + digitVal b, digitVal c * 10 + digitVal e⟩ := by
  simp only [ParseDate, getnum, skip, getyear, ha, hb, hc, he, h1, h2, h3, h4, Bool.not_true,
    Bool.false_eq_true, if_false, if_true, Bool.and_self, ne_eq, not_true_eq_false]

theorem ParseDate_some_iff (v : Text) (d : Date) :
    ParseDate v = some d ↔
      ∃ a b c e y1 y2 y3 y4, v = [a, b, '/', c, e, '/', y1, y2, y3, y4] ∧
        a.isDigit = true ∧ b.isDigit = true ∧ c.isDigit = true ∧ e.isDigit = true ∧
        y1.isDigit = true ∧ y2.isDigit = true ∧ y3.isDigit = true ∧ y4.isDigit = true ∧
        d = ⟨digitVal y1 * 1000 + digitVal y2 * 100 + digitVal y3 * 10 + digitVal y4,
          digitVal a * 10 + digitVal b, digitVal c * 10 + digitVal e⟩ ∧
        1 ≤ d.month ∧ d.month ≤ 12 ∧ 1 ≤ d.day ∧
        d.day ≤ gregorianMonthLength d.year d.month := by
  constructor
  · intro h
    have h0 := h
    unfold ParseDate at h
    cases h1 : getnum v true with
    | none => rw [h1] at h; cases h
    | some p1 =>
      obtain ⟨month, v1⟩ := p1
      rw [h1] at h
      simp only [] at h
      split_ifs at h with hm
      cases h2 : skip v1 '/' with
      | none => rw [h2] at h; cases h
      | some v2 =>
        rw [h2] at h
        simp only [] at h
        cases h3 : getnum v2 true with
        | none => rw [h3] at h; cases h
        | some p3 =>
          obtain ⟨day, v3⟩ := p3
          rw [h3] at h
          simp only [] at h
          cases h4 : skip v3 '/' with
          | none => rw [h4] at h; cases h
          | some v4 =>
            rw [h4] at h
            simp only [] at h
            cases h5 : getyear v4 with
            | none => rw [h5] at h; cases h
            | some p5 =>
              obtain ⟨year, v5⟩ := p5
              rw [h5] at h
              simp only [] at h
              split_ifs at h with hv5 hday
              simp only [ne_eq, not_not] at hv5
              subst hv5
              simp only [Option.some.injEq] at h
              obtain ⟨a, b, rfl, ha, hb, hmv⟩ := getnum_fixed_val _ _ _ h1
              have e2 := skip_some _ _ _ h2
              subst e2
              obtain ⟨c, e, rfl, hc, he, hdv⟩ := getnum_fixed_val _ _ _ h3
              have e4 := skip_some _ _ _ h4
              subst e4
              obtain ⟨y1, y2, y3, y4, rfl, hy1, hy2, hy3, hy4, hyv⟩ := getyear_val _ _ _ h5
              refine ⟨a, b, c, e, y1, y2, y3, y4, rfl, ha, hb, hc, he, hy1, hy2, hy3, hy4, ?_⟩
              subst h
              subst hmv hdv hyv
              refine ⟨rfl, ?_⟩
              simp only []
              have hm1 : 1 ≤ digitVal a * 10 + digitVal b := by omega
              have hm2 : digitVal a * 10 + digitVal b ≤ 12 := by omega
              rw [← daysIn_eq _ _ hm1 hm2]
              omega
  · rintro ⟨a, b, c, e, y1, y2, y3, y4, rfl, ha, hb, hc, he, hy1, hy2, hy3, hy4, rfl,
      hm1, hm2, hd1, hd2⟩
    simp only [] at hm1 hm2 hd1 hd2
    rw [ParseDate_digits a b c e y1 y2 y3 y4 ha hb hc he hy1 hy2 hy3 hy4,
      daysIn_eq _ _ hm1 hm2, if_neg (by omega), if_neg (by omega)]

theorem appendInt_two (a b : Char) (ha : a.isDigit = true) (hb : b.isDigit = true) :
    appendInt (digitVal a * 10 + digitVal b) 2 = [a, b] := by
  have h1 := digitVal_lt a ha
  have h2 := digitVal_lt b hb
  unfold appendInt
  rw [if_pos ⟨rfl, by omega⟩, digitChar_of_digit a ha _ (by omega),
    digitChar_of_digit b hb _ (by omega)]

theorem appendInt_four (a b c d : Char) (ha : a.isDigit = true) (hb : b.isDigit = true)
    (hc : c.isDigit = true) (hd : d.isDigit = true) :
    appendInt (digitVal a * 1000 + digitVal b * 100 + digitVal c * 10 + digitVal d) 4 =
      [a, b, c, d] := by
  have h1 := digitVal_lt a ha
  have h2 := digitVal_lt b hb
  have h3 := digitVal_lt c hc
  have h4 := digitVal_lt d hd
  unfold appendInt
  rw [if_neg (by omega), if_pos ⟨rfl, by omega⟩, digitChar_of_digit a ha _ (by omega),
    digitChar_of_digit b hb _ (by omega), digitChar_of_digit c hc _ (by omega),
    digitChar_of_digit d hd _ (by omega)]

/-! ## `strings.Split` -/

namespace strings

theorem cut_none (sep : Text) (hsep : sep ≠ []) (s : Text) :
    cut sep s = none ↔ ¬ sep <:+: s := by
  induction s with
  | nil => simp [cut, hsep]
  | cons x t ih =>
    by_cases h : startsWith (x :: t) sep = true
    · have hp := (startsWith_iff _ _).mp h
      simp only [cut, h, if_true]
      constructor
      · intro hc; cases hc
      · intro hc; exact absurd hp.isInfix hc
    · have hp : ¬ sep <+: x :: t := fun hh => h ((startsWith_iff _ _).mpr hh)
      simp only [cut, h, Bool.false_eq_true, if_false]
      cases hc : cut sep t with
      | none =>
        simp only [true_iff]
        rw [List.infix_cons_iff]
        push_neg
        exact ⟨hp, ih.mp hc⟩
      | some p =>
        obtain ⟨b, a⟩ := p
        have : sep <:+: t := by
          by_contra hh
          rw [ih.mpr hh] at hc
          cases hc
        constructor
        · intro hh; cases hh
        · intro hh; exact absurd (List.infix_cons_iff.mpr (Or.inr this)) hh

theorem cut_some (sep : Text) (hsep : sep ≠ []) (s b a : Text) (h : cut sep s = some (b, a)) :
    s = b ++ sep ++ a ∧ ¬ sep <:+: b := by
  induction s generalizing b with
  | nil => simp [cut, hsep] at h
  | cons x t ih =>
    by_cases hs : startsWith (x :: t) sep = true
    · have hp := (startsWith_iff _ _).mp hs
      simp only [cut, hs, if_true, Option.some.injEq, Prod.mk.injEq] at h
      obtain ⟨rfl, rfl⟩ := h
      refine ⟨?_, by simpa using hsep⟩
      rw [List.nil_append]
      exact (List.prefix_iff_eq_append.mp hp).symm
    · have hp : ¬ sep <+: x :: t := fun hh => hs ((startsWith_iff _ _).mpr hh)
      simp only [cut, hs, Bool.false_eq_true, if_false] at h
      cases hc : cut sep t with
      | none => rw [hc] at h; cases h
      | some p =>
        obtain ⟨b1, a1⟩ := p
        rw [hc] at h
        simp only [Option.some.injEq, Prod.mk.injEq] at h
        obtain ⟨rfl, rfl⟩ := h
        obtain ⟨e, hn⟩ := ih b1 hc
        refine ⟨by rw [e]; simp, ?_⟩
        rw [List.infix_cons_iff]
        push_neg
        refine ⟨fun hh => hp (hh.trans ?_), hn⟩
        rw [e]
        exact ⟨sep ++ a1, by simp⟩

theorem genSplit_ne_nil (sep : Text) (n : Nat) (s : Text) : genSplit sep n s ≠ [] := by
  cases n with
  | zero => simp [genSplit]
  | succ n =>
    unfold genSplit
    cases cut sep s with
    | none => simp
    | some p => simp

theorem Join_cons (a : Text) (l : List Text) (sep : Text) (h : l ≠ []) :
    Join (a :: l) sep = a ++ sep ++ Join l sep := by
  cases l with
  | nil => exact absurd rfl h
  | cons b r => rfl

theorem Join_genSplit (sep : Text) (hsep : sep ≠ []) (n : Nat) (s : Text) :
    Join (genSplit sep n s) sep = s := by
  induction n generalizing s with
  | zero => rfl
  | succ n ih =>
    unfold genSplit
    cases hc : cut sep s with
    | none => rfl
    | some p =>
      obtain ⟨b, a⟩ := p
      simp only []
      rw [Join_cons _ _ _ (genSplit_ne_nil sep n a), ih a]
      exact (cut_some sep hsep s b a hc).1.symm

theorem genSplit_absent (sep : Text) (hsep : sep ≠ []) (n : Nat) (s : Text)
    (h : ¬ sep <:+: s) : genSplit sep n s = [s] := by
  cases n with
  | zero => rfl
  | succ n =>
    unfold genSplit
    rw [(cut_none sep hsep s).mpr h]

theorem genSplit_pieces (sep : Text) (hsep : sep ≠ []) (n : Nat) (s : Text)
    (hn : s.length ≤ n) : ∀ p ∈ genSplit sep n s, ¬ sep <:+: p := by
  induction n generalizing s with
  | zero =>
    intro p hp
    have hs : s = [] := List.length_eq_zero.mp (Nat.le_zero.mp hn)
    subst hs
    simp only [genSplit, List.mem_singleton] at hp
    subst hp
    simpa using hsep
  | succ n ih =>
    intro p hp
    unfold genSplit at hp
    cases hc : cut sep s with
    | none =>
      rw [hc] at hp
      simp only [List.mem_singleton] at hp
      subst hp
      exact (cut_none sep hsep p).mp hc
    | some q =>
      obtain ⟨b, a⟩ := q
      rw [hc] at hp
      simp only [List.mem_cons] at hp
      obtain ⟨e, hb⟩ := cut_some sep hsep s b a hc
      rcases hp with rfl | hp
      · exact hb
      · refine ih a ?_ p hp
        have hl : 0 < sep.length := List.length_pos.mpr hsep
        have := congrArg List.length e
        simp only [List.length_append] at this
        omega

end strings

/-! ## The mappers -/

theorem parseHealthForms_ok (cell : Text) :
    parseHealthForms cell =
      .ok ((paddedPipePattern.Split cell noLimit).filterMap healthFormOf) := by
  unfold parseHealthForms
  rw [health_loop]
  rfl

theorem ToAdultUser_ok (u : AdultScoutbookUser) (hf tr : List UserStatusRecord)
    (sw : UserStatusRecord) (h1 : parseHealthForms u.HealthForms = .ok hf)
    (h2 : parseAdultTraining u.Training u.TrainingExpiration = .ok tr)
    (h3 : parseSwimClass u.SwimClass u.SwimClassExpiration = .ok sw) :
    u.ToAdultUser =
      ({ Name := u.FirstName ++ " ".toList ++ u.LastName, BsaId := u.BsaId, Email := u.Email,
         Gender := u.Gender, UnitNumber := u.UnitNumber, Training := tr, HealthForms := hf,
         SwimClass := sw, Positions := strings.Split u.Positions " | ".toList }, none) := by
  unfold AdultScoutbookUser.ToAdultUser
  rw [h1, h2, h3]

theorem ToAdultUser_cases (u : AdultScoutbookUser) :
    (∃ hf tr sw, parseHealthForms u.HealthForms = .ok hf ∧
      parseAdultTraining u.Training u.TrainingExpiration = .ok tr ∧
      parseSwimClass u.SwimClass u.SwimClassExpiration = .ok sw ∧
      u.ToAdultUser =
        ({ Name := u.FirstName ++ " ".toList ++ u.LastName, BsaId := u.BsaId,
           Email := u.Email, Gender := u.Gender, UnitNumber := u.UnitNumber, Training := tr,
           HealthForms := hf, SwimClass := sw,
           Positions := strings.Split u.Positions " | ".toList }, none)) ∨
    (∃ e, u.ToAdultUser = (AdultUser.zero, some e) ∧
      (parseHealthForms u.HealthForms = .error e ∨
        ((∃ hf, parseHealthForms u.HealthForms = .ok hf) ∧
          parseAdultTraining u.Training u.TrainingExpiration = .error e) ∨
        ((∃ hf, parseHealthForms u.HealthForms = .ok hf) ∧
          (∃ tr, parseAdultTraining u.Training u.TrainingExpiration = .ok tr) ∧
          parseSwimClass u.SwimClass u.SwimClassExpiration = .error e))) := by
  unfold AdultScoutbookUser.ToAdultUser
  cases h1 : parseHealthForms u.HealthForms with
  | error e => exact Or.inr ⟨e, rfl, Or.inl rfl⟩
  | ok hf =>
    cases h2 : parseAdultTraining u.Training u.TrainingExpiration with
    | error e => exact Or.inr ⟨e, rfl, Or.inr (Or.inl ⟨⟨hf, rfl⟩, rfl⟩)⟩
    | ok tr =>
      cases h3 : parseSwimClass u.SwimClass u.SwimClassExpiration with
      | error e => exact Or.inr ⟨e, rfl, Or.inr (Or.inr ⟨⟨hf, rfl⟩, ⟨tr, rfl⟩, rfl⟩)⟩
      | ok sw => exact Or.inl ⟨hf, tr, sw, rfl, rfl, rfl, rfl⟩

theorem ToYouthUser_cases (u : YouthScoutbookUser) (bday : Date)
    (hb : ParseDate u.DateOfBirth = some bday) :
    (∃ hf tr sw, parseHealthForms u.HealthForms = .ok hf ∧
      parseYouthTraining u.Training u.TrainingExpiration = .ok tr ∧
      parseSwimClass u.SwimClass u.SwimClassExpiration = .ok sw ∧
      ((u.FirstName = [] ∧ u.ToYouthUser = .panicked) ∨
        ∃ c t, u.FirstName = c :: t ∧
          u.ToYouthUser = .returned
            { Name := byteToString (firstByte c) ++ ". ".toList ++ u.LastName,
              BsaId := u.BsaId, Email := [], Gender := u.Gender, DateOfBirth := bday,
              Age := u.Age, Patrol := u.Patrol, Training := tr, HealthForms := hf,
              SwimClass := sw,
              Positions :=
                if u.Positions = [] then []
                else paddedPipePattern.Split u.Positions noLimit } none)) ∨
    (∃ e, u.ToYouthUser = .returned YouthUser.zero (some e) ∧
      (parseHealthForms u.HealthForms = .error e ∨
        ((∃ hf, parseHealthForms u.HealthForms = .ok hf) ∧
          parseYouthTraining u.Training u.TrainingExpiration = .error e) ∨
        ((∃ hf, parseHealthForms u.HealthForms = .ok hf) ∧
          (∃ tr, parseYouthTraining u.Training u.TrainingExpiration = .ok tr) ∧
          parseSwimClass u.SwimClass u.SwimClassExpiration = .error e))) := by
  unfold YouthScoutbookUser.ToYouthUser
  rw [hb]
  cases h1 : parseHealthForms u.HealthForms with
  | error e => exact Or.inr ⟨e, rfl, Or.inl rfl⟩
  | ok hf =>
    cases h2 : parseYouthTraining u.Training u.TrainingExpiration with
    | error e => exact Or.inr ⟨e, rfl, Or.inr (Or.inl ⟨⟨hf, rfl⟩, rfl⟩)⟩
    | ok tr =>
      cases h3 : parseSwimClass u.SwimClass u.SwimClassExpiration with
      | error e => exact Or.inr ⟨e, rfl, Or.inr (Or.inr ⟨⟨hf, rfl⟩, ⟨tr, rfl⟩, rfl⟩)⟩
      | ok sw =>
        refine Or.inl ⟨hf, tr, sw, rfl, rfl, rfl, ?_⟩
        cases hn : u.FirstName with
        | nil => exact Or.inl ⟨rfl, rfl⟩
        | cons c t => exact Or.inr ⟨c, t, rfl, rfl⟩

theorem ToYouthUser_no_birthday (u : YouthScoutbookUser) (hb : ParseDate u.DateOfBirth = none) :
    u.ToYouthUser = .returned YouthUser.zero none := by
  unfold YouthScoutbookUser.ToYouthUser
  rw [parseHealthForms_ok, hb]

theorem parseSwimClass_ok (swimClass swimClassExpiration : Text) (sw : UserStatusRecord)
    (h : parseSwimClass swimClass swimClassExpiration = .ok sw) :
    sw = NonSwimmerRecord ∨
      ∃ d, ParseDate swimClassExpiration = some d ∧ sw = SwimmerRecord d := by
  unfold parseSwimClass at h
  split_ifs at h with h1 h2 hx
  · exact Or.inl (by injection h with h; exact h.symm)
  · cases hd : ParseDate swimClassExpiration with
    | none => rw [hd] at h; cases h
    | some d =>
      rw [hd] at h
      exact Or.inr ⟨d, rfl, by injection h with h; exact h.symm⟩
  · exact Or.inl (by injection h with h; exact h.symm)

/-! ## The pieces between padded pipes -/

theorem pipeFields_ne_nil (s : Text) : pipeFields s ≠ [] := by
  cases s with
  | nil => simp [pipeFields]
  | cons c s =>
    unfold pipeFields
    split_ifs
    · simp
    · cases pipeFields s <;> simp

theorem pipeFields_cons (c : Char) (s g : Text) (gs : List Text) (hc : c ≠ '|')
    (h : pipeFields s = g :: gs) : pipeFields (c :: s) = (c :: g) :: gs := by
  rw [pipeFields, if_neg hc, h]

theorem pipeFields_no_pipe (a : Text) (h : '|' ∉ a) : pipeFields a = [a] := by
  induction a with
  | nil => rfl
  | cons c a ih =>
    simp only [List.mem_cons, not_or] at h
    exact pipeFields_cons c a a [] (fun e => h.1 e.symm) (ih h.2)

theorem pipeFields_append (a m : Text) (g : Text) (gs : List Text) (h : '|' ∉ a)
    (hm : pipeFields m = g :: gs) : pipeFields (a ++ m) = (a ++ g) :: gs := by
  induction a with
  | nil => exact hm
  | cons c a ih =>
    simp only [List.mem_cons, not_or] at h
    exact pipeFields_cons c (a ++ m) (a ++ g) gs (fun e => h.1 e.symm) (ih h.2)

theorem pipeFields_append_pipe (a rest : Text) (h : '|' ∉ a) :
    pipeFields (a ++ '|' :: rest) = a :: pipeFields rest := by
  have := pipeFields_append a ('|' :: rest) [] (pipeFields rest) h (by simp [pipeFields])
  simpa using this

theorem first_pipe (s : Text) (h : '|' ∈ s) : ∃ a rest, s = a ++ '|' :: rest ∧ '|' ∉ a := by
  induction s with
  | nil => simp at h
  | cons c s ih =>
    by_cases hc : c = '|'
    · exact ⟨[], s, by rw [hc]; rfl, by simp⟩
    · have hs : '|' ∈ s := by
        rcases List.mem_cons.mp h with h | h
        · exact absurd h.symm hc
        · exact h
      obtain ⟨a, rest, e, ha⟩ := ih hs
      refine ⟨c :: a, rest, by rw [e]; rfl, ?_⟩
      simp only [List.mem_cons, not_or]
      exact ⟨fun e => hc e.symm, ha⟩

theorem pipeFields_stripLeft (rest g : Text) (gs : List Text) (h : pipeFields rest = g :: gs) :
    pipeFields (stripLeft rest) = stripLeft g :: gs := by
  induction rest generalizing g with
  | nil =>
    simp only [pipeFields, List.cons.injEq] at h
    obtain ⟨rfl, rfl⟩ := h
    rfl
  | cons c r ih =>
    by_cases hc : c = '|'
    · subst hc
      simp only [pipeFields, if_true, List.cons.injEq] at h
      obtain ⟨rfl, rfl⟩ := h
      rfl
    · obtain ⟨g1, gs1, hr⟩ := List.exists_cons_of_ne_nil (pipeFields_ne_nil r)
      rw [pipeFields_cons c r g1 gs1 hc hr] at h
      simp only [List.cons.injEq] at h
      obtain ⟨rfl, rfl⟩ := h
      by_cases hs : Regex.isReSpace c = true
      · unfold stripLeft
        rw [List.dropWhile_cons_of_pos hs, List.dropWhile_cons_of_pos hs]
        exact ih g1 hr
      · unfold stripLeft
        rw [List.dropWhile_cons_of_neg hs, List.dropWhile_cons_of_neg hs]
        exact pipeFields_cons c r g1 gs1 hc hr

theorem stripRight_spec (a : Text) :
    ∃ w, a = stripRight a ++ w ∧ w.all Regex.isReSpace = true ∧
      (stripRight a = [] ∨ ∃ t x, stripRight a = t ++ [x] ∧ Regex.isReSpace x = false) := by
  induction a using List.reverseRecOn with
  | nil => exact ⟨[], rfl, rfl, Or.inl rfl⟩
  | append_singleton l x ih =>
    by_cases hx : Regex.isReSpace x = true
    · obtain ⟨w, e, hw, hl⟩ := ih
      refine ⟨w ++ [x], ?_, ?_, ?_⟩
      · unfold stripRight at e ⊢
        rw [List.rdropWhile_concat_pos _ _ _ hx, ← List.append_assoc, ← e]
      · simp [hw, hx]
      · unfold stripRight at hl ⊢
        rw [List.rdropWhile_concat_pos _ _ _ hx]
        exact hl
    · have e : stripRight (l ++ [x]) = l ++ [x] := List.rdropWhile_concat_neg _ _ _ hx
      exact ⟨[], by rw [e]; simp, rfl, Or.inr ⟨l, x, e, by simpa using hx⟩⟩

theorem splitLoop_pipe (a rest : Text) (fuel : Nat) (hpipe : '|' ∉ a) :
    paddedPipePattern.splitLoop (fuel + 1) (a ++ '|' :: rest) =
      stripRight a :: paddedPipePattern.splitLoop fuel (stripLeft rest) := by
  obtain ⟨w, e, hw, hl⟩ := stripRight_spec a
  have hp : '|' ∉ stripRight a := fun h =>
    hpipe ((List.rdropWhile_prefix Regex.isReSpace a).subset h)
  have hs : a ++ '|' :: rest = stripRight a ++ (w ++ '|' :: rest) := by
    rw [← List.append_assoc, ← e]
  rw [hs]
  rcases hl with h0 | hlast
  · rw [h0, List.nil_append]
    have hm : paddedPipePattern.matchAt (w ++ '|' :: rest) =
        some (rest.dropWhile Regex.isReSpace, []) :=
      matchAt_paddedPipe_some _ _ (dropWhile_space_append w '|' rest hw (by decide))
    have := Regex.search_some paddedPipePattern [] (w ++ '|' :: rest) _ _
      (fun p1 p2 he hne => by
        have : p2 = [] := (List.append_eq_nil.mp he.symm).2
        exact absurd this hne) hm
    rw [List.nil_append] at this
    simp only [Regex.splitLoop, this, stripLeft]
  · exact splitLoop_sep (stripRight a) w rest fuel hp hlast hw

theorem stripLeft_length_le (s : Text) : (stripLeft s).length ≤ s.length :=
  (List.dropWhile_suffix Regex.isReSpace).length_le

theorem splitLoop_fields (fuel : Nat) (s : Text) (h : s.length ≤ fuel) :
    paddedPipePattern.splitLoop fuel s = paddedPieces s := by
  unfold paddedPieces
  induction fuel generalizing s with
  | zero =>
    have hs : s = [] := List.length_eq_zero.mp (Nat.le_zero.mp h)
    subst hs
    rfl
  | succ f ih =>
    by_cases hp : '|' ∈ s
    · obtain ⟨a, rest, rfl, ha⟩ := first_pipe s hp
      obtain ⟨g, gs, hr⟩ := List.exists_cons_of_ne_nil (pipeFields_ne_nil rest)
      have hlen : (stripLeft rest).length ≤ f := by
        have := stripLeft_length_le rest
        simp only [List.length_append, List.length_cons] at h
        omega
      rw [splitLoop_pipe a rest f ha, ih _ hlen, pipeFields_append_pipe a rest ha,
        pipeFields_stripLeft rest g gs hr, hr]
      cases gs with
      | nil => rfl
      | cons g2 gs2 => rfl
    · rw [splitLoop_no_pipe s _ hp, pipeFields_no_pipe s hp]
      rfl

theorem Split_paddedPieces (s : Text) :
    paddedPipePattern.Split s noLimit = paddedPieces s := by
  unfold Regex.Split
  rw [if_neg (by decide)]
  by_cases hs : s = []
  · rw [if_pos hs, hs]
    rfl
  · rw [if_neg hs, if_pos (by decide)]
    exact splitLoop_fields _ s (le_refl _)

theorem trimFields_length (first : Bool) (fs : List Text) :
    (trimFields first fs).length = fs.length := by
  induction fs generalizing first with
  | nil => cases first <;> rfl
  | cons f fs ih =>
    cases fs with
    | nil => cases first <;> rfl
    | cons g gs =>
      rw [trimFields, List.length_cons, ih false, List.length_cons]
      rfl

theorem paddedPieces_ne_single_empty (s : Text) (hs : s ≠ []) : paddedPieces s ≠ [[]] := by
  unfold paddedPieces
  by_cases hp : '|' ∈ s
  · obtain ⟨a, rest, rfl, ha⟩ := first_pipe s hp
    obtain ⟨g, gs, hr⟩ := List.exists_cons_of_ne_nil (pipeFields_ne_nil rest)
    intro h
    have := congrArg List.length h
    rw [trimFields_length, pipeFields_append_pipe a rest ha, hr] at this
    simp at this
  · rw [pipeFields_no_pipe s hp]
    intro h
    simp only [trimFields, if_true, List.cons.injEq, and_true] at h
    exact hs h

/-! ## The marker after a health-form tag -/

theorem healthTokenAt_not_digit (x : Char) (t : Text) (hx : Regex.isReDigit x = false) :
    healthTokenAt? (x :: t) = none := by
  have hd : dateShaped ((x :: t).take 10) = false := by
    simp [dateShaped, dateShape, shaped, hx]
  unfold healthTokenAt?
  rw [hd]
  rfl

theorem firstHealthToken_skip (U v : Text) (hU : ∀ c ∈ U, Regex.isReDigit c = false) :
    firstHealthToken? (U ++ v) = firstHealthToken? v := by
  induction U with
  | nil => rfl
  | cons x U ih =>
    rw [List.cons_append, firstHealthToken?,
      healthTokenAt_not_digit x _ (hU x (List.mem_cons_self _ _))]
    exact ih (fun c hc => hU c (List.mem_cons_of_mem _ hc))

theorem healthTokenAt_close (p r r1 dt tag post : Text)
    (h : healthTokenAt? (p ++ ')' :: r) = some (dt, tag, post)) :
    ∃ post1, healthTokenAt? (p ++ ')' :: r1) = some (dt, tag, post1) := by
  obtain ⟨hd, htag, w, hw, e⟩ := (healthTokenAt_iff _ _ _ _).mp h
  have hno : ')' ∉ dt ++ w ++ '(' :: tag := by
    intro hm
    rcases List.mem_append.mp hm with hm | hm
    · rcases List.mem_append.mp hm with hm | hm
      · rcases dateShaped_mem dt hd _ hm with h1 | h1
        · exact absurd h1 (by decide)
        · exact absurd h1 (by decide)
      · have := List.all_eq_true.mp hw _ hm
        exact absurd this (by decide)
    · rcases htag with rfl | rfl
      · exact absurd hm (by decide)
      · exact absurd hm (by decide)
  have hrest : ∃ q, p ++ [')'] = (dt ++ w ++ '(' :: tag) ++ ')' :: q := by
    rcases List.append_eq_append_iff.mp e with ⟨a, ha, hb⟩ | ⟨c, hc, hb⟩
    · cases a with
      | nil => exact ⟨[], by rw [ha]; simp⟩
      | cons y a =>
        have hy : y = ')' := (List.cons.inj hb).1.symm
        subst hy
        exact absurd (by rw [ha]; simp) hno
    · cases c with
      | nil => exact ⟨[], by rw [hc]; simp⟩
      | cons y c =>
        have hy : y = ')' := (List.cons.inj hb).1.symm
        subst hy
        exact ⟨c ++ [')'], by rw [hc]; simp⟩
  obtain ⟨q, hq⟩ := hrest
  refine ⟨q ++ r1, (healthTokenAt_iff _ _ _ _).mpr ⟨hd, htag, w, hw, ?_⟩⟩
  have : p ++ ')' :: r1 = (p ++ [')']) ++ r1 := by simp
  rw [this, hq]
  simp

theorem firstHealthToken_close (u p r r1 : Text)
    (hbase : firstHealthToken? (p ++ ')' :: r) = firstHealthToken? (p ++ ')' :: r1)) :
    firstHealthToken? (u ++ (p ++ ')' :: r)) = firstHealthToken? (u ++ (p ++ ')' :: r1)) := by
  induction u with
  | nil => exact hbase
  | cons x u ih =>
    have e1 : x :: u ++ (p ++ ')' :: r) = (x :: u ++ p) ++ ')' :: r := by simp
    have e2 : x :: u ++ (p ++ ')' :: r1) = (x :: u ++ p) ++ ')' :: r1 := by simp
    rw [List.cons_append, List.cons_append, firstHealthToken?, firstHealthToken?]
    cases h1 : healthTokenAt? (x :: (u ++ (p ++ ')' :: r))) with
    | some t1 =>
      obtain ⟨dt, tag, post⟩ := t1
      have h1c := h1
      rw [← List.cons_append, e1] at h1c
      obtain ⟨post1, h2⟩ := healthTokenAt_close _ r r1 dt tag post h1c
      rw [← e2, List.cons_append] at h2
      rw [h2]
    | none =>
      cases h2 : healthTokenAt? (x :: (u ++ (p ++ ')' :: r1))) with
      | some t2 =>
        obtain ⟨dt, tag, post⟩ := t2
        have h2c := h2
        rw [← List.cons_append, e2] at h2c
        obtain ⟨post1, h3⟩ := healthTokenAt_close _ r1 r dt tag post h2c
        rw [← e1, List.cons_append, h1] at h3
        cases h3
      | none => exact ih

theorem firstHealthToken_inserted (tag0 ins a b : Text)
    (ht : ∀ c ∈ tag0, Regex.isReDigit c = false) (hi : ∀ c ∈ ins, Regex.isReDigit c = false)
    (h : InsertedAfter (tag0 ++ [')']) ins a b) :
    firstHealthToken? a = firstHealthToken? b := by
  rcases h with rfl | ⟨u, v, rfl, rfl⟩
  · rfl
  · have hb : firstHealthToken? (tag0 ++ ')' :: v) = firstHealthToken? (tag0 ++ ')' :: (ins ++ v)) := by
      have h1 : firstHealthToken? ((tag0 ++ [')']) ++ v) = firstHealthToken? v :=
        firstHealthToken_skip _ _ (by
          intro c hc
          rcases List.mem_append.mp hc with hc | hc
          · exact ht c hc
          · rw [List.mem_singleton.mp hc]; decide)
      have h2 : firstHealthToken? ((tag0 ++ [')'] ++ ins) ++ v) = firstHealthToken? v :=
        firstHealthToken_skip _ _ (by
          intro c hc
          rcases List.mem_append.mp hc with hc | hc
          · rcases List.mem_append.mp hc with hc | hc
            · exact ht c hc
            · rw [List.mem_singleton.mp hc]; decide
          · exact hi c hc)
      have e1 : tag0 ++ ')' :: v = (tag0 ++ [')']) ++ v := by simp
      have e2 : tag0 ++ ')' :: (ins ++ v) = (tag0 ++ [')'] ++ ins) ++ v := by simp
      rw [e1, e2, h1, h2]
    have := firstHealthToken_close u tag0 v (ins ++ v) hb
    have e1 : u ++ (tag0 ++ [')']) ++ v = u ++ (tag0 ++ ')' :: v) := by simp
    have e2 : u ++ (tag0 ++ [')']) ++ ins ++ v = u ++ (tag0 ++ ')' :: (ins ++ v)) := by simp
    rw [e1, e2, this]

theorem stripLeft_append_nonspace (u : Text) (x : Char) (rest : Text)
    (hx : Regex.isReSpace x = false) : stripLeft (u ++ x :: rest) = stripLeft u ++ x :: rest := by
  induction u with
  | nil =>
    unfold stripLeft
    rw [List.nil_append, List.dropWhile_cons_of_neg (by simp [hx])]
    rfl
  | cons y u ih =>
    by_cases hy : Regex.isReSpace y = true
    · unfold stripLeft at ih ⊢
      rw [List.cons_append, List.dropWhile_cons_of_pos hy, List.dropWhile_cons_of_pos hy]
      exact ih
    · unfold stripLeft
      rw [List.cons_append, List.dropWhile_cons_of_neg hy, List.dropWhile_cons_of_neg hy]
      rfl

theorem stripRight_append_nonspace (pre : Text) (x : Char) (v : Text)
    (hx : Regex.isReSpace x = false) :
    stripRight (pre ++ x :: v) = pre ++ x :: stripRight v := by
  induction v using List.reverseRecOn with
  | nil =>
    have : stripRight (pre ++ [x]) = pre ++ [x] :=
      List.rdropWhile_concat_neg _ _ _ (by simp [hx])
    rw [this]
    rfl
  | append_singleton l y ih =>
    have e : pre ++ x :: (l ++ [y]) = (pre ++ x :: l) ++ [y] := by simp
    rw [e]
    by_cases hy : Regex.isReSpace y = true
    · unfold stripRight at ih ⊢
      rw [List.rdropWhile_concat_pos _ _ _ hy, List.rdropWhile_concat_pos _ _ _ hy]
      exact ih
    · unfold stripRight
      rw [List.rdropWhile_concat_neg _ _ _ hy, List.rdropWhile_concat_neg _ _ _ hy]
      simp

theorem insertedAfter_stripLeft (x : Char) (tag ins a b : Text)
    (hx : Regex.isReSpace x = false) (h : InsertedAfter (x :: tag) ins a b) :
    InsertedAfter (x :: tag) ins (stripLeft a) (stripLeft b) := by
  rcases h with rfl | ⟨u, v, rfl, rfl⟩
  · exact Or.inl rfl
  · refine Or.inr ⟨stripLeft u, v, ?_, ?_⟩
    · have e : u ++ x :: tag ++ v = u ++ x :: (tag ++ v) := by simp
      rw [e, stripLeft_append_nonspace u x _ hx]
      simp
    · have e : u ++ x :: tag ++ ins ++ v = u ++ x :: (tag ++ ins ++ v) := by simp
      rw [e, stripLeft_append_nonspace u x _ hx]
      simp

theorem insertedAfter_stripRight (tag0 ins0 a b : Text)
    (h : InsertedAfter (tag0 ++ [')']) (ins0 ++ [')']) a b) :
    InsertedAfter (tag0 ++ [')']) (ins0 ++ [')']) (stripRight a) (stripRight b) := by
  have hx : Regex.isReSpace ')' = false := by decide
  rcases h with rfl | ⟨u, v, rfl, rfl⟩
  · exact Or.inl rfl
  · refine Or.inr ⟨u, stripRight v, ?_, ?_⟩
    · have e : u ++ (tag0 ++ [')']) ++ v = (u ++ tag0) ++ ')' :: v := by simp
      rw [e, stripRight_append_nonspace _ ')' v hx]
      simp
    · have e : u ++ (tag0 ++ [')']) ++ (ins0 ++ [')']) ++ v =
          (u ++ (tag0 ++ [')']) ++ ins0) ++ ')' :: v := by simp
      rw [e, stripRight_append_nonspace _ ')' v hx]
      simp

theorem insertedAfter_trimFields (x : Char) (tag1 ins0 : Text) (hx : Regex.isReSpace x = false)
    (first : Bool) (l1 l2 : List Text)
    (h : List.Forall₂ (InsertedAfter (x :: tag1 ++ [')']) (ins0 ++ [')'])) l1 l2) :
    List.Forall₂ (InsertedAfter (x :: tag1 ++ [')']) (ins0 ++ [')']))
      (trimFields first l1) (trimFields first l2) := by
  induction h generalizing first with
  | nil => cases first <;> exact List.Forall₂.nil
  | @cons a b t1 t2 hab ht ih =>
    have hhead : InsertedAfter (x :: tag1 ++ [')']) (ins0 ++ [')'])
        (if first = true then a else stripLeft a) (if first = true then b else stripLeft b) := by
      cases first
      · exact insertedAfter_stripLeft x (tag1 ++ [')']) _ a b hx hab
      · exact hab
    cases ht with
    | nil =>
      simp only [trimFields]
      exact List.Forall₂.cons hhead List.Forall₂.nil
    | @cons a2 b2 t3 t4 hab2 ht2 =>
      simp only [trimFields]
      exact List.Forall₂.cons
        (insertedAfter_stripRight (x :: tag1) ins0 _ _ hhead)
        (ih false)

theorem insertedAfter_pipeFields (tag ins : Text) (htag : '|' ∉ tag) (hins : '|' ∉ ins)
    (pre post : Text) :
    List.Forall₂ (InsertedAfter tag ins) (pipeFields (pre ++ tag ++ post))
      (pipeFields (pre ++ tag ++ ins ++ post)) := by
  have hrefl : ∀ l : List Text, List.Forall₂ (InsertedAfter tag ins) l l := by
    intro l
    induction l with
    | nil => exact List.Forall₂.nil
    | cons a l ih => exact List.Forall₂.cons (Or.inl rfl) ih
  induction pre with
  | nil =>
    obtain ⟨g, gs, hg⟩ := List.exists_cons_of_ne_nil (pipeFields_ne_nil post)
    have hti : '|' ∉ tag ++ ins := by
      intro h
      rcases List.mem_append.mp h with h | h
      · exact htag h
      · exact hins h
    rw [List.nil_append, pipeFields_append tag post g gs htag hg,
      pipeFields_append (tag ++ ins) post g gs hti hg]
    exact List.Forall₂.cons (Or.inr ⟨[], g, by simp, by simp⟩) (hrefl gs)
  | cons c pre ih =>
    by_cases hc : c = '|'
    · subst hc
      simp only [List.cons_append, pipeFields, if_true]
      exact List.Forall₂.cons (Or.inl rfl) ih
    · obtain ⟨g1, gs1, h1⟩ := List.exists_cons_of_ne_nil (pipeFields_ne_nil (pre ++ tag ++ post))
      obtain ⟨g2, gs2, h2⟩ :=
        List.exists_cons_of_ne_nil (pipeFields_ne_nil (pre ++ tag ++ ins ++ post))
      rw [h1, h2] at ih
      simp only [List.cons_append]
      rw [pipeFields_cons c _ g1 gs1 hc h1, pipeFields_cons c _ g2 gs2 hc h2]
      cases ih with
      | cons hg hgs =>
        refine List.Forall₂.cons ?_ hgs
        rcases hg with rfl | ⟨u, v, rfl, rfl⟩
        · exact Or.inl rfl
        · exact Or.inr ⟨c :: u, v, by simp, by simp⟩

theorem filterMap_healthFormOf (l1 l2 : List Text)
    (h : List.Forall₂ (fun a b => firstHealthToken? a = firstHealthToken? b) l1 l2) :
    l1.filterMap healthFormOf = l2.filterMap healthFormOf := by
  induction h with
  | nil => rfl
  | @cons a b t1 t2 hab _ ih =>
    have : healthFormOf a = healthFormOf b := by
      unfold healthFormOf
      rw [hab]
    rw [List.filterMap_cons, List.filterMap_cons, this, ih]

theorem parseHealthForms_inserted (x : Char) (tag1 ins0 pre post : Text)
    (hx : Regex.isReSpace x = false)
    (htd : ∀ c ∈ x :: tag1, Regex.isReDigit c = false)
    (hid : ∀ c ∈ ins0 ++ [')'], Regex.isReDigit c = false)
    (htp : '|' ∉ x :: tag1 ++ [')']) (hip : '|' ∉ ins0 ++ [')']) :
    parseHealthForms (pre ++ (x :: tag1 ++ [')']) ++ (ins0 ++ [')']) ++ post) =
      parseHealthForms (pre ++ (x :: tag1 ++ [')']) ++ post) := by
  rw [parseHealthForms_ok, parseHealthForms_ok, Split_paddedPieces, Split_paddedPieces]
  have h1 := insertedAfter_pipeFields (x :: tag1 ++ [')']) (ins0 ++ [')']) htp hip pre post
  have h2 := insertedAfter_trimFields x tag1 ins0 hx true _ _ h1
  have h3 : List.Forall₂ (fun a b => firstHealthToken? a = firstHealthToken? b)
      (paddedPieces (pre ++ (x :: tag1 ++ [')']) ++ post))
      (paddedPieces (pre ++ (x :: tag1 ++ [')']) ++ (ins0 ++ [')']) ++ post)) :=
    List.Forall₂.imp
      (fun a b hab => firstHealthToken_inserted (x :: tag1) (ins0 ++ [')']) a b htd hid hab) h2
  rw [filterMap_healthFormOf _ _ h3]

/-! ## Segments without a health-form token -/

theorem space_not_digit (c : Char) (h : Regex.isReSpace c = true) :
    Regex.isReDigit c = false := by
  unfold Regex.isReSpace at h
  simp only [Bool.or_eq_true, decide_eq_true_eq] at h
  rcases h with (((rfl | rfl) | rfl) | rfl) | rfl <;> decide

theorem healthTokenAt_append_space (p w : Text) (hw : w.all Regex.isReSpace = true) :
    (healthTokenAt? (p ++ w)).map (fun t => (t.1, t.2.1)) =
      (healthTokenAt? p).map (fun t => (t.1, t.2.1)) := by
  have hfw : ∀ dt tag post, healthTokenAt? p = some (dt, tag, post) →
      healthTokenAt? (p ++ w) = some (dt, tag, post ++ w) := by
    intro dt tag post h
    obtain ⟨hd, htag, w1, hw1, e⟩ := (healthTokenAt_iff _ _ _ _).mp h
    exact (healthTokenAt_iff _ _ _ _).mpr ⟨hd, htag, w1, hw1, by rw [e]; simp⟩
  have hbw : ∀ dt tag post, healthTokenAt? (p ++ w) = some (dt, tag, post) →
      ∃ post1, healthTokenAt? p = some (dt, tag, post1) := by
    intro dt tag post h
    obtain ⟨hd, htag, w1, hw1, e⟩ := (healthTokenAt_iff _ _ _ _).mp h
    have e2 : p ++ w = (dt ++ w1 ++ '(' :: tag ++ [')']) ++ post := by rw [e]; simp
    rcases List.append_eq_append_iff.mp e2 with ⟨a, ha, hb⟩ | ⟨c, hc, -⟩
    · cases hq : a.getLast? with
      | none =>
        have ha0 : a = [] := List.getLast?_eq_none_iff.mp hq
        subst ha0
        exact ⟨[], (healthTokenAt_iff _ _ _ _).mpr ⟨hd, htag, w1, hw1, by
          rw [List.append_nil] at ha
          rw [← ha]⟩⟩
      | some y =>
        exfalso
        obtain ⟨ys, hys⟩ := List.getLast?_eq_some_iff.mp hq
        rw [hys, ← List.append_assoc] at ha
        have hy : y = ')' := by
          have := List.append_inj_right' ha rfl
          exact (List.cons.inj this).1.symm
        have hyw : y ∈ w := by rw [hb, hys]; simp
        have := List.all_eq_true.mp hw y hyw
        rw [hy] at this
        exact absurd this (by decide)
    · exact ⟨c, (healthTokenAt_iff _ _ _ _).mpr ⟨hd, htag, w1, hw1, by rw [hc]; simp⟩⟩
  cases h1 : healthTokenAt? p with
  | some t =>
    obtain ⟨dt, tag, post⟩ := t
    rw [hfw dt tag post h1]
    rfl
  | none =>
    cases h2 : healthTokenAt? (p ++ w) with
    | none => rfl
    | some t =>
      obtain ⟨dt, tag, post⟩ := t
      obtain ⟨post1, h3⟩ := hbw dt tag post h2
      rw [h1] at h3
      cases h3

theorem firstHealthToken_spaces (w : Text) (hw : w.all Regex.isReSpace = true) :
    firstHealthToken? w = none := by
  have := firstHealthToken_skip w []
    (fun c hc => space_not_digit c (List.all_eq_true.mp hw c hc))
  rw [List.append_nil] at this
  rw [this]
  rfl

theorem firstHealthToken_append_space (p w : Text) (hw : w.all Regex.isReSpace = true) :
    firstHealthToken? (p ++ w) = firstHealthToken? p := by
  induction p with
  | nil =>
    rw [List.nil_append, firstHealthToken_spaces w hw]
    rfl
  | cons x p ih =>
    have h := healthTokenAt_append_space (x :: p) w hw
    rw [List.cons_append, firstHealthToken?, firstHealthToken?]
    rw [List.cons_append] at h
    cases h1 : healthTokenAt? (x :: (p ++ w)) with
    | some t1 =>
      cases h2 : healthTokenAt? (x :: p) with
      | some t2 =>
        rw [h1, h2] at h
        simp only [Option.map_some', Option.some.injEq, Prod.mk.injEq] at h
        obtain ⟨d1, g1, q1⟩ := t1
        obtain ⟨d2, g2, q2⟩ := t2
        simp only [] at h ⊢
        rw [h.1, h.2]
      | none =>
        rw [h1, h2] at h
        cases h
    | none =>
      cases h2 : healthTokenAt? (x :: p) with
      | some t2 =>
        rw [h1, h2] at h
        cases h
      | none => exact ih

theorem firstHealthToken_stripLeft (f : Text) :
    firstHealthToken? (stripLeft f) = firstHealthToken? f := by
  have h := firstHealthToken_skip (f.takeWhile Regex.isReSpace) (f.dropWhile Regex.isReSpace)
    (fun c hc => space_not_digit c (List.all_eq_true.mp (takeWhile_all _ f) c hc))
  rw [List.takeWhile_append_dropWhile] at h
  rw [h]
  rfl

theorem firstHealthToken_stripRight (f : Text) :
    firstHealthToken? (stripRight f) = firstHealthToken? f := by
  obtain ⟨w, e, hw, -⟩ := stripRight_spec f
  have h := firstHealthToken_append_space (stripRight f) w hw
  rw [← e] at h
  exact h.symm

theorem healthFormOf_congr (a b : Text) (h : firstHealthToken? a = firstHealthToken? b) :
    healthFormOf a = healthFormOf b := by
  unfold healthFormOf
  rw [h]

theorem filterMap_trimFields (first : Bool) (fs : List Text) :
    (trimFields first fs).filterMap healthFormOf = fs.filterMap healthFormOf := by
  have hhead : ∀ (b : Bool) (f : Text),
      healthFormOf (if b = true then f else stripLeft f) = healthFormOf f := by
    intro b f
    cases b
    · exact healthFormOf_congr _ _ (firstHealthToken_stripLeft f)
    · rfl
  induction fs generalizing first with
  | nil => cases first <;> rfl
  | cons f fs ih =>
    cases fs with
    | nil =>
      simp only [trimFields, List.filterMap_cons, List.filterMap_nil, hhead]
    | cons g gs =>
      have h1 : healthFormOf (stripRight (if first = true then f else stripLeft f)) =
          healthFormOf f :=
        (healthFormOf_congr _ _ (firstHealthToken_stripRight _)).trans (hhead first f)
      rw [trimFields, List.filterMap_cons, List.filterMap_cons, h1, ih false]

theorem parseHealthForms_fields (cell : Text) :
    parseHealthForms cell = .ok ((pipeFields cell).filterMap healthFormOf) := by
  rw [parseHealthForms_ok, Split_paddedPieces]
  unfold paddedPieces
  rw [filterMap_trimFields]

theorem pipeFields_pipe (pre post : Text) :
    pipeFields (pre ++ '|' :: post) = pipeFields pre ++ pipeFields post := by
  induction pre with
  | nil => simp [pipeFields]
  | cons c pre ih =>
    by_cases hc : c = '|'
    · subst hc
      simp only [List.cons_append, pipeFields, if_true, List.append_eq, ih]
    · obtain ⟨g, gs, hg⟩ := List.exists_cons_of_ne_nil (pipeFields_ne_nil pre)
      rw [List.cons_append, pipeFields_cons c _ (g) (gs ++ pipeFields post) hc (by rw [ih, hg]; rfl),
        pipeFields_cons c pre g gs hc hg]
      rfl

theorem healthFormOf_none (seg : Text) (h : ¬ HasHealthToken seg) : healthFormOf seg = none := by
  unfold healthFormOf
  rw [(firstHealthToken_none seg).mpr h]

/-! ## The name before the first expiration marker -/

theorem Regex.runStar_lazy_blocked {α : Type} (p : Char → Bool)
    (k : Text → Caps → Option α) (u : Text) (x : Char) (v : Text) (c : Caps)
    (hx : p x = false)
    (hk : ∀ u1 u2, u ++ [x] = u1 ++ u2 → u2 ≠ [] → k (u2 ++ v) c = none) :
    Regex.runStar p false k (u ++ x :: v) c = none := by
  induction u with
  | nil =>
    have h0 : k (x :: v) c = none := hk [] [x] rfl (by simp)
    simp [Regex.runStar, h0, hx]
  | cons y u ih =>
    have h0 : k (y :: (u ++ x :: v)) c = none := by
      have := hk [] (y :: u ++ [x]) rfl (by simp)
      simpa using this
    have hrec := ih (fun u1 u2 he hne => hk (y :: u1) u2 (by simp [he]) hne)
    simp only [List.cons_append, Regex.runStar, List.append_eq, h0, hrec]
    simp

theorem lastLine_spec (pre : Text) :
    ∃ a, pre = a ++ lastLine pre ∧ (∀ x ∈ lastLine pre, Regex.isDot x = true) ∧
      (a = [] ∨ ∃ a1, a = a1 ++ ['\n']) := by
  induction pre using List.reverseRecOn with
  | nil => exact ⟨[], rfl, by simp [lastLine], Or.inl rfl⟩
  | append_singleton l x ih =>
    by_cases hx : Regex.isDot x = true
    · obtain ⟨a, e, hdot, ha⟩ := ih
      have e1 : lastLine (l ++ [x]) = lastLine l ++ [x] := List.rtakeWhile_concat_pos _ _ _ hx
      refine ⟨a, ?_, ?_, ha⟩
      · rw [e1, ← List.append_assoc, ← e]
      · intro y hy
        rw [e1] at hy
        rcases List.mem_append.mp hy with hy | hy
        · exact hdot y hy
        · rw [List.mem_singleton.mp hy]
          exact hx
    · have e1 : lastLine (l ++ [x]) = [] := List.rtakeWhile_concat_neg _ _ _ hx
      have hxn : x = '\n' := by
        unfold Regex.isDot at hx
        simpa using hx
      refine ⟨l ++ [x], by rw [e1]; simp, by rw [e1]; simp, Or.inr ⟨l, by rw [hxn]⟩⟩

theorem find_first_marker (a b s dt post : Text) (hb : ∀ x ∈ b, Regex.isDot x = true)
    (ha : a = [] ∨ ∃ a1, a = a1 ++ ['\n'])
    (hs : expirationAt? s = some (dt, post))
    (hfirst : ∀ p1 p2, a ++ b = p1 ++ p2 → p2 ≠ [] → expirationAt? (p2 ++ s) = none) :
    ∃ whole, trainingPattern.FindStringSubmatch (a ++ (b ++ s)) = some [whole, b, dt] := by
  have hm : trainingPattern.matchAt (b ++ s) = some (post, [(2, dt), (1, b)]) := by
    rw [matchAt_trainingPattern, Regex.runStar_lazy_skip _ _ b _ [] hb]
    · apply Regex.runStar_lazy_here
      rw [hs]
      simp
    · intro u1 u2 he hne
      rw [hfirst (a ++ u1) u2 (by rw [he]; simp) hne]
      rfl
  have hfail : ∀ p1 p2, a = p1 ++ p2 → p2 ≠ [] →
      trainingPattern.matchAt (p2 ++ (b ++ s)) = none := by
    intro p1 p2 he hne
    rcases ha with rfl | ⟨a1, rfl⟩
    · exact absurd (List.append_eq_nil.mp he.symm).2 hne
    · obtain ⟨q, hq⟩ : ∃ q, p2 = q ++ ['\n'] := by
        cases hl : p2.getLast? with
        | none => exact absurd (List.getLast?_eq_none_iff.mp hl) hne
        | some y =>
          obtain ⟨ys, hys⟩ := List.getLast?_eq_some_iff.mp hl
          rw [hys, ← List.append_assoc] at he
          have := List.append_inj_right' he rfl
          rw [hys, ← (List.cons.inj this).1]
          exact ⟨ys, rfl⟩
      rw [hq, matchAt_trainingPattern, List.append_assoc]
      apply Regex.runStar_lazy_blocked _ _ q '\n' (b ++ s) [] (by decide)
      intro u1 u2 hu hune
      have := hfirst (p1 ++ u1) (u2 ++ b)
        (by rw [he, hq, hu]; simp) (by simp [hune])
      rw [List.append_assoc] at this
      rw [this]
      rfl
  have hsearch := Regex.search_some trainingPattern a _ _ _ hfail hm
  unfold Regex.FindStringSubmatch
  have h3 : trainingPattern.NumSubexp = 2 := by decide
  rw [hsearch, h3]
  exact ⟨(b ++ s).take ((b ++ s).length - post.length), by simp [List.range_succ, Caps.get]⟩

/-! ## Normalised days -/

theorem daysInMonth_bounds (month : Nat) (year : Int) :
    28 ≤ daysInMonth month year ∧ daysInMonth month year ≤ 31 := by
  unfold daysInMonth
  split_ifs <;> omega

theorem normDay_fixed (f : Nat) (y : Int) (m : Nat) (d : Int) (h1 : 1 ≤ d)
    (h2 : d ≤ daysInMonth m y) : normDay f y m d = ⟨y, m, d.toNat⟩ := by
  cases f with
  | zero => rfl
  | succ f => rw [normDay, if_neg (by omega), if_neg (by omega)]

theorem normDay_valid (f : Nat) (y : Int) (m : Nat) (d : Int) (hm1 : 1 ≤ m) (hm2 : m ≤ 12)
    (hf : d.natAbs < f) :
    1 ≤ (normDay f y m d).month ∧ (normDay f y m d).month ≤ 12 ∧
      1 ≤ (normDay f y m d).day ∧
      (normDay f y m d).day ≤ daysInMonth (normDay f y m d).month (normDay f y m d).year := by
  induction f generalizing y m d with
  | zero => omega
  | succ f ih =>
    have hfix : ∀ (y1 : Int) (m1 : Nat) (d1 : Int), 1 ≤ m1 → m1 ≤ 12 → 1 ≤ d1 →
        d1 ≤ daysInMonth m1 y1 →
        1 ≤ (normDay f y1 m1 d1).month ∧ (normDay f y1 m1 d1).month ≤ 12 ∧
          1 ≤ (normDay f y1 m1 d1).day ∧
          (normDay f y1 m1 d1).day ≤
            daysInMonth (normDay f y1 m1 d1).month (normDay f y1 m1 d1).year := by
      intro y1 m1 d1 ha hb hc hd
      rw [normDay_fixed f y1 m1 d1 hc hd]
      simp only []
      omega
    rw [normDay]
    by_cases hd1 : d < 1
    · rw [if_pos hd1]
      by_cases hm : m = 1
      · rw [if_pos hm]
        by_cases hv : 1 ≤ d + 31
        · exact hfix (y - 1) 12 (d + 31) (by omega) (by omega) hv (by
            have : daysInMonth 12 (y - 1) = 31 := by simp [daysInMonth]
            omega)
        · exact ih (y - 1) 12 (d + 31) (by omega) (by omega) (by omega)
      · rw [if_neg hm]
        have hb := daysInMonth_bounds (m - 1) y
        by_cases hv : 1 ≤ d + daysInMonth (m - 1) y
        · exact hfix y (m - 1) _ (by omega) (by omega) hv (by omega)
        · exact ih y (m - 1) _ (by omega) (by omega) (by omega)
    · rw [if_neg hd1]
      have hb := daysInMonth_bounds m y
      by_cases hd2 : (daysInMonth m y : Int) < d
      · rw [if_pos hd2]
        by_cases hm : m = 12
        · rw [if_pos hm]
          exact ih (y + 1) 1 (d - 31) (by omega) (by omega) (by omega)
        · rw [if_neg hm]
          exact ih y (m + 1) _ (by omega) (by omega) (by omega)
      · rw [if_neg hd2]
        simp only []
        omega

theorem NewDate_valid (year month day : Int) :
    1 ≤ (NewDate year month day).month ∧ (NewDate year month day).month ≤ 12 ∧
      1 ≤ (NewDate year month day).day ∧
      (NewDate year month day).day ≤
        daysInMonth (NewDate year month day).month (NewDate year month day).year := by
  unfold NewDate timeDate
  exact normDay_valid _ _ _ _ (by omega) (by omega) (by omega)

theorem isLeapYear_cast (n : Nat) : isLeapYear (n : Int) = isLeap n := by
  unfold isLeapYear isLeap
  have h4 : ((n : Int) % 4 = 0) = (n % 4 = 0) := propext (by omega)
  have h100 : ((n : Int) % 100 = 0) = (n % 100 = 0) := propext (by omega)
  have h400 : ((n : Int) % 400 = 0) = (n % 400 = 0) := propext (by omega)
  simp only [ne_eq, h4, h100, h400]

theorem daysInMonth_cast (m n : Nat) : daysInMonth m (n : Int) = daysIn m n := by
  unfold daysInMonth daysIn
  rw [isLeapYear_cast]

theorem digitChar_spec (n : Nat) :
    (digitChar n).isDigit = true ∧ digitVal (digitChar n) = n % 10 := by
  unfold digitChar
  have hk : n % 10 < 10 := Nat.mod_lt _ (by decide)
  generalize n % 10 = k at hk
  interval_cases k <;> exact ⟨by decide, by decide⟩

theorem Day_String_parses (n m dd : Nat) (hn : n < 10000) (hm1 : 1 ≤ m) (hm2 : m ≤ 12)
    (hd1 : 1 ≤ dd) (hd2 : dd ≤ daysIn m n) :
    ParseDate (Day.String ⟨(n : Int), m, dd⟩) = some ⟨n, m, dd⟩ := by
  have hd31 : dd ≤ 31 := by
    have := daysInMonth_bounds m (n : Int)
    rw [daysInMonth_cast] at this
    omega
  have e : Day.String ⟨(n : Int), m, dd⟩ =
      [digitChar (m / 10), digitChar m, '/', digitChar (dd / 10), digitChar dd, '/',
        digitChar (n / 1000), digitChar (n / 100), digitChar (n / 10), digitChar n] := by
    unfold Day.String appendSigned
    simp only [Int.toNat_ofNat]
    rw [if_neg (by omega)]
    unfold appendInt
    rw [if_pos ⟨rfl, by omega⟩, if_pos ⟨rfl, by omega⟩, if_neg (by omega), if_pos ⟨rfl, hn⟩]
    rfl
  rw [e, ParseDate_some_iff]
  refine ⟨_, _, _, _, _, _, _, _, rfl, (digitChar_spec _).1, (digitChar_spec _).1,
    (digitChar_spec _).1, (digitChar_spec _).1, (digitChar_spec _).1, (digitChar_spec _).1,
    (digitChar_spec _).1, (digitChar_spec _).1, ?_, ?_⟩
  · rw [(digitChar_spec _).2, (digitChar_spec _).2, (digitChar_spec _).2, (digitChar_spec _).2,
      (digitChar_spec _).2, (digitChar_spec _).2, (digitChar_spec _).2, (digitChar_spec _).2]
    congr 1 <;> omega
  · simp only []
    rw [← daysIn_eq n m hm1 hm2]
    omega

/-! ## The export program: duplicates and order -/

theorem removeDuplicates_loop_snoc (lower : Char → Char) (users : List user) (u : user)
    (seen : List Text) (result : List user) :
    removeDuplicates.loop lower (users ++ [u]) seen result =
      removeDuplicates.loop lower users seen result ++
        (if removeDuplicates.key lower u ∈ seen ∨
            ∃ v ∈ users, removeDuplicates.key lower v = removeDuplicates.key lower u
          then [] else [u]) := by
  induction users generalizing seen result with
  | nil =>
    simp only [List.nil_append, removeDuplicates.loop, List.not_mem_nil, false_and, exists_false,
      or_false]
    split_ifs <;> simp
  | cons x users ih =>
    rw [List.cons_append, removeDuplicates.loop, removeDuplicates.loop]
    by_cases hx : removeDuplicates.key lower x ∈ seen
    · rw [if_pos hx, if_pos hx, ih]
      congr 1
      have : (removeDuplicates.key lower u ∈ seen ∨
          ∃ v ∈ users, removeDuplicates.key lower v = removeDuplicates.key lower u) ↔
          (removeDuplicates.key lower u ∈ seen ∨
          ∃ v ∈ x :: users, removeDuplicates.key lower v = removeDuplicates.key lower u) := by
        constructor
        · rintro (h | ⟨v, hv, e⟩)
          · exact Or.inl h
          · exact Or.inr ⟨v, List.mem_cons_of_mem _ hv, e⟩
        · rintro (h | ⟨v, hv, e⟩)
          · exact Or.inl h
          · rcases List.mem_cons.mp hv with rfl | hv
            · exact Or.inl (e ▸ hx)
            · exact Or.inr ⟨v, hv, e⟩
      simp only [this]
    · rw [if_neg hx, if_neg hx, ih]
      congr 1
      have : (removeDuplicates.key lower u ∈ removeDuplicates.key lower x :: seen ∨
          ∃ v ∈ users, removeDuplicates.key lower v = removeDuplicates.key lower u) ↔
          (removeDuplicates.key lower u ∈ seen ∨
          ∃ v ∈ x :: users, removeDuplicates.key lower v = removeDuplicates.key lower u) := by
        constructor
        · rintro (h | ⟨v, hv, e⟩)
          · rcases List.mem_cons.mp h with h | h
            · exact Or.inr ⟨x, List.mem_cons_self _ _, h.symm⟩
            · exact Or.inl h
          · exact Or.inr ⟨v, List.mem_cons_of_mem _ hv, e⟩
        · rintro (h | ⟨v, hv, e⟩)
          · exact Or.inl (List.mem_cons_of_mem _ h)
          · rcases List.mem_cons.mp hv with rfl | hv
            · exact Or.inl (e ▸ List.mem_cons_self _ _)
            · exact Or.inr ⟨v, hv, e⟩
      simp only [this]

theorem strings.less_asymm (a b : Text) (h : strings.less a b = true) :
    strings.less b a = false := by
  induction a generalizing b with
  | nil =>
    cases b with
    | nil => rfl
    | cons y b => rfl
  | cons x a ih =>
    cases b with
    | nil => simp [strings.less] at h
    | cons y b =>
      simp only [strings.less, Bool.or_eq_true, decide_eq_true_eq, Bool.and_eq_true,
        beq_iff_eq] at h
      simp only [strings.less, Bool.or_eq_false_iff, decide_eq_false_iff_not, not_lt,
        Bool.and_eq_false_imp, beq_iff_eq]
      rcases h with h | ⟨rfl, h⟩
      · exact ⟨le_of_lt h, fun e => absurd h (by rw [e]; exact lt_irrefl _)⟩
      · exact ⟨le_refl _, fun _ => ih b h⟩

theorem strings.less_cotrans (a b c : Text) (h : strings.less c a = true) :
    strings.less c b = true ∨ strings.less b a = true := by
  induction c generalizing a b with
  | nil =>
    cases a with
    | nil => simp [strings.less] at h
    | cons x a =>
      cases b with
      | nil => exact Or.inr rfl
      | cons y b => exact Or.inl rfl
  | cons z c ih =>
    cases a with
    | nil => simp [strings.less] at h
    | cons x a =>
      cases b with
      | nil => exact Or.inr rfl
      | cons y b =>
        simp only [strings.less, Bool.or_eq_true, decide_eq_true_eq, Bool.and_eq_true,
          beq_iff_eq] at h ⊢
        rcases lt_trichotomy z y with hzy | rfl | hyz
        · exact Or.inl (Or.inl hzy)
        · rcases h with h | ⟨rfl, h⟩
          · exact Or.inr (Or.inl h)
          · rcases ih a b h with h1 | h1
            · exact Or.inl (Or.inr ⟨rfl, h1⟩)
            · exact Or.inr (Or.inr ⟨rfl, h1⟩)
        · rcases h with h | ⟨rfl, h⟩
          · exact Or.inr (Or.inl (lt_trans hyz h))
          · exact Or.inr (Or.inl hyz)

/-! ### Go `sort.Slice`: swaps and rearrangements -/

namespace sort

theorem tr_left (i j : Nat) : tr i j i = j := by simp [tr]

theorem tr_right (i j : Nat) : tr i j j = i := by
  by_cases h : j = i
  · simp [tr, h]
  · simp [tr, h]

theorem tr_ne (i j k : Nat) (h1 : k ≠ i) (h2 : k ≠ j) : tr i j k = k := by
  simp [tr, h1, h2]

theorem tr_range (a b i j k : Nat) (hi : a ≤ i ∧ i < b) (hj : a ≤ j ∧ j < b)
    (hk : a ≤ k ∧ k < b) : a ≤ tr i j k ∧ tr i j k < b := by
  unfold tr
  split_ifs <;> omega

theorem length_swapAt {α : Type} (l : List α) (i j : Nat) :
    (swapAt l i j).length = l.length := by
  unfold swapAt
  split <;> simp

theorem getElem?_swapAt {α : Type} (l : List α) (i j k : Nat) (hi : i < l.length)
    (hj : j < l.length) : (swapAt l i j)[k]? = l[tr i j k]? := by
  unfold swapAt tr
  rw [List.getElem?_eq_getElem hi, List.getElem?_eq_getElem hj]
  simp only [List.getElem?_set, List.length_set]
  by_cases h1 : k = j
  · subst h1
    by_cases h2 : k = i
    · subst h2
      simp [hi]
    · simp [h2, hj, hi]
  · by_cases h2 : k = i
    · subst h2
      simp [h1, hi, Ne.symm h1]
    · simp [h1, h2, Ne.symm h1, Ne.symm h2]

theorem set_cons_perm {α : Type} (x y : α) (l : List α) (j : Nat) (h : l[j]? = some y) :
    (y :: l.set j x).Perm (x :: l) := by
  induction l generalizing j with
  | nil => simp at h
  | cons b l ih =>
    cases j with
    | zero =>
      simp only [List.getElem?_cons_zero, Option.some.injEq] at h
      subst h
      simp only [List.set_cons_zero]
      exact List.Perm.swap _ _ _
    | succ j =>
      simp only [List.getElem?_cons_succ] at h
      simp only [List.set_cons_succ]
      exact (List.Perm.swap _ _ _).trans (((ih j h).cons b).trans (List.Perm.swap _ _ _))

theorem set_set_perm {α : Type} (x y : α) (l : List α) (i j : Nat) (hij : i < j)
    (hi : l[i]? = some x) (hj : l[j]? = some y) : ((l.set i y).set j x).Perm l := by
  induction l generalizing i j with
  | nil => simp at hi
  | cons b l ih =>
    cases j with
    | zero => omega
    | succ j =>
      cases i with
      | zero =>
        simp only [List.getElem?_cons_zero, Option.some.injEq] at hi
        subst hi
        simp only [List.getElem?_cons_succ] at hj
        simp only [List.set_cons_zero, List.set_cons_succ]
        exact set_cons_perm _ _ _ _ hj
      | succ i =>
        simp only [List.getElem?_cons_succ] at hi hj
        simp only [List.set_cons_succ]
        exact (ih i j (by omega) hi hj).cons b

theorem swapAt_perm {α : Type} (l : List α) (i j : Nat) : (swapAt l i j).Perm l := by
  unfold swapAt
  cases hi : l[i]? with
  | none => exact List.Perm.refl _
  | some x =>
    cases hj : l[j]? with
    | none => exact List.Perm.refl _
    | some y =>
      simp only
      rcases Nat.lt_trichotomy i j with h | h | h
      · exact set_set_perm x y l i j h hi hj
      · subst h
        rw [hi] at hj
        cases hj
        rw [List.set_set]
        have : l.set i x = l := by
          apply List.ext_getElem?
          intro k
          rw [List.getElem?_set]
          split_ifs with h1 h2
          · subst h1; exact hi.symm
          · subst h1; rw [List.getElem?_eq_none (by omega)]
          · rfl
        rw [this]
      · rw [List.set_comm _ _ _ (by omega)]
        exact set_set_perm y x l j i h hj hi

theorem lessAt_congr {α : Type} (less : α → α → Bool) (l l2 : List α) (i j i2 j2 : Nat)
    (hi : l[i]? = l2[i2]?) (hj : l[j]? = l2[j2]?) :
    lessAt less l i j = lessAt less l2 i2 j2 := by
  unfold lessAt
  rw [hi, hj]

theorem lessAt_swapAt {α : Type} (less : α → α → Bool) (l : List α) (i j p q : Nat)
    (hi : i < l.length) (hj : j < l.length) :
    lessAt less (swapAt l i j) p q = lessAt less l (tr i j p) (tr i j q) :=
  lessAt_congr less _ _ _ _ _ _ (getElem?_swapAt l i j p hi hj) (getElem?_swapAt l i j q hi hj)

theorem lessAt_eq {α : Type} (less : α → α → Bool) (l : List α) (i j : Nat) (x y : α)
    (hi : l[i]? = some x) (hj : l[j]? = some y) : lessAt less l i j = less x y := by
  unfold lessAt
  rw [hi, hj]

theorem lessAt_asymm {α : Type} (less : α → α → Bool) (ho : StrictWeakOrder less) (l : List α) (i j : Nat) (h : lessAt less l i j = true) :
    lessAt less l j i = false := by
  unfold lessAt at h ⊢
  cases hi : l[i]? with
  | none => simp [hi] at h
  | some x =>
    cases hj : l[j]? with
    | none => simp [hi, hj] at h
    | some y =>
      simp only [hi, hj] at h ⊢
      exact ho.1 _ _ h

theorem lessAt_irrefl {α : Type} (less : α → α → Bool) (ho : StrictWeakOrder less)
    (l : List α) (i : Nat) : lessAt less l i i = false := by
  cases h : lessAt less l i i with
  | false => rfl
  | true => rw [lessAt_asymm less ho l i i h] at h; cases h

theorem lessAt_cotrans {α : Type} (less : α → α → Bool) (ho : StrictWeakOrder less)
    (l : List α) (i j k : Nat) (hj : j < l.length)
    (h : lessAt less l k i = true) : lessAt less l k j = true ∨ lessAt less l j i = true := by
  unfold lessAt at h ⊢
  rw [List.getElem?_eq_getElem hj]
  cases hi : l[i]? with
  | none => simp [hi] at h
  | some x =>
    cases hk : l[k]? with
    | none => simp [hk] at h
    | some z =>
      simp only [hi, hk] at h ⊢
      exact ho.2 _ _ _ h

/-- If `l[i] ≤ l[j]` and `l[j] ≤ l[k]` then `l[i] ≤ l[k]`. -/
theorem leAt_trans {α : Type} (less : α → α → Bool) (ho : StrictWeakOrder less)
    (l : List α) (i j k : Nat) (hj : j < l.length)
    (h1 : lessAt less l j i = false) (h2 : lessAt less l k j = false) :
    lessAt less l k i = false := by
  cases h : lessAt less l k i with
  | false => rfl
  | true =>
    rcases lessAt_cotrans less ho l i j k hj h with h3 | h3
    · rw [h2] at h3; cases h3
    · rw [h1] at h3; cases h3

/-! ### Rearrangements of a part -/

theorem Within.refl {α : Type} (a b : Nat) (l : List α) : Within a b l l :=
  ⟨rfl, List.Perm.refl _, fun _ _ => rfl, fun k h1 h2 => ⟨k, h1, h2, rfl⟩⟩

theorem Within.trans {α : Type} {a b : Nat} {l l2 l3 : List α} (h1 : Within a b l l2)
    (h2 : Within a b l2 l3) : Within a b l l3 := by
  obtain ⟨e1, p1, o1, m1⟩ := h1
  obtain ⟨e2, p2, o2, m2⟩ := h2
  refine ⟨e2.trans e1, p2.trans p1, fun k hk => (o2 k hk).trans (o1 k hk), ?_⟩
  intro k hk1 hk2
  obtain ⟨k2, ha, hb, e⟩ := m2 k hk1 hk2
  obtain ⟨k3, ha3, hb3, e3⟩ := m1 k2 ha hb
  exact ⟨k3, ha3, hb3, e.trans e3⟩

theorem Within.mono {α : Type} {a b a2 b2 : Nat} {l l2 : List α} (h : Within a b l l2)
    (ha : a2 ≤ a) (hb : b ≤ b2) : Within a2 b2 l l2 := by
  obtain ⟨e1, p1, o1, m1⟩ := h
  refine ⟨e1, p1, fun k hk => o1 k (by omega), ?_⟩
  intro k hk1 hk2
  by_cases hin : a ≤ k ∧ k < b
  · obtain ⟨k2, h1, h2, e⟩ := m1 k hin.1 hin.2
    exact ⟨k2, by omega, by omega, e⟩
  · exact ⟨k, hk1, hk2, o1 k (by omega)⟩

theorem Within.swap {α : Type} (a b : Nat) (l : List α) (i j : Nat) (hi : a ≤ i ∧ i < b)
    (hj : a ≤ j ∧ j < b) (hb : b ≤ l.length) : Within a b l (swapAt l i j) := by
  refine ⟨length_swapAt l i j, swapAt_perm l i j, ?_, ?_⟩
  · intro k hk
    rw [getElem?_swapAt l i j k (by omega) (by omega), tr_ne i j k (by omega) (by omega)]
  · intro k hk1 hk2
    exact ⟨tr i j k, (tr_range a b i j k hi hj ⟨hk1, hk2⟩).1,
      (tr_range a b i j k hi hj ⟨hk1, hk2⟩).2, getElem?_swapAt l i j k (by omega) (by omega)⟩

/-- A bound of the part by an entry outside it is kept: no entry of the part is greater. -/
theorem Within.upper {α : Type} (less : α → α → Bool) {a b : Nat} {l l2 : List α}
    (h : Within a b l l2) (m : Nat) (hm : m < a ∨ b ≤ m)
    (hall : ∀ k, a ≤ k → k < b → lessAt less l m k = false) :
    ∀ k, a ≤ k → k < b → lessAt less l2 m k = false := by
  intro k hk1 hk2
  obtain ⟨k2, h1, h2, e⟩ := h.2.2.2 k hk1 hk2
  rw [lessAt_congr less l2 l m k m k2 (h.2.2.1 m hm) e]
  exact hall k2 h1 h2

/-- A bound of the part by an entry outside it is kept: no entry of the part is less. -/
theorem Within.lower {α : Type} (less : α → α → Bool) {a b : Nat} {l l2 : List α}
    (h : Within a b l l2) (m : Nat) (hm : m < a ∨ b ≤ m)
    (hall : ∀ k, a ≤ k → k < b → lessAt less l k m = false) :
    ∀ k, a ≤ k → k < b → lessAt less l2 k m = false := by
  intro k hk1 hk2
  obtain ⟨k2, h1, h2, e⟩ := h.2.2.2 k hk1 hk2
  rw [lessAt_congr less l2 l k m k2 m e (h.2.2.1 m hm)]
  exact hall k2 h1 h2

/-- What lies outside the part keeps its order. -/
theorem Within.lessAt_outside {α : Type} (less : α → α → Bool) {a b : Nat} {l l2 : List α}
    (h : Within a b l l2) (i j : Nat) (hi : i < a ∨ b ≤ i) (hj : j < a ∨ b ≤ j) :
    lessAt less l2 i j = lessAt less l i j :=
  lessAt_congr less l2 l i j i j (h.2.2.1 i hi) (h.2.2.1 j hj)

theorem Within.lowerB {α : Type} (less : α → α → Bool) {a b : Nat} {l l2 : List α}
    (h : Within a b l l2) (hl : LowerB less a b l) : LowerB less a b l2 := by
  intro k h0 hk1 hk2
  exact Within.lower less h (a - 1) (by omega) (fun k h1 h2 => hl k h0 h1 h2) k hk1 hk2

theorem LowerB.sub {α : Type} (less : α → α → Bool) {a b b2 : Nat} {l : List α}
    (hl : LowerB less a b l) (hb : b2 ≤ b) : LowerB less a b2 l :=
  fun k h0 h1 h2 => hl k h0 h1 (by omega)

theorem SortedOn.of_outside {α : Type} (less : α → α → Bool) {a b a2 b2 : Nat} {l l2 : List α}
    (h : Within a2 b2 l l2) (hs : SortedOn less a b l) (hd : b ≤ a2 ∨ b2 ≤ a) :
    SortedOn less a b l2 := by
  intro i j hi hij hj
  rw [Within.lessAt_outside less h j i (by omega) (by omega)]
  exact hs i j hi hij hj

/-! ### Insertion sort -/

/-- The inner loop of the insertion sort puts the entry at `j` in its place, when the entries
up to `i` are in order apart from it and it is below the ones after it. -/
theorem insertionSort.inner_spec {α : Type} (less : α → α → Bool)
    (ho : StrictWeakOrder less) (a i : Nat) : ∀ (j : Nat) (l : List α), a ≤ j → j ≤ i →
    i < l.length →
    (∀ p q, a ≤ p → p < q → q ≤ i → p ≠ j → q ≠ j → lessAt less l q p = false) →
    (∀ q, j < q → q ≤ i → lessAt less l q j = false) →
    Within a (i + 1) l (insertionSort.inner less a j l) ∧
      SortedOn less a (i + 1) (insertionSort.inner less a j l) := by
  intro j
  induction j with
  | zero =>
    intro l _ _ _ h1 h2
    refine ⟨Within.refl _ _ _, ?_⟩
    intro p q hp hpq hq
    by_cases hp0 : p = 0
    · subst hp0
      exact h2 q hpq (by omega)
    · exact h1 p q hp hpq (by omega) hp0 (by omega)
  | succ j ih =>
    intro l haj hji hi h1 h2
    unfold insertionSort.inner
    split_ifs with hc
    · obtain ⟨hc1, hc2⟩ := hc
      have hlen := length_swapAt l (j + 1) j
      have hsw : ∀ p q, lessAt less (swapAt l (j + 1) j) p q =
          lessAt less l (tr (j + 1) j p) (tr (j + 1) j q) :=
        fun p q => lessAt_swapAt less l (j + 1) j p q (by omega) (by omega)
      obtain ⟨w, s⟩ := ih (swapAt l (j + 1) j) (by omega) (by omega) (by omega)
        (by
          intro p q hp hpq hq hpj hqj
          rw [hsw]
          by_cases hq1 : q = j + 1
          · subst hq1
            rw [tr_left, tr_ne _ _ p (by omega) (by omega)]
            exact h1 p j hp (by omega) (by omega) (by omega) (by omega)
          · by_cases hp1 : p = j + 1
            · subst hp1
              rw [tr_left, tr_ne _ _ q (by omega) (by omega)]
              exact h1 j q (by omega) (by omega) hq (by omega) (by omega)
            · rw [tr_ne _ _ p hp1 hpj, tr_ne _ _ q hq1 hqj]
              exact h1 p q hp hpq hq hp1 hq1)
        (by
          intro q hjq hq
          rw [hsw, tr_right]
          by_cases hq1 : q = j + 1
          · subst hq1
            rw [tr_left]
            exact lessAt_asymm less ho l _ _ hc2
          · rw [tr_ne _ _ q hq1 (by omega)]
            exact h2 q (by omega) hq)
      exact ⟨(Within.swap a (i + 1) l (j + 1) j (by omega) (by omega) (by omega)).trans w, s⟩
    · refine ⟨Within.refl _ _ _, ?_⟩
      intro p q hp hpq hq
      by_cases hp1 : p = j + 1
      · subst hp1
        exact h2 q hpq (by omega)
      · by_cases hq1 : q = j + 1
        · subst hq1
          have hlt : a < j + 1 := by omega
          have hle : lessAt less l (j + 1) j = false := by
            cases hx : lessAt less l (j + 1) j with
            | false => rfl
            | true => exact absurd ⟨hlt, hx⟩ hc
          by_cases hpj : p = j
          · subst hpj
            exact hle
          · exact leAt_trans less ho l p j (j + 1) (by omega)
              (h1 p j hp (by omega) (by omega) hp1 (by omega)) hle
        · exact h1 p q hp hpq (by omega) hp1 hq1

theorem insertionSort.outer_spec {α : Type} (less : α → α → Bool)
    (ho : StrictWeakOrder less) (a : Nat) : ∀ (n i : Nat) (l : List α), a ≤ i →
    i + n ≤ l.length → SortedOn less a i l →
    Within a (i + n) l (insertionSort.outer less a n i l) ∧
      SortedOn less a (i + n) (insertionSort.outer less a n i l) := by
  intro n
  induction n with
  | zero =>
    intro i l _ _ hs
    exact ⟨Within.refl _ _ _, hs⟩
  | succ n ih =>
    intro i l hai hlen hs
    unfold insertionSort.outer
    obtain ⟨w1, s1⟩ := insertionSort.inner_spec less ho a i i l hai (le_refl _)
      (by omega) (fun p q hp hpq hq _ hqi => hs p q hp hpq (by omega))
      (fun q h1 h2 => by omega)
    obtain ⟨w2, s2⟩ := ih (i + 1) (insertionSort.inner less a i l) (by omega)
      (by rw [w1.1]; omega) s1
    have e : i + 1 + n = i + (n + 1) := by omega
    rw [e] at w2 s2
    exact ⟨(w1.mono (le_refl _) (by omega)).trans w2, s2⟩

/-- The insertion sort rearranges the part `a ≤ i < b` and leaves it in order. -/
theorem insertionSort_spec {α : Type} (less : α → α → Bool) (ho : StrictWeakOrder less)
    (l : List α) (a b : Nat) (hb : b ≤ l.length) :
    Within a b l (insertionSort_func less l a b) ∧
      SortedOn less a b (insertionSort_func less l a b) := by
  unfold insertionSort_func
  by_cases hab : a < b
  · have h := insertionSort.outer_spec less ho a (b - (a + 1)) (a + 1) l (by omega)
      (by omega) (fun i j hi hij hj => by omega)
    have e : a + 1 + (b - (a + 1)) = b := by omega
    rw [e] at h
    exact h
  · have e : b - (a + 1) = 0 := by omega
    rw [e]
    exact ⟨Within.refl _ _ _, fun i j hi hij hj => by omega⟩

/-! ### The two scans and the partitions -/

theorem scanUp_spec (p : Nat → Bool) (j : Nat) : ∀ (f i : Nat), j + 1 - i ≤ f →
    i ≤ scanUp p j f i ∧ (i ≤ j + 1 → scanUp p j f i ≤ j + 1) ∧
    (∀ k, i ≤ k → k < scanUp p j f i → p k = true) ∧
    (scanUp p j f i ≤ j → p (scanUp p j f i) = false) := by
  intro f
  induction f with
  | zero =>
    intro i hf
    unfold scanUp
    exact ⟨le_refl _, fun h => h, fun k h1 h2 => by omega, fun h => by omega⟩
  | succ f ih =>
    intro i hf
    unfold scanUp
    split_ifs with hc
    · obtain ⟨h1, h2, h3, h4⟩ := ih (i + 1) (by omega)
      refine ⟨by omega, fun _ => h2 (by omega), ?_, h4⟩
      intro k hk1 hk2
      by_cases hk : k = i
      · subst hk; exact hc.2
      · exact h3 k (by omega) hk2
    · refine ⟨le_refl _, fun h => h, fun k h1 h2 => by omega, ?_⟩
      intro h
      cases hp : p i with
      | false => rfl
      | true => exact absurd ⟨h, hp⟩ hc

theorem scanDown_spec (p : Nat → Bool) (i : Nat) (hi : 1 ≤ i) : ∀ (f j : Nat), j + 1 - i ≤ f →
    scanDown p i f j ≤ j ∧ (i ≤ j + 1 → i ≤ scanDown p i f j + 1) ∧
    (∀ k, scanDown p i f j < k → k ≤ j → p k = true) ∧
    (i ≤ scanDown p i f j → p (scanDown p i f j) = false) := by
  intro f
  induction f with
  | zero =>
    intro j hf
    unfold scanDown
    exact ⟨le_refl _, fun h => h, fun k h1 h2 => by omega, fun h => by omega⟩
  | succ f ih =>
    intro j hf
    unfold scanDown
    split_ifs with hc
    · obtain ⟨h1, h2, h3, h4⟩ := ih (j - 1) (by omega)
      refine ⟨by omega, fun _ => h2 (by omega), ?_, h4⟩
      intro k hk1 hk2
      by_cases hk : k = j
      · subst hk; exact hc.2
      · exact h3 k hk1 (by omega)
    · refine ⟨le_refl _, fun h => h, fun k h1 h2 => by omega, ?_⟩
      intro h
      cases hp : p j with
      | false => rfl
      | true => exact absurd ⟨h, hp⟩ hc

/-- The loop of `partition_func` leaves the entries less than the pivot, which is at `a`, up
to the index it returns, and the others after it. -/
theorem partition_loop_spec {α : Type} (less : α → α → Bool) (a b : Nat) :
    ∀ (f i j : Nat) (l : List α), b ≤ l.length → a < i → i ≤ j + 1 → j < b → j + 1 - i ≤ f →
    (∀ k, a < k → k < i → lessAt less l k a = true) →
    (∀ k, j < k → k < b → lessAt less l k a = false) →
    Within (a + 1) b l (partition.loop less a f i j l).1 ∧
    a ≤ (partition.loop less a f i j l).2 ∧ (partition.loop less a f i j l).2 < b ∧
    (∀ k, a < k → k ≤ (partition.loop less a f i j l).2 →
      lessAt less (partition.loop less a f i j l).1 k a = true) ∧
    (∀ k, (partition.loop less a f i j l).2 < k → k < b →
      lessAt less (partition.loop less a f i j l).1 k a = false) := by
  intro f
  induction f with
  | zero =>
    intro i j l _ hai hij hjb hf hL hR
    unfold partition.loop
    exact ⟨Within.refl _ _ _, by omega, hjb, fun k h1 h2 => hL k h1 (by omega), hR⟩
  | succ f ih =>
    intro i j l hb hai hij hjb hf hL hR
    unfold partition.loop
    simp only
    obtain ⟨u1, u2, u3, u4⟩ := scanUp_spec (fun k => lessAt less l k a) j (j + 1 - i) i
      (le_refl _)
    generalize scanUp (fun k => lessAt less l k a) j (j + 1 - i) i = i1 at u1 u2 u3 u4 ⊢
    have u2 := u2 hij
    obtain ⟨d1, d2, d3, d4⟩ := scanDown_spec (fun k => !lessAt less l k a) i1 (by omega)
      (j + 1 - i1) j (le_refl _)
    generalize scanDown (fun k => !lessAt less l k a) i1 (j + 1 - i1) j = j1 at d1 d2 d3 d4 ⊢
    have d2 := d2 u2
    simp only [Bool.not_eq_true', Bool.not_eq_false'] at d3 d4
    have hL1 : ∀ k, a < k → k < i1 → lessAt less l k a = true := by
      intro k h1 h2
      by_cases hk : k < i
      · exact hL k h1 hk
      · exact u3 k (by omega) h2
    have hR1 : ∀ k, j1 < k → k < b → lessAt less l k a = false := by
      intro k h1 h2
      by_cases hk : j < k
      · exact hR k hk h2
      · exact d3 k h1 (by omega)
    split_ifs with hc
    · exact ⟨Within.refl _ _ _, by omega, by omega, fun k h1 h2 => hL1 k h1 (by omega), hR1⟩
    · have hi1 : lessAt less l i1 a = false := u4 (by omega)
      have hj1 : lessAt less l j1 a = true := d4 (by omega)
      have hne : i1 ≠ j1 := by
        intro e
        rw [e, hj1] at hi1
        cases hi1
      have hsw : ∀ p q, lessAt less (swapAt l i1 j1) p q =
          lessAt less l (tr i1 j1 p) (tr i1 j1 q) :=
        fun p q => lessAt_swapAt less l i1 j1 p q (by omega) (by omega)
      have hta : tr i1 j1 a = a := tr_ne _ _ _ (by omega) (by omega)
      obtain ⟨w, r1, r2, r3, r4⟩ := ih (i1 + 1) (j1 - 1) (swapAt l i1 j1)
        (by rw [length_swapAt]; exact hb) (by omega) (by omega) (by omega) (by omega)
        (by
          intro k h1 h2
          rw [hsw, hta]
          by_cases hk : k = i1
          · subst hk
            rw [tr_left]
            exact hj1
          · rw [tr_ne _ _ k hk (by omega)]
            exact hL1 k h1 (by omega))
        (by
          intro k h1 h2
          rw [hsw, hta]
          by_cases hk : k = j1
          · subst hk
            rw [tr_right]
            exact hi1
          · rw [tr_ne _ _ k (by omega) hk]
            exact hR1 k (by omega) h2)
      exact ⟨(Within.swap (a + 1) b l i1 j1 (by omega) (by omega) hb).trans w, r1, r2, r3, r4⟩

theorem partition_func_eq {α : Type} (less : α → α → Bool) (l : List α) (a b pivot : Nat) :
    (partition_func less l a b pivot).1 =
      swapAt (partition.loop less a (b - a + 1) (a + 1) (b - 1) (swapAt l a pivot)).1
        (partition.loop less a (b - a + 1) (a + 1) (b - 1) (swapAt l a pivot)).2 a ∧
    (partition_func less l a b pivot).2.1 =
      (partition.loop less a (b - a + 1) (a + 1) (b - 1) (swapAt l a pivot)).2 := by
  unfold partition_func
  rw [partition.loop]
  simp only
  split_ifs <;> exact ⟨rfl, rfl⟩

/-- The partition rearranges the part, returns an index of it, and leaves no entry before
that index greater, and no entry after it less, than the entry at it. -/
theorem partition_spec {α : Type} (less : α → α → Bool) (ho : StrictWeakOrder less)
    (l : List α) (a b pivot : Nat) (hb : b ≤ l.length) (hp1 : a ≤ pivot) (hp2 : pivot < b) :
    Within a b l (partition_func less l a b pivot).1 ∧
    a ≤ (partition_func less l a b pivot).2.1 ∧ (partition_func less l a b pivot).2.1 < b ∧
    (∀ k, a ≤ k → k < (partition_func less l a b pivot).2.1 →
      lessAt less (partition_func less l a b pivot).1
        (partition_func less l a b pivot).2.1 k = false) ∧
    (∀ k, (partition_func less l a b pivot).2.1 < k → k < b →
      lessAt less (partition_func less l a b pivot).1 k
        (partition_func less l a b pivot).2.1 = false) := by
  obtain ⟨e1, e2⟩ := partition_func_eq less l a b pivot
  rw [e1, e2]
  have hb0 : b ≤ (swapAt l a pivot).length := by rw [length_swapAt]; exact hb
  obtain ⟨w, r1, r2, r3, r4⟩ := partition_loop_spec less a b (b - a + 1) (a + 1) (b - 1)
    (swapAt l a pivot) hb0 (by omega) (by omega) (by omega) (by omega)
    (fun k h1 h2 => by omega) (fun k h1 h2 => by omega)
  generalize partition.loop less a (b - a + 1) (a + 1) (b - 1) (swapAt l a pivot) = r
    at w r1 r2 r3 r4
  have hbr : b ≤ r.1.length := by rw [w.1]; exact hb0
  have hsw : ∀ p q, lessAt less (swapAt r.1 r.2 a) p q =
      lessAt less r.1 (tr r.2 a p) (tr r.2 a q) :=
    fun p q => lessAt_swapAt less r.1 r.2 a p q (by omega) (by omega)
  refine ⟨((Within.swap a b l a pivot (by omega) (by omega) hb).trans
    (w.mono (by omega) (le_refl _))).trans
    (Within.swap a b r.1 r.2 a (by omega) (by omega) hbr), r1, r2, ?_, ?_⟩
  · intro k h1 h2
    rw [hsw, tr_left]
    by_cases hk : k = a
    · subst hk
      rw [tr_right]
      exact lessAt_asymm less ho _ _ _ (r3 r.2 (by omega) (le_refl _))
    · rw [tr_ne _ _ k (by omega) hk]
      exact lessAt_asymm less ho _ _ _ (r3 k (by omega) (by omega))
  · intro k h1 h2
    rw [hsw, tr_left, tr_ne _ _ k (by omega) (by omega)]
    exact r4 k h1 h2

/-- The loop of `partitionEqual_func` leaves the entries that the pivot, which is at `a`, is
not less than before the index it returns, and the others from it on. -/
theorem partitionEqual_loop_spec {α : Type} (less : α → α → Bool) (a b : Nat) :
    ∀ (f i j : Nat) (l : List α), b ≤ l.length → a < i → i ≤ j + 1 → j < b → j + 1 - i ≤ f →
    (∀ k, a < k → k < i → lessAt less l a k = false) →
    (∀ k, j < k → k < b → lessAt less l a k = true) →
    Within (a + 1) b l (partitionEqual.loop less a f i j l).1 ∧
    a < (partitionEqual.loop less a f i j l).2 ∧ (partitionEqual.loop less a f i j l).2 ≤ b ∧
    (∀ k, a < k → k < (partitionEqual.loop less a f i j l).2 →
      lessAt less (partitionEqual.loop less a f i j l).1 a k = false) ∧
    (∀ k, (partitionEqual.loop less a f i j l).2 ≤ k → k < b →
      lessAt less (partitionEqual.loop less a f i j l).1 a k = true) := by
  intro f
  induction f with
  | zero =>
    intro i j l _ hai hij hjb hf hL hR
    unfold partitionEqual.loop
    exact ⟨Within.refl _ _ _, hai, by omega, hL, fun k h1 h2 => hR k (by omega) h2⟩
  | succ f ih =>
    intro i j l hb hai hij hjb hf hL hR
    unfold partitionEqual.loop
    simp only
    obtain ⟨u1, u2, u3, u4⟩ := scanUp_spec (fun k => !lessAt less l a k) j (j + 1 - i) i
      (le_refl _)
    generalize scanUp (fun k => !lessAt less l a k) j (j + 1 - i) i = i1 at u1 u2 u3 u4 ⊢
    have u2 := u2 hij
    obtain ⟨d1, d2, d3, d4⟩ := scanDown_spec (fun k => lessAt less l a k) i1 (by omega)
      (j + 1 - i1) j (le_refl _)
    generalize scanDown (fun k => lessAt less l a k) i1 (j + 1 - i1) j = j1 at d1 d2 d3 d4 ⊢
    have d2 := d2 u2
    simp only [Bool.not_eq_true', Bool.not_eq_false'] at u3 u4
    have hL1 : ∀ k, a < k → k < i1 → lessAt less l a k = false := by
      intro k h1 h2
      by_cases hk : k < i
      · exact hL k h1 hk
      · exact u3 k (by omega) h2
    have hR1 : ∀ k, j1 < k → k < b → lessAt less l a k = true := by
      intro k h1 h2
      by_cases hk : j < k
      · exact hR k hk h2
      · exact d3 k h1 (by omega)
    split_ifs with hc
    · exact ⟨Within.refl _ _ _, by omega, by omega, hL1, fun k h1 h2 => hR1 k (by omega) h2⟩
    · have hi1 : lessAt less l a i1 = true := u4 (by omega)
      have hj1 : lessAt less l a j1 = false := d4 (by omega)
      have hne : i1 ≠ j1 := by
        intro e
        rw [e, hj1] at hi1
        cases hi1
      have hsw : ∀ p q, lessAt less (swapAt l i1 j1) p q =
          lessAt less l (tr i1 j1 p) (tr i1 j1 q) :=
        fun p q => lessAt_swapAt less l i1 j1 p q (by omega) (by omega)
      have hta : tr i1 j1 a = a := tr_ne _ _ _ (by omega) (by omega)
      obtain ⟨w, r1, r2, r3, r4⟩ := ih (i1 + 1) (j1 - 1) (swapAt l i1 j1)
        (by rw [length_swapAt]; exact hb) (by omega) (by omega) (by omega) (by omega)
        (by
          intro k h1 h2
          rw [hsw, hta]
          by_cases hk : k = i1
          · subst hk
            rw [tr_left]
            exact hj1
          · rw [tr_ne _ _ k hk (by omega)]
            exact hL1 k h1 (by omega))
        (by
          intro k h1 h2
          rw [hsw, hta]
          by_cases hk : k = j1
          · subst hk
            rw [tr_right]
            exact hi1
          · rw [tr_ne _ _ k (by omega) hk]
            exact hR1 k (by omega) h2)
      exact ⟨(Within.swap (a + 1) b l i1 j1 (by omega) (by omega) hb).trans w, r1, r2, r3, r4⟩

/-- The second partition, on a part with no entry less than the pivot: it rearranges the
part, the entries before the index it returns are in order and not greater than the entries
from it on, and the entry before that index is less than none of these. -/
theorem partitionEqual_spec {α : Type} (less : α → α → Bool) (ho : StrictWeakOrder less)
    (l : List α) (a b pivot : Nat) (hb : b ≤ l.length) (hp1 : a ≤ pivot) (hp2 : pivot < b)
    (hmin : ∀ k, a ≤ k → k < b → lessAt less l k pivot = false) :
    Within a b l (partitionEqual_func less l a b pivot).1 ∧
    a < (partitionEqual_func less l a b pivot).2 ∧ (partitionEqual_func less l a b pivot).2 ≤ b ∧
    SortedOn less a (partitionEqual_func less l a b pivot).2
      (partitionEqual_func less l a b pivot).1 ∧
    (∀ i j, a ≤ i → i < (partitionEqual_func less l a b pivot).2 →
      (partitionEqual_func less l a b pivot).2 ≤ j → j < b →
      lessAt less (partitionEqual_func less l a b pivot).1 j i = false) := by
  unfold partitionEqual_func
  have hb0 : b ≤ (swapAt l a pivot).length := by rw [length_swapAt]; exact hb
  have hmin0 : ∀ k, a ≤ k → k < b → lessAt less (swapAt l a pivot) k a = false := by
    intro k h1 h2
    rw [lessAt_swapAt less l a pivot k a (by omega) (by omega), tr_left]
    exact hmin _ (tr_range a b a pivot k (by omega) (by omega) ⟨h1, h2⟩).1
      (tr_range a b a pivot k (by omega) (by omega) ⟨h1, h2⟩).2
  obtain ⟨w, r1, r2, r3, r4⟩ := partitionEqual_loop_spec less a b (b - a + 1) (a + 1) (b - 1)
    (swapAt l a pivot) hb0 (by omega) (by omega) (by omega) (by omega)
    (fun k h1 h2 => by omega) (fun k h1 h2 => by omega)
  have hmin1 := Within.lower less w a (by omega) (fun k h1 h2 => hmin0 k (by omega) h2)
  generalize partitionEqual.loop less a (b - a + 1) (a + 1) (b - 1) (swapAt l a pivot) = r
    at w r1 r2 r3 r4 hmin1
  have hbr : b ≤ r.1.length := by rw [w.1]; exact hb0
  have hle : ∀ k, a ≤ k → k < r.2 → lessAt less r.1 a k = false := by
    intro k h1 h2
    by_cases hk : k = a
    · subst hk
      exact lessAt_irrefl less ho _ _
    · exact r3 k (by omega) h2
  have hge : ∀ k, a ≤ k → k < b → lessAt less r.1 k a = false := by
    intro k h1 h2
    by_cases hk : k = a
    · subst hk
      exact lessAt_irrefl less ho _ _
    · exact hmin1 k (by omega) h2
  refine ⟨(Within.swap a b l a pivot (by omega) (by omega) hb).trans
    (w.mono (by omega) (le_refl _)), r1, r2, ?_, ?_⟩
  · intro i j hi hij hj
    exact leAt_trans less ho r.1 i a j (by omega) (hle i hi (by omega)) (hge j (by omega) (by omega))
  · intro i j hi1 hi2 hj1 hj2
    exact leAt_trans less ho r.1 i a j (by omega) (hle i hi1 hi2) (hge j (by omega) hj2)

/-! ### Reversal, pattern breaking and the choice of the pivot -/

theorem reverseRange_loop_spec {α : Type} (a b : Nat) : ∀ (f i j : Nat) (l : List α),
    a ≤ i → j < b → b ≤ l.length → Within a b l (reverseRange.loop f i j l) := by
  intro f
  induction f with
  | zero => intro i j l _ _ _; exact Within.refl _ _ _
  | succ f ih =>
    intro i j l hi hj hb
    unfold reverseRange.loop
    split_ifs with hc
    · exact (Within.swap a b l i j (by omega) (by omega) hb).trans
        (ih (i + 1) (j - 1) _ (by omega) (by omega) (by rw [length_swapAt]; exact hb))
    · exact Within.refl _ _ _

theorem reverseRange_spec {α : Type} (l : List α) (a b : Nat) (hab : a < b)
    (hb : b ≤ l.length) : Within a b l (reverseRange_func l a b) :=
  reverseRange_loop_spec a b (b - a) a (b - 1) l (le_refl _) (by omega) hb

theorem bitsLen_zero (f : Nat) : bitsLen f 0 = 0 := by
  cases f <;> simp [bitsLen]

theorem bitsLen_pow (f : Nat) : ∀ n, n ≤ f → 1 ≤ n → 2 ^ bitsLen f n ≤ 2 * n := by
  induction f with
  | zero => intro n h1 h2; omega
  | succ f ih =>
    intro n h1 h2
    unfold bitsLen
    rw [if_neg (by omega), pow_succ]
    by_cases hn : n / 2 = 0
    · rw [hn, bitsLen_zero]
      omega
    · have := ih (n / 2) (by omega) (by omega)
      omega

theorem breakPatterns_loop_spec {α : Type} (next : Nat → Nat) (a b : Nat) (h8 : 8 ≤ b - a) :
    ∀ (n i random : Nat) (l : List α), i + n ≤ 3 → b ≤ l.length →
    Within a b l (breakPatterns.loop next a (b - a) (nextPowerOfTwo (b - a))
      (a + (b - a) / 4 * 2 - 1) n i random l) := by
  intro n
  induction n with
  | zero => intro i random l _ _; exact Within.refl _ _ _
  | succ n ih =>
    intro i random l hi hb
    unfold breakPatterns.loop
    simp only
    have hm : next random &&& (nextPowerOfTwo (b - a) - 1) ≤ nextPowerOfTwo (b - a) - 1 :=
      Nat.and_le_right
    have hp : nextPowerOfTwo (b - a) ≤ 2 * (b - a) := bitsLen_pow _ _ (le_refl _) (by omega)
    have hp1 : 1 ≤ nextPowerOfTwo (b - a) := Nat.one_le_two_pow
    generalize next random &&& (nextPowerOfTwo (b - a) - 1) = other at hm
    refine (Within.swap a b l _ _ ?_ ?_ hb).trans (ih (i + 1) _ _ (by omega)
      (by rw [length_swapAt]; exact hb))
    · omega
    · split_ifs <;> omega

theorem breakPatterns_spec {α : Type} (next : Nat → Nat) (l : List α) (a b : Nat)
    (hb : b ≤ l.length) : Within a b l (breakPatterns_func next l a b) := by
  unfold breakPatterns_func
  split_ifs with h8
  · exact breakPatterns_loop_spec next a b h8 3 0 (b - a) l (by omega) hb
  · exact Within.refl _ _ _

theorem order2_func_mem {α : Type} (less : α → α → Bool) (l : List α) (a b s : Nat) :
    ((order2_func less l a b s).1 = a ∧ (order2_func less l a b s).2.1 = b) ∨
      ((order2_func less l a b s).1 = b ∧ (order2_func less l a b s).2.1 = a) := by
  unfold order2_func
  split_ifs
  · exact Or.inr ⟨rfl, rfl⟩
  · exact Or.inl ⟨rfl, rfl⟩

theorem median_func_mem {α : Type} (less : α → α → Bool) (l : List α) (a b c s : Nat) :
    (median_func less l a b c s).1 = a ∨ (median_func less l a b c s).1 = b ∨
      (median_func less l a b c s).1 = c := by
  unfold median_func
  simp only
  have h1 := order2_func_mem less l a b s
  generalize order2_func less l a b s = r1 at h1 ⊢
  have h2 := order2_func_mem less l r1.2.1 c r1.2.2
  generalize order2_func less l r1.2.1 c r1.2.2 = r2 at h2 ⊢
  have h3 := order2_func_mem less l r1.1 r2.1 r2.2.2
  generalize order2_func less l r1.1 r2.1 r2.2.2 = r3 at h3 ⊢
  omega

theorem choosePivot_range {α : Type} (less : α → α → Bool) (l : List α) (a b : Nat)
    (hab : a < b) :
    a ≤ (choosePivot_func less l a b).1 ∧ (choosePivot_func less l a b).1 < b := by
  have key : ∀ r : Nat × Nat, (a ≤ r.1 ∧ r.1 < b) →
      a ≤ (if r.2 = 0 then (r.1, sortedHint.increasingHint)
        else if r.2 = 12 then (r.1, sortedHint.decreasingHint)
        else (r.1, sortedHint.unknownHint)).1 ∧
      (if r.2 = 0 then (r.1, sortedHint.increasingHint)
        else if r.2 = 12 then (r.1, sortedHint.decreasingHint)
        else (r.1, sortedHint.unknownHint)).1 < b := by
    intro r hr
    split_ifs <;> exact hr
  unfold choosePivot_func
  simp only
  apply key
  split_ifs with h8 h50
  · unfold medianAdjacent_func
    have h1 := median_func_mem less l (a + (b - a) / 4 * 1 - 1) (a + (b - a) / 4 * 1)
      (a + (b - a) / 4 * 1 + 1) 0
    generalize median_func less l (a + (b - a) / 4 * 1 - 1) (a + (b - a) / 4 * 1)
      (a + (b - a) / 4 * 1 + 1) 0 = ri at h1 ⊢
    have h2 := median_func_mem less l (a + (b - a) / 4 * 2 - 1) (a + (b - a) / 4 * 2)
      (a + (b - a) / 4 * 2 + 1) ri.2
    generalize median_func less l (a + (b - a) / 4 * 2 - 1) (a + (b - a) / 4 * 2)
      (a + (b - a) / 4 * 2 + 1) ri.2 = rj at h2 ⊢
    have h3 := median_func_mem less l (a + (b - a) / 4 * 3 - 1) (a + (b - a) / 4 * 3)
      (a + (b - a) / 4 * 3 + 1) rj.2
    generalize median_func less l (a + (b - a) / 4 * 3 - 1) (a + (b - a) / 4 * 3)
      (a + (b - a) / 4 * 3 + 1) rj.2 = rk at h3 ⊢
    have h4 := median_func_mem less l ri.1 rj.1 rk.1 rk.2
    generalize median_func less l ri.1 rj.1 rk.1 rk.2 = r at h4 ⊢
    omega
  · have h4 := median_func_mem less l (a + (b - a) / 4 * 1) (a + (b - a) / 4 * 2)
      (a + (b - a) / 4 * 3) 0
    generalize median_func less l (a + (b - a) / 4 * 1) (a + (b - a) / 4 * 2)
      (a + (b - a) / 4 * 3) 0 = r at h4 ⊢
    omega
  · simp only
    omega

/-! ### The partial insertion sort -/

/-- Entries of which each is not less than the one before it are in order. -/
theorem SortedOn.of_adjacent {α : Type} (less : α → α → Bool) (ho : StrictWeakOrder less)
    (l : List α) (a b : Nat) (hb : b ≤ l.length)
    (h : ∀ k, a < k → k < b → lessAt less l k (k - 1) = false) : SortedOn less a b l := by
  intro i j hi hij hj
  induction j with
  | zero => omega
  | succ j ih =>
    by_cases he : i = j
    · subst he
      exact h (i + 1) (by omega) hj
    · exact leAt_trans less ho l i j (j + 1) (by omega) (ih (by omega) (by omega))
        (h (j + 1) (by omega) hj)

theorem partialInsertionSort.scan_spec {α : Type} (less : α → α → Bool) (l : List α)
    (b : Nat) : ∀ (f i : Nat), b - i ≤ f →
    i ≤ partialInsertionSort.scan less l b f i ∧
    (i ≤ b → partialInsertionSort.scan less l b f i ≤ b) ∧
    (∀ k, i ≤ k → k < partialInsertionSort.scan less l b f i →
      lessAt less l k (k - 1) = false) ∧
    (partialInsertionSort.scan less l b f i < b →
      lessAt less l (partialInsertionSort.scan less l b f i)
        (partialInsertionSort.scan less l b f i - 1) = true) := by
  intro f
  induction f with
  | zero =>
    intro i hf
    unfold partialInsertionSort.scan
    exact ⟨le_refl _, fun h => h, fun k h1 h2 => by omega, fun h => by omega⟩
  | succ f ih =>
    intro i hf
    unfold partialInsertionSort.scan
    split_ifs with hc
    · obtain ⟨h1, h2, h3, h4⟩ := ih (i + 1) (by omega)
      refine ⟨by omega, fun _ => h2 (by omega), ?_, h4⟩
      intro k hk1 hk2
      by_cases hk : k = i
      · subst hk; exact hc.2
      · exact h3 k (by omega) hk2
    · refine ⟨le_refl _, fun h => h, fun k h1 h2 => by omega, ?_⟩
      intro h
      cases hp : lessAt less l i (i - 1) with
      | true => rfl
      | false => exact absurd ⟨h, hp⟩ hc

/-- The loop that shifts to the left does what the inner loop of the insertion sort does,
when the entry before the part is less than none of the part. -/
theorem partialInsertionSort.shiftLeft_eq {α : Type} (less : α → α → Bool) (a : Nat) :
    ∀ (j : Nat) (l : List α), a ≤ j → j < l.length →
    (∀ k, 0 < a → a ≤ k → k ≤ j → lessAt less l k (a - 1) = false) →
    partialInsertionSort.shiftLeft less j l = insertionSort.inner less a j l := by
  intro j
  induction j with
  | zero =>
    intro l _ _ _
    unfold partialInsertionSort.shiftLeft insertionSort.inner
    rfl
  | succ j ih =>
    intro l haj hj hlow
    unfold partialInsertionSort.shiftLeft insertionSort.inner
    by_cases hc : lessAt less l (j + 1) j = true
    · have haj1 : a < j + 1 := by
        by_contra hn
        have e : a = j + 1 := by omega
        have := hlow (j + 1) (by omega) (by omega) (le_refl _)
        rw [e, Nat.add_sub_cancel, hc] at this
        cases this
      rw [if_neg (by rw [hc]; simp), if_pos ⟨haj1, hc⟩]
      apply ih _ (by omega) (by rw [length_swapAt]; omega)
      intro k h0 hk1 hk2
      rw [lessAt_swapAt less l (j + 1) j k (a - 1) (by omega) (by omega),
        tr_ne _ _ (a - 1) (by omega) (by omega)]
      have := tr_range a (j + 2) (j + 1) j k (by omega) (by omega) (by omega)
      exact hlow _ h0 this.1 (by omega)
    · have hc0 : lessAt less l (j + 1) j = false := by simpa using hc
      rw [if_pos hc0, if_neg (fun h => hc h.2)]

theorem partialInsertionSort.shiftRight_spec {α : Type} (less : α → α → Bool) (i b : Nat) :
    ∀ (f j : Nat) (l : List α), i < j → b ≤ l.length →
    Within i b l (partialInsertionSort.shiftRight less b f j l) := by
  intro f
  induction f with
  | zero => intro j l _ _; exact Within.refl _ _ _
  | succ f ih =>
    intro j l hj hb
    unfold partialInsertionSort.shiftRight
    split_ifs with h1 h2
    · exact Within.refl _ _ _
    · exact (Within.swap i b l j (j - 1) (by omega) (by omega) hb).trans
        (ih (j + 1) _ (by omega) (by rw [length_swapAt]; exact hb))
    · exact Within.refl _ _ _

theorem partialInsertionSort.steps_spec {α : Type} (less : α → α → Bool)
    (ho : StrictWeakOrder less) (a b : Nat) : ∀ (n i : Nat) (l : List α), a < i → i ≤ b →
    b ≤ l.length → LowerB less a b l → SortedOn less a i l →
    Within a b l (partialInsertionSort.steps less a b n i l).1 ∧
    ((partialInsertionSort.steps less a b n i l).2 = true →
      SortedOn less a b (partialInsertionSort.steps less a b n i l).1) := by
  intro n
  induction n with
  | zero =>
    intro i l _ _ _ _ _
    unfold partialInsertionSort.steps
    exact ⟨Within.refl _ _ _, fun h => by cases h⟩
  | succ n ih =>
    intro i l hai hib hb hlow hs
    unfold partialInsertionSort.steps
    simp only
    obtain ⟨c1, c2, c3, c4⟩ := partialInsertionSort.scan_spec less l b (b - i) i (le_refl _)
    generalize partialInsertionSort.scan less l b (b - i) i = i1 at c1 c2 c3 c4 ⊢
    have c2 := c2 hib
    have hs1 : SortedOn less a i1 l := by
      apply SortedOn.of_adjacent less ho l a i1 (by omega)
      intro k hk1 hk2
      by_cases hk : k < i
      · exact hs (k - 1) k (by omega) (by omega) hk
      · exact c3 k (by omega) hk2
    by_cases e1 : i1 = b
    · rw [if_pos e1]
      subst e1
      exact ⟨Within.refl _ _ _, fun _ => hs1⟩
    by_cases e2 : b - a < 50
    · rw [if_neg e1, if_pos e2]
      exact ⟨Within.refl _ _ _, fun h => by cases h⟩
    · rw [if_neg e1, if_neg e2]
      have hi1 : i1 < b := by omega
      have w1 : Within a b l (swapAt l i1 (i1 - 1)) :=
        Within.swap a b l i1 (i1 - 1) (by omega) (by omega) hb
      have hlen1 : (swapAt l i1 (i1 - 1)).length = l.length := length_swapAt _ _ _
      have hpre : ∀ l2 : List α, Within a b l l2 → SortedOn less a i1 l2 →
          Within a b l (partialInsertionSort.steps less a b n i1
            (if 2 ≤ b - i1 then
              partialInsertionSort.shiftRight less b (b - (i1 + 1)) (i1 + 1) l2
            else l2)).1 ∧
          ((partialInsertionSort.steps less a b n i1
            (if 2 ≤ b - i1 then
              partialInsertionSort.shiftRight less b (b - (i1 + 1)) (i1 + 1) l2
            else l2)).2 = true →
            SortedOn less a b (partialInsertionSort.steps less a b n i1
              (if 2 ≤ b - i1 then
                partialInsertionSort.shiftRight less b (b - (i1 + 1)) (i1 + 1) l2
              else l2)).1) := by
        intro l2 w2 s2
        have hb2 : b ≤ l2.length := by rw [w2.1]; exact hb
        have w3 : Within i1 b l2 (if 2 ≤ b - i1 then
              partialInsertionSort.shiftRight less b (b - (i1 + 1)) (i1 + 1) l2
            else l2) := by
          split_ifs
          · exact partialInsertionSort.shiftRight_spec less i1 b _ _ l2 (by omega) hb2
          · exact Within.refl _ _ _
        generalize (if 2 ≤ b - i1 then
              partialInsertionSort.shiftRight less b (b - (i1 + 1)) (i1 + 1) l2
            else l2) = l3 at w3 ⊢
        have w13 : Within a b l l3 := w2.trans (w3.mono (by omega) (le_refl _))
        obtain ⟨w4, s4⟩ := ih i1 l3 (by omega) (by omega) (by rw [w13.1]; exact hb)
          (Within.lowerB less w13 hlow) (SortedOn.of_outside less w3 s2 (Or.inl (le_refl _)))
        exact ⟨w13.trans w4, s4⟩
      by_cases h2 : 2 ≤ i1 - a
      · rw [if_pos h2]
        have hlow1 := Within.lowerB less w1 hlow
        rw [partialInsertionSort.shiftLeft_eq less a (i1 - 1) _ (by omega) (by omega)
          (fun k h0 hk1 hk2 => hlow1 k h0 hk1 (by omega))]
        obtain ⟨w2, s2⟩ := insertionSort.inner_spec less ho a (i1 - 1) (i1 - 1)
          (swapAt l i1 (i1 - 1)) (by omega) (le_refl _) (by omega)
          (by
            intro p q hp hpq hq _ hqi
            rw [lessAt_swapAt less l i1 (i1 - 1) q p (by omega) (by omega),
              tr_ne _ _ q (by omega) (by omega), tr_ne _ _ p (by omega) (by omega)]
            exact hs1 p q hp hpq (by omega))
          (fun q h1 h2 => by omega)
        have e : i1 - 1 + 1 = i1 := by omega
        rw [e] at w2 s2
        exact hpre _ (w1.trans (w2.mono (le_refl _) (by omega))) s2
      · rw [if_neg h2]
        exact hpre _ w1 (fun p q hp hpq hq => by omega)

/-- The partial insertion sort rearranges the part and, when it returns true, leaves it in
order. -/
theorem partialInsertionSort_spec {α : Type} (less : α → α → Bool)
    (ho : StrictWeakOrder less) (l : List α) (a b : Nat) (hab : a < b) (hb : b ≤ l.length)
    (hlow : LowerB less a b l) :
    Within a b l (partialInsertionSort_func less l a b).1 ∧
    ((partialInsertionSort_func less l a b).2 = true →
      SortedOn less a b (partialInsertionSort_func less l a b).1) :=
  partialInsertionSort.steps_spec less ho a b 5 (a + 1) l (by omega) (by omega) hb hlow
    (fun p q hp hpq hq => by omega)

/-! ### Heap sort -/

/-- The loop of `siftDown_func` at `root` makes a heap from `lo` on of what is one apart from
the node `root`, when the children of `root` are not greater than its parent. -/
theorem siftDown_loop_spec {α : Type} (less : α → α → Bool) (ho : StrictWeakOrder less)
    (first lo hi : Nat) : ∀ (f root : Nat) (l : List α), hi - root ≤ f → lo ≤ root →
    first + hi ≤ l.length → HeapEx less first lo hi root l →
    (∀ g c, lo ≤ g → (root = 2 * g + 1 ∨ root = 2 * g + 2) →
      (c = 2 * root + 1 ∨ c = 2 * root + 2) → c < hi →
      lessAt less l (first + g) (first + c) = false) →
    Within (first + lo) (first + hi) l (siftDown.loop less hi first f root l) ∧
      HeapEx less first lo hi hi (siftDown.loop less hi first f root l) := by
  intro f
  induction f with
  | zero =>
    intro root l hf _ _ hh _
    unfold siftDown.loop
    refine ⟨Within.refl _ _ _, ?_⟩
    intro r c hr _ hc hch
    exact hh r c hr (by omega) hc hch
  | succ f ih =>
    intro root l hf hlo hlen hh hg
    unfold siftDown.loop
    by_cases h0 : hi ≤ 2 * root + 1
    · rw [if_pos h0]
      refine ⟨Within.refl _ _ _, ?_⟩
      intro r c hr _ hc hch
      exact hh r c hr (by omega) hc hch
    · rw [if_neg h0]
      simp only
      have hchild : ∃ child, (child = 2 * root + 1 ∨ child = 2 * root + 2) ∧ child < hi ∧
          (if 2 * root + 1 + 1 < hi ∧
            lessAt less l (first + (2 * root + 1)) (first + (2 * root + 1) + 1) = true
          then 2 * root + 1 + 1 else 2 * root + 1) = child ∧
          (∀ c, (c = 2 * root + 1 ∨ c = 2 * root + 2) → c < hi →
            lessAt less l (first + child) (first + c) = false) := by
        split_ifs with hc
        · refine ⟨2 * root + 2, Or.inr rfl, by omega, rfl, ?_⟩
          intro c hc1 hc2
          rcases hc1 with rfl | rfl
          · have e : first + (2 * root + 1) + 1 = first + (2 * root + 2) := by omega
            rw [e] at hc
            exact lessAt_asymm less ho l _ _ hc.2
          · exact lessAt_irrefl less ho l _
        · refine ⟨2 * root + 1, Or.inl rfl, by omega, rfl, ?_⟩
          intro c hc1 hc2
          rcases hc1 with rfl | rfl
          · exact lessAt_irrefl less ho l _
          · have e : first + (2 * root + 1) + 1 = first + (2 * root + 2) := by omega
            rw [e] at hc
            cases hx : lessAt less l (first + (2 * root + 1)) (first + (2 * root + 2)) with
            | false => rfl
            | true => exact absurd ⟨by omega, hx⟩ hc
      obtain ⟨child, hc1, hc2, hc3, hc4⟩ := hchild
      rw [hc3]
      by_cases hlt : lessAt less l (first + root) (first + child) = false
      · rw [if_pos hlt]
        refine ⟨Within.refl _ _ _, ?_⟩
        intro r c hr _ hc hch
        by_cases hrr : r = root
        · subst hrr
          exact leAt_trans less ho l (first + c) (first + child) (first + r) (by omega)
            (hc4 c hc hch) hlt
        · exact hh r c hr hrr hc hch
      · rw [if_neg hlt]
        have hlt1 : lessAt less l (first + root) (first + child) = true := by simpa using hlt
        have hsw : ∀ p q, lessAt less (swapAt l (first + root) (first + child)) p q =
            lessAt less l (tr (first + root) (first + child) p)
              (tr (first + root) (first + child) q) :=
          fun p q => lessAt_swapAt less l _ _ p q (by omega) (by omega)
        obtain ⟨w, hp⟩ := ih child (swapAt l (first + root) (first + child)) (by omega)
          (by omega) (by rw [length_swapAt]; exact hlen)
          (by
            intro r c hr hrc hc hch
            rw [hsw]
            by_cases hrr : r = root
            · subst hrr
              rw [tr_left]
              by_cases hcc : c = child
              · subst hcc
                rw [tr_right]
                exact lessAt_asymm less ho l _ _ hlt1
              · rw [tr_ne _ _ (first + c) (by omega) (by omega)]
                exact hc4 c hc hch
            · rw [tr_ne _ _ (first + r) (by omega) (by omega)]
              by_cases hcr : c = root
              · subst hcr
                rw [tr_left]
                exact hg r child hr (by omega) hc1 hc2
              · rw [tr_ne _ _ (first + c) (by omega) (by omega)]
                exact hh r c hr hrr hc hch)
          (by
            intro g c hgl hgc hc hch
            have hgr : g = root := by omega
            subst hgr
            rw [hsw, tr_left, tr_ne _ _ (first + c) (by omega) (by omega)]
            exact hh child c (by omega) (by omega) hc hch)
        exact ⟨(Within.swap _ _ l _ _ (by omega) (by omega) hlen).trans w, hp⟩

theorem siftDown_spec {α : Type} (less : α → α → Bool) (ho : StrictWeakOrder less)
    (l : List α) (lo hi first : Nat) (hlen : first + hi ≤ l.length)
    (hh : HeapEx less first lo hi lo l)
    (hg : ∀ g c, lo ≤ g → (lo = 2 * g + 1 ∨ lo = 2 * g + 2) →
      (c = 2 * lo + 1 ∨ c = 2 * lo + 2) → c < hi →
      lessAt less l (first + g) (first + c) = false) :
    Within (first + lo) (first + hi) l (siftDown_func less l lo hi first) ∧
      HeapEx less first lo hi hi (siftDown_func less l lo hi first) :=
  siftDown_loop_spec less ho first lo hi hi lo l (by omega) (le_refl _) hlen hh hg

theorem heapSort.build_spec {α : Type} (less : α → α → Bool) (ho : StrictWeakOrder less)
    (first hi : Nat) : ∀ (n : Nat) (l : List α), first + hi ≤ l.length →
    HeapEx less first n hi hi l →
    Within first (first + hi) l (heapSort.build less hi first n l) ∧
      HeapEx less first 0 hi hi (heapSort.build less hi first n l) := by
  intro n
  induction n with
  | zero =>
    intro l _ hh
    exact ⟨Within.refl _ _ _, hh⟩
  | succ n ih =>
    intro l hlen hh
    unfold heapSort.build
    obtain ⟨w, hp⟩ := siftDown_spec less ho l n hi first hlen
      (fun r c hr hrn hc hch => hh r c (by omega) (by omega) hc hch)
      (fun g c hg1 hg2 _ _ => by omega)
    obtain ⟨w2, hp2⟩ := ih (siftDown_func less l n hi first) (by rw [w.1]; exact hlen) hp
    exact ⟨(w.mono (by omega) (le_refl _)).trans w2, hp2⟩

/-- The root of a heap is less than none of its nodes. -/
theorem HeapEx.root_max {α : Type} (less : α → α → Bool) (ho : StrictWeakOrder less)
    (first hi : Nat) (l : List α) (hlen : first + hi ≤ l.length)
    (hh : HeapEx less first 0 hi hi l) :
    ∀ k, k < hi → lessAt less l first (first + k) = false := by
  intro k
  induction k using Nat.strong_induction_on with
  | _ k ih =>
    intro hk
    by_cases h0 : k = 0
    · subst h0
      exact lessAt_irrefl less ho l _
    · have h1 := hh ((k - 1) / 2) k (by omega) (by omega) (by omega) hk
      have h2 := ih ((k - 1) / 2) (by omega) (by omega)
      exact leAt_trans less ho l (first + k) (first + (k - 1) / 2) first (by omega) h1 h2

theorem heapSort.pop_spec {α : Type} (less : α → α → Bool) (ho : StrictWeakOrder less)
    (first hi : Nat) : ∀ (n : Nat) (l : List α), n ≤ hi → first + hi ≤ l.length →
    HeapEx less first 0 n n l → SortedOn less (first + n) (first + hi) l →
    (∀ i j, i < n → n ≤ j → j < hi → lessAt less l (first + j) (first + i) = false) →
    Within first (first + hi) l (heapSort.pop less first n l) ∧
      SortedOn less first (first + hi) (heapSort.pop less first n l) := by
  intro n
  induction n with
  | zero =>
    intro l _ _ _ hs _
    exact ⟨Within.refl _ _ _, hs⟩
  | succ n ih =>
    intro l hn hlen hh hs hsep
    unfold heapSort.pop
    have hmax := HeapEx.root_max less ho first (n + 1) l (by omega) hh
    have hsw : ∀ p q, lessAt less (swapAt l first (first + n)) p q =
        lessAt less l (tr first (first + n) p) (tr first (first + n) q) :=
      fun p q => lessAt_swapAt less l _ _ p q (by omega) (by omega)
    have hlen1 : first + hi ≤ (swapAt l first (first + n)).length := by
      rw [length_swapAt]; exact hlen
    have w1 : Within first (first + hi) l (swapAt l first (first + n)) :=
      Within.swap _ _ l _ _ (by omega) (by omega) hlen
    obtain ⟨w2, hp2⟩ := siftDown_spec less ho (swapAt l first (first + n)) 0 n first
      (by omega)
      (by
        intro r c hr hr0 hc hch
        rw [hsw, tr_ne _ _ (first + r) (by omega) (by omega),
          tr_ne _ _ (first + c) (by omega) (by omega)]
        exact hh r c hr (by omega) hc (by omega))
      (fun g c hg1 hg2 _ _ => by omega)
    rw [Nat.add_zero] at w2
    have hlen2 : first + hi ≤ (siftDown_func less (swapAt l first (first + n)) 0 n first).length := by
      rw [w2.1]; exact hlen1
    have hin : ∀ k, first ≤ k → k < first + n →
        first ≤ tr first (first + n) k ∧ tr first (first + n) k < first + (n + 1) :=
      fun k h1 h2 => tr_range first (first + (n + 1)) first (first + n) k (by omega) (by omega)
        (by omega)
    obtain ⟨w3, s3⟩ := ih (siftDown_func less (swapAt l first (first + n)) 0 n first)
      (by omega) hlen2 hp2
      (by
        intro i j hi1 hij hj
        rw [Within.lessAt_outside less w2 j i (by omega) (by omega), hsw]
        by_cases hin : i = first + n
        · subst hin
          rw [tr_right, tr_ne _ _ j (by omega) (by omega)]
          have := hsep 0 (j - first) (by omega) (by omega) (by omega)
          rw [Nat.add_zero] at this
          have e : first + (j - first) = j := by omega
          rw [e] at this
          exact this
        · rw [tr_ne _ _ j (by omega) (by omega), tr_ne _ _ i (by omega) (by omega)]
          exact hs i j (by omega) hij hj)
      (by
        intro i j hi1 hij hj
        apply Within.upper less w2 (first + j) (by omega) _ (first + i) (by omega) (by omega)
        intro k hk1 hk2
        rw [hsw]
        obtain ⟨t1, t2⟩ := hin k hk1 hk2
        by_cases hjn : j = n
        · subst hjn
          rw [tr_right]
          have := hmax (tr first (first + j) k - first) (by omega)
          have e : first + (tr first (first + j) k - first) = tr first (first + j) k := by omega
          rw [e] at this
          exact this
        · rw [tr_ne _ _ (first + j) (by omega) (by omega)]
          have := hsep (tr first (first + n) k - first) j (by omega) (by omega) hj
          have e : first + (tr first (first + n) k - first) = tr first (first + n) k := by omega
          rw [e] at this
          exact this)
    exact ⟨(w1.trans (w2.mono (le_refl _) (by omega))).trans w3, s3⟩

/-- The heap sort rearranges the part `a ≤ i < b` and leaves it in order. -/
theorem heapSort_spec {α : Type} (less : α → α → Bool) (ho : StrictWeakOrder less)
    (l : List α) (a b : Nat) (hab : a ≤ b) (hb : b ≤ l.length) :
    Within a b l (heapSort_func less l a b) ∧ SortedOn less a b (heapSort_func less l a b) := by
  unfold heapSort_func
  obtain ⟨w1, h1⟩ := heapSort.build_spec less ho a (b - a) ((b - a - 1) / 2 + 1) l (by omega)
    (fun r c hr _ hc hch => by omega)
  obtain ⟨w2, s2⟩ := heapSort.pop_spec less ho a (b - a) (b - a)
    (heapSort.build less (b - a) a ((b - a - 1) / 2 + 1) l) (le_refl _)
    (by rw [w1.1]; omega) h1 (fun i j hi hij hj => by omega)
    (fun i j hi hij hj => by omega)
  have e : a + (b - a) = b := by omega
  rw [e] at w1 w2 s2
  exact ⟨w1.trans w2, s2⟩

/-! ### The pattern-defeating quicksort -/

/-- Two parts in order on either side of an entry that bounds both make one part in order. -/
theorem SortedOn.join {α : Type} (less : α → α → Bool) (ho : StrictWeakOrder less)
    (l : List α) (a mid b : Nat) (hm : mid < l.length) (h1 : SortedOn less a mid l)
    (h2 : SortedOn less (mid + 1) b l)
    (hL : ∀ k, a ≤ k → k < mid → lessAt less l mid k = false)
    (hR : ∀ k, mid < k → k < b → lessAt less l k mid = false) : SortedOn less a b l := by
  intro i j hi hij hj
  rcases Nat.lt_trichotomy j mid with h | h | h
  · exact h1 i j hi hij h
  · subst h
    exact hL i hi hij
  · rcases Nat.lt_trichotomy i mid with h3 | h3 | h3
    · exact leAt_trans less ho l i mid j hm (hL i hi h3) (hR j h hj)
    · subst h3
      exact hR j h hj
    · exact h2 i j (by omega) hij hj

/-- Two adjoining parts in order, with no entry of the second less than one of the first,
make one part in order. -/
theorem SortedOn.append {α : Type} (less : α → α → Bool) (l : List α) (a mid b : Nat)
    (h1 : SortedOn less a mid l) (h2 : SortedOn less mid b l)
    (hs : ∀ i j, a ≤ i → i < mid → mid ≤ j → j < b → lessAt less l j i = false) :
    SortedOn less a b l := by
  intro i j hi hij hj
  by_cases h : j < mid
  · exact h1 i j hi hij h
  · by_cases h3 : i < mid
    · exact hs i j hi h3 (by omega) hj
    · exact h2 i j (by omega) hij hj

/-- The quicksort rearranges the part `a ≤ i < b` and leaves it in order, whatever the
limit, the two flags and the generator are. -/
theorem pdqsort_loop_spec {α : Type} (next : Nat → Nat) (less : α → α → Bool)
    (ho : StrictWeakOrder less) : ∀ (f : Nat) (l : List α) (a b limit : Nat)
    (wasBalanced wasPartitioned : Bool), b - a ≤ f → a ≤ b → b ≤ l.length →
    LowerB less a b l →
    Within a b l (pdqsort.loop next less f l a b limit wasBalanced wasPartitioned) ∧
    SortedOn less a b (pdqsort.loop next less f l a b limit wasBalanced wasPartitioned) := by
  intro f
  induction f with
  | zero =>
    intro l a b limit wb wp hf hab hb hlow
    unfold pdqsort.loop
    exact ⟨Within.refl _ _ _, fun i j hi hij hj => by omega⟩
  | succ f ih =>
    intro l a b limit wb wp hf hab hb hlow
    unfold pdqsort.loop
    by_cases h12 : b - a ≤ 12
    · rw [if_pos h12]
      exact insertionSort_spec less ho l a b hb
    rw [if_neg h12]
    by_cases hl0 : limit = 0
    · rw [if_pos hl0]
      exact heapSort_spec less ho l a b hab hb
    rw [if_neg hl0]
    simp only
    have w1 : Within a b l (if wb = true then l else breakPatterns_func next l a b) := by
      split_ifs
      · exact Within.refl _ _ _
      · exact breakPatterns_spec next l a b hb
    generalize (if wb = true then l else breakPatterns_func next l a b) = l1 at w1 ⊢
    generalize (if wb = true then limit else limit - 1) = limit1
    have hc := choosePivot_range less l1 a b (by omega)
    generalize choosePivot_func less l1 a b = c at hc ⊢
    have hb1 : b ≤ l1.length := by rw [w1.1]; exact hb
    have w2 : Within a b l1
        (if c.2 = sortedHint.decreasingHint then reverseRange_func l1 a b else l1) := by
      split_ifs
      · exact reverseRange_spec l1 a b (by omega) hb1
      · exact Within.refl _ _ _
    generalize (if c.2 = sortedHint.decreasingHint then reverseRange_func l1 a b else l1) = l2
      at w2 ⊢
    have hpv : a ≤ (if c.2 = sortedHint.decreasingHint then b - 1 - (c.1 - a) else c.1) ∧
        (if c.2 = sortedHint.decreasingHint then b - 1 - (c.1 - a) else c.1) < b := by
      split_ifs <;> omega
    generalize (if c.2 = sortedHint.decreasingHint then b - 1 - (c.1 - a) else c.1) = pivot
      at hpv ⊢
    generalize (if c.2 = sortedHint.decreasingHint then sortedHint.increasingHint else c.2) =
      hint
    have w12 : Within a b l l2 := w1.trans w2
    have hb2 : b ≤ l2.length := by rw [w12.1]; exact hb
    have w3 : Within a b l2
        (if wb = true ∧ wp = true ∧ hint = sortedHint.increasingHint then
          partialInsertionSort_func less l2 a b else (l2, false)).1 ∧
        ((if wb = true ∧ wp = true ∧ hint = sortedHint.increasingHint then
          partialInsertionSort_func less l2 a b else (l2, false)).2 = true →
          SortedOn less a b
            (if wb = true ∧ wp = true ∧ hint = sortedHint.increasingHint then
              partialInsertionSort_func less l2 a b else (l2, false)).1) := by
      split_ifs
      · exact partialInsertionSort_spec less ho l2 a b (by omega) hb2
          (Within.lowerB less w12 hlow)
      · exact ⟨Within.refl _ _ _, fun h => by cases h⟩
    generalize (if wb = true ∧ wp = true ∧ hint = sortedHint.increasingHint then
      partialInsertionSort_func less l2 a b else (l2, false)) = p at w3 ⊢
    obtain ⟨w3, s3⟩ := w3
    have w : Within a b l p.1 := w12.trans w3
    have hbp : b ≤ p.1.length := by rw [w.1]; exact hb
    have hlowp : LowerB less a b p.1 := Within.lowerB less w hlow
    by_cases hp : p.2 = true
    · rw [if_pos hp]
      exact ⟨w, s3 hp⟩
    rw [if_neg hp]
    by_cases he : 0 < a ∧ lessAt less p.1 (a - 1) pivot = false
    · rw [if_pos he]
      obtain ⟨we, e1, e2, se, sep⟩ := partitionEqual_spec less ho p.1 a b pivot hbp hpv.1 hpv.2
        (fun k hk1 hk2 => leAt_trans less ho p.1 pivot (a - 1) k (by omega) he.2
          (hlowp k he.1 hk1 hk2))
      generalize partitionEqual_func less p.1 a b pivot = e at we e1 e2 se sep ⊢
      obtain ⟨wr, sr⟩ := ih e.1 e.2 b limit1 wb wp (by omega) e2 (by rw [we.1]; exact hbp)
        (fun k _ hk1 hk2 => sep (e.2 - 1) k (by omega) (by omega) hk1 hk2)
      refine ⟨(w.trans we).trans (wr.mono (by omega) (le_refl _)), ?_⟩
      apply SortedOn.append less _ a e.2 b (SortedOn.of_outside less wr se (Or.inl (le_refl _))) sr
      intro i j hi1 hi2 hj1 hj2
      exact Within.lower less wr i (by omega) (fun k hk1 hk2 => sep i k hi1 hi2 hk1 hk2) j hj1
        hj2
    rw [if_neg he]
    obtain ⟨wq, q1, q2, qL, qR⟩ := partition_spec less ho p.1 a b pivot hbp hpv.1 hpv.2
    generalize partition_func less p.1 a b pivot = q at wq q1 q2 qL qR ⊢
    have hbq : b ≤ q.1.length := by rw [wq.1]; exact hbp
    have hlowq : LowerB less a b q.1 := Within.lowerB less wq hlowp
    by_cases hlr : q.2.1 - a < b - q.2.1
    · rw [if_pos hlr]
      obtain ⟨wi, si⟩ := ih q.1 a q.2.1 limit1 true true (by omega) q1 (by omega)
        (LowerB.sub less hlowq (by omega))
      generalize pdqsort.loop next less f q.1 a q.2.1 limit1 true true = r1 at wi si ⊢
      have hR1 : ∀ k, q.2.1 < k → k < b → lessAt less r1 k q.2.1 = false := by
        intro k hk1 hk2
        rw [Within.lessAt_outside less wi k q.2.1 (by omega) (by omega)]
        exact qR k hk1 hk2
      obtain ⟨wo, so⟩ := ih r1 (q.2.1 + 1) b limit1 (decide ((b - a) / 8 ≤ q.2.1 - a)) q.2.2
        (by omega) (by omega) (by rw [wi.1]; exact hbq)
        (fun k _ hk1 hk2 => by
          rw [Nat.add_sub_cancel]
          exact hR1 k (by omega) hk2)
      refine ⟨((w.trans wq).trans (wi.mono (le_refl _) (by omega))).trans
        (wo.mono (by omega) (le_refl _)), ?_⟩
      apply SortedOn.join less ho _ a q.2.1 b (by rw [wo.1, wi.1]; omega)
        (SortedOn.of_outside less wo si (Or.inl (by omega))) so
      · intro k hk1 hk2
        rw [Within.lessAt_outside less wo q.2.1 k (by omega) (by omega)]
        exact Within.upper less wi q.2.1 (by omega) qL k hk1 hk2
      · intro k hk1 hk2
        exact Within.lower less wo q.2.1 (by omega) (fun k h1 h2 => hR1 k (by omega) h2) k
          (by omega) hk2
    · rw [if_neg hlr]
      obtain ⟨wi, si⟩ := ih q.1 (q.2.1 + 1) b limit1 true true (by omega) (by omega) hbq
        (fun k _ hk1 hk2 => by
          rw [Nat.add_sub_cancel]
          exact qR k (by omega) hk2)
      generalize pdqsort.loop next less f q.1 (q.2.1 + 1) b limit1 true true = r1 at wi si ⊢
      have hL1 : ∀ k, a ≤ k → k < q.2.1 → lessAt less r1 q.2.1 k = false := by
        intro k hk1 hk2
        rw [Within.lessAt_outside less wi q.2.1 k (by omega) (by omega)]
        exact qL k hk1 hk2
      obtain ⟨wo, so⟩ := ih r1 a q.2.1 limit1 (decide ((b - a) / 8 ≤ b - q.2.1)) q.2.2
        (by omega) q1 (by rw [wi.1]; omega)
        (fun k h0 hk1 hk2 => by
          rw [Within.lessAt_outside less wi k (a - 1) (by omega) (by omega)]
          exact hlowq k h0 hk1 (by omega))
      refine ⟨((w.trans wq).trans (wi.mono (by omega) (le_refl _))).trans
        (wo.mono (le_refl _) (by omega)), ?_⟩
      apply SortedOn.join less ho _ a q.2.1 b (by rw [wo.1, wi.1]; omega) so
        (SortedOn.of_outside less wo si (Or.inr (by omega)))
      · intro k hk1 hk2
        exact Within.upper less wo q.2.1 (by omega) hL1 k hk1 hk2
      · intro k hk1 hk2
        rw [Within.lessAt_outside less wo k q.2.1 (by omega) (by omega)]
        exact Within.lower less wi q.2.1 (by omega) (fun k h1 h2 => qR k (by omega) h2) k
          (by omega) hk2

/-- Go `sort.Slice` with a strict weak order returns a permutation of the slice in which no
entry is less than an earlier one. -/
theorem Slice_spec {α : Type} (next : Nat → Nat) (less : α → α → Bool)
    (ho : StrictWeakOrder less) (x : List α) :
    (Slice next less x).Perm x ∧ (Slice next less x).Pairwise (fun a b => less b a = false) := by
  unfold Slice pdqsort_func
  obtain ⟨w, s⟩ := pdqsort_loop_spec next less ho (x.length - 0) x 0 x.length
    (bitsLen x.length x.length) true true (le_refl _) (Nat.zero_le _) (le_refl _)
    (fun k h0 _ _ => by omega)
  generalize pdqsort.loop next less (x.length - 0) x 0 x.length (bitsLen x.length x.length)
    true true = r at w s
  refine ⟨w.2.1, ?_⟩
  rw [List.pairwise_iff_getElem]
  intro i j hi hj hij
  have := s i j (Nat.zero_le _) hij (by rw [← w.1]; exact hj)
  rw [lessAt_eq less r j i _ _ (List.getElem?_eq_getElem hj) (List.getElem?_eq_getElem hi)]
    at this
  exact this

end sort

/-! ## The CSV parsers -/

theorem adult_rows_loop (records : List (List Text)) (users : List AdultScoutbookUser)
    (h : ∀ r ∈ records, 13 ≤ r.length) :
    csvParser.ParseAdultRoster.loop records users =
      .returned (users ++ records.map adultOfRecord) none := by
  induction records generalizing users with
  | nil => simp [csvParser.ParseAdultRoster.loop]
  | cons r rest ih =>
    have hr := h r (List.mem_cons_self _ _)
    rw [csvParser.ParseAdultRoster.loop, if_neg (by omega),
      ih _ (fun x hx => h x (List.mem_cons_of_mem _ hx))]
    simp

theorem youth_rows_loop (records : List (List Text)) (users : List YouthScoutbookUser)
    (h : ∀ r ∈ records, 14 ≤ r.length) :
    csvParser.ParseYouthRoster.loop records users =
      .returned (users ++ records.map youthOfRecord) none := by
  induction records generalizing users with
  | nil => simp [csvParser.ParseYouthRoster.loop]
  | cons r rest ih =>
    have hr := h r (List.mem_cons_self _ _)
    rw [csvParser.ParseYouthRoster.loop, if_neg (by omega),
      ih _ (fun x hx => h x (List.mem_cons_of_mem _ hx))]
    simp

/-! ## The claims -/

/-- C1 as stated fails: the single segment `13/45/2025(AB) 05/06/2025(C)` contains the date
token `05/06/2025` followed by the tag `(C)`, and the date token `13/45/2025` followed by the
tag `(AB)`, yet `parseHealthForms` returns no record for it. -/
theorem parseHealthForms_one_per_segment_counterexample :
    paddedPipePattern.Split "13/45/2025(AB) 05/06/2025(C)".toList noLimit =
      ["13/45/2025(AB) 05/06/2025(C)".toList] ∧
    "13/45/2025(AB) 05/06/2025(C)".toList =
      "13/45/2025(AB) ".toList ++ "05/06/2025(C)".toList ∧
    HealthTokenAt "05/06/2025(C)".toList "05/06/2025".toList "C".toList ∧
    ParseDate "05/06/2025".toList = some ⟨2025, 5, 6⟩ ∧
    HealthTokenAt "13/45/2025(AB) 05/06/2025(C)".toList "13/45/2025".toList "AB".toList ∧
    parseHealthForms "13/45/2025(AB) 05/06/2025(C)".toList = .ok [] :=
  ⟨by decide, by decide,
    ⟨by decide, Or.inr rfl, [], [], by decide, by decide⟩, by decide,
    ⟨by decide, Or.inl rfl, [], " 05/06/2025(C)".toList, by decide, by decide⟩, by decide⟩

/-- C1, amended: `parseHealthForms` always succeeds, and its result lists, in source order,
the records of the padded-pipe segments: a segment with no health-form token contributes
nothing, and a segment whose leftmost token has date token `dt` and tag `tag` contributes
the HealthForm record labelled by `tag` and expiring on `dt` when `dt` is a calendar date, and
nothing when it is not.  In particular `05/06/2025(AB) | 05/06/2025 (C)` yields the A/B record
and the C record, both for 2025-05-06. -/
theorem parseHealthForms_records :
    (∀ cell : Text, ∃ f : Text → Option UserStatusRecord,
      parseHealthForms cell = .ok ((paddedPipePattern.Split cell noLimit).filterMap f) ∧
      (∀ seg, ¬ HasHealthToken seg → f seg = none) ∧
      (∀ seg, HasHealthToken seg → ∃ dt tag, FirstHealthToken seg dt tag) ∧
      (∀ seg dt tag, FirstHealthToken seg dt tag →
        f seg = (ParseDate dt).map (healthFormRecord tag))) ∧
    (∀ d, healthFormRecord "AB".toList d = HealthFormABRecord d) ∧
    (∀ d, healthFormRecord "C".toList d = HealthFormCRecord d) ∧
    parseHealthForms "05/06/2025(AB) | 05/06/2025 (C)".toList =
      .ok [HealthFormABRecord ⟨2025, 5, 6⟩, HealthFormCRecord ⟨2025, 5, 6⟩] := by
  refine ⟨fun cell => ⟨healthFormOf, ?_, ?_, hasHealthToken_first, ?_⟩,
    fun d => rfl, fun d => rfl, by decide⟩
  · unfold parseHealthForms
    rw [health_loop]
    rfl
  · intro seg h
    unfold healthFormOf
    rw [(firstHealthToken_none seg).mpr h]
  · intro seg dt tag h
    unfold healthFormOf
    rw [firstHealthToken_some seg dt tag h]
    cases hd : ParseDate dt <;> simp [hd, healthFormRecord]

/-- C2: on the cell `01/01/2020(X)` the pattern, whose type group is `AB|C`, finds no match,
so `parseHealthForms` returns the empty list and no error. -/
theorem parseHealthForms_unknown_tag_no_error :
    parseHealthForms "01/01/2020(X)".toList = .ok [] := by
  decide

/-- C3: when no segment of the padded-pipe split of the training cell is empty and the first
`n` entries of the split of the expiration cell are dates, `n` being the number of training
segments, `parseAdultTraining` succeeds with exactly `n` Training records in source order, the
i-th labelled with the i-th segment verbatim and expiring on the i-th expiration entry. -/
theorem parseAdultTraining_positional (training expiration : Text) (dates : List Date)
    (hseg : ∀ t ∈ paddedPipePattern.Split training noLimit, t ≠ [])
    (hn : dates.length = (paddedPipePattern.Split training noLimit).length)
    (hexp : ((paddedPipePattern.Split expiration noLimit).take dates.length).map ParseDate =
      dates.map some) :
    parseAdultTraining training expiration =
      .ok (List.zipWith TrainingRecord (paddedPipePattern.Split training noLimit) dates) := by
  have hne : training ≠ [] := by
    rintro rfl
    exact hseg [] (by decide) rfl
  unfold parseAdultTraining
  rw [if_neg hne, adult_loop_all _ _ 0 [] dates hseg hn]
  · simp
  · intro j d hj
    simpa using take_map_parse _ dates hexp j d hj

/-- C3, at the cell `A | B` with expirations `01/01/2025 | 02/02/2025`. -/
theorem parseAdultTraining_positional_witness :
    parseAdultTraining "A | B".toList "01/01/2025 | 02/02/2025".toList =
      .ok [TrainingRecord "A".toList ⟨2025, 1, 1⟩, TrainingRecord "B".toList ⟨2025, 2, 2⟩] :=
  parseAdultTraining_positional "A | B".toList "01/01/2025 | 02/02/2025".toList
    [⟨2025, 1, 1⟩, ⟨2025, 2, 2⟩] (by decide) (by decide) (by decide)

/-- C4 as stated fails: in the cell `| A` the segment `A` is the first non-empty segment, the
expiration list is `01/01/2025`, `02/02/2025`, and the record of `A` carries the second entry,
not the first. -/
theorem parseAdultTraining_nonempty_rank_counterexample :
    paddedPipePattern.Split "| A".toList noLimit = [[], "A".toList] ∧
    paddedPipePattern.Split "01/01/2025 | 02/02/2025".toList noLimit =
      ["01/01/2025".toList, "02/02/2025".toList] ∧
    ParseDate "01/01/2025".toList = some ⟨2025, 1, 1⟩ ∧
    parseAdultTraining "| A".toList "01/01/2025 | 02/02/2025".toList =
      .ok [TrainingRecord "A".toList ⟨2025, 2, 2⟩] ∧
    parseAdultTraining "| A".toList "01/01/2025 | 02/02/2025".toList ≠
      .ok [TrainingRecord "A".toList ⟨2025, 1, 1⟩] := by
  decide

/-- C4, amended: for a non-empty training cell, `parseAdultTraining` succeeds with records
`rs` exactly when `rs` lists, in source order, one record for every non-empty segment of the
split, labelled with the segment and carrying the parsed expiration entry found at the
segment's own index in the split of the training cell, empty segments included in the
count. -/
theorem parseAdultTraining_index_pairing (training expiration : Text)
    (rs : List UserStatusRecord) (hne : training ≠ []) :
    parseAdultTraining training expiration = .ok rs ↔
      List.Forall₂ (AdultPairing (paddedPipePattern.Split expiration noLimit))
        ((paddedPipePattern.Split training noLimit).enum.filter (fun p => p.2 ≠ [])) rs := by
  unfold parseAdultTraining
  rw [if_neg hne, adult_loop_ok_iff]
  simp [List.enum]

/-- C4, amended, at the cell `| A`: the only result is the record pairing `A` with the
second expiration entry. -/
theorem parseAdultTraining_index_pairing_witness :
    "| A".toList ≠ [] ∧
    (parseAdultTraining "| A".toList "01/01/2025 | 02/02/2025".toList =
        .ok [TrainingRecord "A".toList ⟨2025, 2, 2⟩] ↔
      List.Forall₂
        (AdultPairing (paddedPipePattern.Split "01/01/2025 | 02/02/2025".toList noLimit))
        ((paddedPipePattern.Split "| A".toList noLimit).enum.filter (fun p => p.2 ≠ []))
        [TrainingRecord "A".toList ⟨2025, 2, 2⟩]) :=
  ⟨by decide, parseAdultTraining_index_pairing _ _ _ (by decide)⟩

/-- C5 as stated fails when pairing goes by rank among the non-empty segments.  In the cell
`| A` the segment `A` is the first non-empty segment.  With the expiration cell `01/01/2025`
its first entry is a date, and the call fails, naming `A`; with the expiration cell
`junk | 01/01/2025` its first entry is not a date, and the call succeeds. -/
theorem parseAdultTraining_rank_failure_counterexample :
    paddedPipePattern.Split "| A".toList noLimit = [[], "A".toList] ∧
    paddedPipePattern.Split "01/01/2025".toList noLimit = ["01/01/2025".toList] ∧
    paddedPipePattern.Split "junk | 01/01/2025".toList noLimit =
      ["junk".toList, "01/01/2025".toList] ∧
    ParseDate "01/01/2025".toList = some ⟨2025, 1, 1⟩ ∧
    ParseDate "junk".toList = none ∧
    parseAdultTraining "| A".toList "01/01/2025".toList =
      .error (errInvalidTrainingDate "A".toList) ∧
    parseAdultTraining "| A".toList "junk | 01/01/2025".toList =
      .ok [TrainingRecord "A".toList ⟨2025, 1, 1⟩] := by
  decide

/-- C5, amended: for a non-empty training cell `parseAdultTraining` fails exactly when some
non-empty training segment has, at its own index in the split of the training cell (empty
segments counted), a missing or unparseable expiration entry; when it fails the error names
the first such segment (and an error result carries no record list). -/
theorem parseAdultTraining_fails_iff (training expiration : Text) (hne : training ≠ []) :
    ((∃ e, parseAdultTraining training expiration = .error e) ↔
      ∃ i t, Offending (paddedPipePattern.Split training noLimit)
        (paddedPipePattern.Split expiration noLimit) i t) ∧
    ∀ i t, Offending (paddedPipePattern.Split training noLimit)
        (paddedPipePattern.Split expiration noLimit) i t →
      (∀ k u, k < i → ¬ Offending (paddedPipePattern.Split training noLimit)
        (paddedPipePattern.Split expiration noLimit) k u) →
      parseAdultTraining training expiration = .error (errInvalidTrainingDate t) := by
  unfold parseAdultTraining
  rw [if_neg hne]
  simp only [adult_loop_error_iff, offending_iff, Nat.zero_add]
  constructor
  · constructor
    · rintro ⟨e, j, t, h1, h2, h3, -, -⟩
      exact ⟨j, t, h1, h2, h3⟩
    · rintro ⟨i, t, h⟩
      have hex : ∃ i, ∃ t, (paddedPipePattern.Split training noLimit)[i]? = some t ∧ t ≠ [] ∧
          ParseDate ((paddedPipePattern.Split expiration noLimit)[i]?.getD []) = none :=
        ⟨i, t, h⟩
      classical
      obtain ⟨u, hu1, hu2, hu3⟩ := Nat.find_spec hex
      refine ⟨_, Nat.find hex, u, hu1, hu2, hu3, ?_, rfl⟩
      intro k v hk hv hvne hnone
      exact Nat.find_min hex hk ⟨v, hv, hvne, hnone⟩
  · rintro i t ⟨h1, h2, h3⟩ hfirst
    refine ⟨i, t, h1, h2, h3, ?_, rfl⟩
    intro k u hk hu hune hnone
    exact hfirst k u hk ⟨hu, hune, hnone⟩

/-- C5, amended, at the training cell `A` with an empty expiration cell: the call fails,
naming `A`. -/
theorem parseAdultTraining_fails_iff_witness :
    "A".toList ≠ [] ∧
    parseAdultTraining "A".toList [] = .error (errInvalidTrainingDate "A".toList) :=
  ⟨by decide,
    (parseAdultTraining_fails_iff "A".toList [] (by decide)).2 0 "A".toList
      ⟨by decide, by decide, Or.inr ⟨[], by decide, by decide⟩⟩
      (fun k u hk => absurd hk (Nat.not_lt_zero k))⟩

/-- C6: a youth training cell made of segments `<name> (Expiration Date: <d>)`, where each
name has no pipe, no line feed, no expiration marker inside it (it suffices that it holds no
complete marker `(Expiration Date: dd/dd/dddd)`, so in particular that it does not contain
`(Expiration Date:`) and no leading or trailing whitespace, and each `<d>` is a date,
separated by padded pipes and optionally ended by one, yields with an empty expiration cell
exactly one Training record per segment, in source order, named `<name>` and expiring on
`<d>`. -/
theorem parseYouthTraining_well_formed (entries : List YouthEntry)
    (h : WellFormedYouth entries) :
    parseYouthTraining (youthCell entries) [] =
      .ok (entries.map (fun e => TrainingRecord e.name e.date)) := by
  cases entries with
  | nil => rfl
  | cons e rest =>
    obtain ⟨hname, hd, hsep, hwf⟩ := h
    have hshape := ParseDate_shaped _ _ hd
    have htight := (youthSegment_tight e.name e.dateText hname.1 hshape).1
    have hne : youthSegment e.name e.dateText ≠ [] := by
      obtain ⟨t, x, hx, -⟩ := htight.2
      rw [hx]
      simp
    have hcell : youthCell (e :: rest) ≠ [] := by
      simp [youthCell, hne]
    have hfind := find_youth_piece e.name [' '] e.dateText hname (by decide) hshape
    rw [← youthSegment_form] at hfind
    unfold parseYouthTraining
    rw [if_neg (by simp), if_neg hcell]
    have hsplit : paddedPipePattern.Split (youthCell (e :: rest)) noLimit =
        youthPieces (youthSegment e.name e.dateText) e.sep rest := by
      unfold Regex.Split
      rw [if_neg (by decide), if_neg hcell, if_pos (by decide)]
      exact split_youth rest _ e.sep _ htight hsep hwf (le_refl _)
    rw [hsplit, youth_pieces_loop rest _ e.sep e.name e.dateText e.date [] hfind hne
      hname.2.2.2 hd hwf]
    simp

/-- C6, at the cell `X (Expiration Date: 03/26/2027)` and at a cell of two segments ended by
a pipe. -/
theorem parseYouthTraining_well_formed_witness :
    parseYouthTraining "X (Expiration Date: 03/26/2027)".toList [] =
      .ok [TrainingRecord "X".toList ⟨2027, 3, 26⟩] ∧
    parseYouthTraining
      ("Y01 Safeguarding Youth Training Certification (Expiration Date: 03/26/2027) | " ++
        "SCO_800 Hazardous Weather Training (Expiration Date: 05/19/2027) |").toList [] =
      .ok [TrainingRecord "Y01 Safeguarding Youth Training Certification".toList ⟨2027, 3, 26⟩,
        TrainingRecord "SCO_800 Hazardous Weather Training".toList ⟨2027, 5, 19⟩] :=
  ⟨parseYouthTraining_well_formed [⟨"X".toList, "03/26/2027".toList, ⟨2027, 3, 26⟩, []⟩]
      ⟨⟨by decide, by decide, fun h => absurd (marker_of_expiration _ h) (by decide),
        by decide⟩, by decide, Or.inr ⟨rfl, rfl⟩, trivial⟩,
    parseYouthTraining_well_formed
      [⟨"Y01 Safeguarding Youth Training Certification".toList, "03/26/2027".toList,
          ⟨2027, 3, 26⟩, " | ".toList⟩,
        ⟨"SCO_800 Hazardous Weather Training".toList, "05/19/2027".toList, ⟨2027, 5, 19⟩,
          " |".toList⟩]
      ⟨⟨by decide, by decide, fun h => absurd (marker_of_expiration _ h) (by decide),
        by decide⟩, by decide,
        Or.inl ⟨" ".toList, " ".toList, by decide, by decide, by decide⟩,
        ⟨by decide, by decide, fun h => absurd (marker_of_expiration _ h) (by decide),
          by decide⟩, by decide,
        Or.inl ⟨" ".toList, [], by decide, by decide, by decide⟩, trivial⟩⟩

/-- C7: with a non-empty expiration cell `parseYouthTraining` fails with the
unexpected-expiration error, whatever the training cell holds. -/
theorem parseYouthTraining_rejects_expiration (training expiration : Text)
    (h : expiration ≠ []) :
    parseYouthTraining training expiration = .error errUnexpectedTrainingExpiration := by
  unfold parseYouthTraining
  rw [if_pos h]

/-- C7, at a well-formed training cell and at the empty training cell. -/
theorem parseYouthTraining_rejects_expiration_witness :
    "03/26/2027".toList ≠ [] ∧
    parseYouthTraining "X (Expiration Date: 03/26/2027)".toList "03/26/2027".toList =
      .error errUnexpectedTrainingExpiration ∧
    parseYouthTraining [] "03/26/2027".toList = .error errUnexpectedTrainingExpiration :=
  ⟨by decide, parseYouthTraining_rejects_expiration _ _ (by decide),
    parseYouthTraining_rejects_expiration _ _ (by decide)⟩

/-- C8 as stated fails: with an empty expiration cell, the segment
`X (Expiration Date: 13/45/2027)` has the shape of a training entry but no such calendar
day, and `parseYouthTraining` returns an error instead of skipping it. -/
theorem parseYouthTraining_never_errors_counterexample :
    parseYouthTraining "X (Expiration Date: 13/45/2027)".toList [] =
      .error (errInvalidTrainingDate "X (Expiration Date: 13/45/2027)".toList) := by
  decide

/-- C8, amended: with an empty expiration cell, `parseYouthTraining` fails exactly when the
leftmost expiration marker of some segment has a date token that is not a calendar date, and
the error then names such a segment; otherwise it succeeds with the records of the segments
in source order, where a segment holding no expiration marker is skipped and a segment whose
leftmost marker has the date `d` yields one Training record expiring on `d`. -/
theorem parseYouthTraining_empty_expiration (training : Text) :
    ∃ f : Text → Option UserStatusRecord,
      (∀ seg, ¬ HasExpiration seg → f seg = none) ∧
      (∀ seg, HasExpiration seg → ∃ dt, FirstExpiration seg dt) ∧
      (∀ seg dt d, FirstExpiration seg dt → ParseDate dt = some d →
        ∃ r, f seg = some r ∧ r.Type_ = RecordType.Training ∧ r.ExpirationDate = d) ∧
      ((∃ e, parseYouthTraining training [] = .error e) ↔
        ∃ seg dt, seg ∈ paddedPipePattern.Split training noLimit ∧ FirstExpiration seg dt ∧
          ParseDate dt = none) ∧
      (∀ e, parseYouthTraining training [] = .error e →
        ∃ seg dt, seg ∈ paddedPipePattern.Split training noLimit ∧ FirstExpiration seg dt ∧
          ParseDate dt = none ∧ e = errInvalidTrainingDate seg) ∧
      ((∀ seg dt, seg ∈ paddedPipePattern.Split training noLimit → FirstExpiration seg dt →
          ParseDate dt ≠ none) →
        parseYouthTraining training [] =
          .ok ((paddedPipePattern.Split training noLimit).filterMap f)) := by
  have hnil : paddedPipePattern.Split [] noLimit = [[]] := by decide
  have herr : ∀ e, parseYouthTraining training [] = .error e →
      ∃ seg dt, seg ∈ paddedPipePattern.Split training noLimit ∧ FirstExpiration seg dt ∧
        ParseDate dt = none ∧ e = errInvalidTrainingDate seg := by
    intro e he
    unfold parseYouthTraining at he
    rw [if_neg (by simp)] at he
    by_cases ht : training = []
    · rw [if_pos ht] at he
      cases he
    · rw [if_neg ht] at he
      obtain ⟨seg, dt, hm, h1, h2, h3⟩ := youth_loop_error _ _ _ he
      exact ⟨seg, dt, hm, (firstExpiration_iff _ _).mp h1, h2, h3⟩
  refine ⟨youthRecordOf, ?_, hasExpiration_first, ?_, ⟨?_, ?_⟩, herr, ?_⟩
  · intro seg h
    exact youthRecordOf_none seg ((firstExpiration_none seg).mpr h)
  · intro seg dt d h hd
    obtain ⟨name, hn⟩ := youthRecordOf_some seg dt d ((firstExpiration_iff _ _).mpr h) hd
    exact ⟨_, hn, rfl, rfl⟩
  · rintro ⟨e, he⟩
    obtain ⟨seg, dt, hm, h1, h2, -⟩ := herr e he
    exact ⟨seg, dt, hm, h1, h2⟩
  · rintro ⟨seg, dt, hm, h1, h2⟩
    have h1f := (firstExpiration_iff _ _).mpr h1
    unfold parseYouthTraining
    rw [if_neg (by simp)]
    by_cases ht : training = []
    · subst ht
      rw [hnil] at hm
      simp only [List.mem_singleton] at hm
      subst hm
      simp [firstExpiration?] at h1f
    · rw [if_neg ht]
      exact youth_loop_bad _ [] seg dt hm h1f h2
  · intro h
    unfold parseYouthTraining
    rw [if_neg (by simp)]
    by_cases ht : training = []
    · subst ht
      rw [if_pos rfl, hnil]
      have : youthRecordOf [] = none := by decide
      simp [this]
    · rw [if_neg ht, youth_loop_ok]
      · simp
      · intro seg dt hm h1
        exact h seg dt hm ((firstExpiration_iff _ _).mp h1)

/-- C9: for a swim cell containing `Swimmer`, `parseSwimClass` returns the Swimmer record
with the expiration `d` when the expiration cell is the date `d`, and fails with the
invalid-expiration error when the expiration cell is empty or is not a date. -/
theorem parseSwimClass_swimmer (swimClass swimClassExpiration : Text)
    (h : "Swimmer".toList <:+: swimClass) :
    (∀ d, ParseDate swimClassExpiration = some d →
      parseSwimClass swimClass swimClassExpiration = .ok (SwimmerRecord d)) ∧
    (swimClassExpiration = [] ∨ ParseDate swimClassExpiration = none →
      parseSwimClass swimClass swimClassExpiration = .error errInvalidSwimExpiration) := by
  have hne : swimClass ≠ [] := by
    rintro rfl
    exact absurd (List.infix_nil.mp h) (by decide)
  have hc : strings.Contains swimClass "Swimmer".toList = true :=
    (strings.Contains_iff _ _).mpr h
  unfold parseSwimClass
  rw [if_neg hne, if_pos hc]
  constructor
  · intro d hd
    have hx : swimClassExpiration ≠ [] := by
      rintro rfl
      rw [ParseDate_nil] at hd
      cases hd
    rw [if_pos hx, hd]
  · rintro (rfl | hd)
    · rfl
    · rw [hd]; simp

/-- C9, at `Swimmer (01/01/2015)` with `01/01/2015`, and at `Swimmer` with no expiration. -/
theorem parseSwimClass_swimmer_witness :
    parseSwimClass "Swimmer (01/01/2015)".toList "01/01/2015".toList =
      .ok (SwimmerRecord ⟨2015, 1, 1⟩) ∧
    parseSwimClass "Swimmer".toList [] = .error errInvalidSwimExpiration :=
  ⟨(parseSwimClass_swimmer "Swimmer (01/01/2015)".toList "01/01/2015".toList
      ⟨[], " (01/01/2015)".toList, by decide⟩).1 ⟨2015, 1, 1⟩ (by decide),
    (parseSwimClass_swimmer "Swimmer".toList [] ⟨[], [], by decide⟩).2 (Or.inl rfl)⟩

/-- C10: for a swim cell that is empty or does not contain `Swimmer`, `parseSwimClass`
succeeds with the canonical Non-Swimmer record, whatever the expiration cell holds, and that
record carries the zero date. -/
theorem parseSwimClass_nonswimmer (swimClass swimClassExpiration : Text)
    (h : swimClass = [] ∨ ¬ "Swimmer".toList <:+: swimClass) :
    parseSwimClass swimClass swimClassExpiration = .ok NonSwimmerRecord ∧
    NonSwimmerRecord.Type_ = RecordType.SwimClass ∧
    NonSwimmerRecord.Name = "Non-Swimmer".toList ∧
    NonSwimmerRecord.ExpirationDate = Date.zero := by
  refine ⟨?_, rfl, rfl, rfl⟩
  unfold parseSwimClass
  rcases h with rfl | h
  · rfl
  · have hc : ¬ strings.Contains swimClass "Swimmer".toList = true :=
      fun hc => h ((strings.Contains_iff _ _).mp hc)
    rw [if_neg hc]
    simp

/-- C10, at the cell `Nonswimmer` with a date in the expiration cell. -/
theorem parseSwimClass_nonswimmer_witness :
    parseSwimClass "Nonswimmer".toList "01/01/2015".toList = .ok NonSwimmerRecord ∧
    parseSwimClass [] [] = .ok NonSwimmerRecord :=
  ⟨(parseSwimClass_nonswimmer "Nonswimmer".toList "01/01/2015".toList
      (Or.inr (by
        rw [← strings.Contains_iff]
        decide))).1,
    (parseSwimClass_nonswimmer [] [] (Or.inl rfl)).1⟩

/-- C11: for every text that `ParseDate` accepts, `String()` of the parsed `Date` is exactly
that text. -/
theorem ParseDate_String_roundtrip (value : Text) (d : Date)
    (h : ParseDate value = some d) : d.String = value := by
  obtain ⟨a, b, c, e, y1, y2, y3, y4, rfl, ha, hb, hc, he, hy1, hy2, hy3, hy4, rfl, -⟩ :=
    (ParseDate_some_iff value d).mp h
  unfold Date.String
  simp only []
  rw [appendInt_two a b ha hb, appendInt_two c e hc he, appendInt_four y1 y2 y3 y4 hy1 hy2 hy3 hy4]
  rfl

/-- C11, at the texts `05/06/2025` and `02/29/2024`. -/
theorem ParseDate_String_roundtrip_witness :
    ParseDate "05/06/2025".toList = some ⟨2025, 5, 6⟩ ∧
    Date.String ⟨2025, 5, 6⟩ = "05/06/2025".toList ∧
    Date.String ⟨2024, 2, 29⟩ = "02/29/2024".toList :=
  ⟨by decide, ParseDate_String_roundtrip "05/06/2025".toList ⟨2025, 5, 6⟩ (by decide),
    ParseDate_String_roundtrip "02/29/2024".toList ⟨2024, 2, 29⟩ (by decide)⟩

/-- C12: `ParseDate` succeeds exactly on the texts made of two digits, `/`, two digits, `/`
and four digits, with nothing before or after, whose month is 1 to 12 and whose day lies
within the length of that month of the Gregorian calendar, and it then returns that day;
every other text fails, among them texts without the zero padding, with surrounding
whitespace, with trailing characters, or naming a day that does not exist. -/
theorem ParseDate_strict :
    (∀ (value : Text) (d : Date), ParseDate value = some d ↔
      ∃ a b c e y1 y2 y3 y4, value = [a, b, '/', c, e, '/', y1, y2, y3, y4] ∧
        a.isDigit = true ∧ b.isDigit = true ∧ c.isDigit = true ∧ e.isDigit = true ∧
        y1.isDigit = true ∧ y2.isDigit = true ∧ y3.isDigit = true ∧ y4.isDigit = true ∧
        d = ⟨digitVal y1 * 1000 + digitVal y2 * 100 + digitVal y3 * 10 + digitVal y4,
          digitVal a * 10 + digitVal b, digitVal c * 10 + digitVal e⟩ ∧
        1 ≤ d.month ∧ d.month ≤ 12 ∧ 1 ≤ d.day ∧
        d.day ≤ gregorianMonthLength d.year d.month) ∧
    ParseDate "01/02/2025".toList = some ⟨2025, 1, 2⟩ ∧
    ParseDate "02/29/2024".toList = some ⟨2024, 2, 29⟩ ∧
    ParseDate "1/2/2025".toList = none ∧
    ParseDate " 01/02/2025".toList = none ∧
    ParseDate "01/02/2025 ".toList = none ∧
    ParseDate "01/02/2025x".toList = none ∧
    ParseDate "01/02/25".toList = none ∧
    ParseDate "13/01/2025".toList = none ∧
    ParseDate "00/10/2025".toList = none ∧
    ParseDate "04/31/2025".toList = none ∧
    ParseDate "02/29/2023".toList = none ∧
    ParseDate "02/29/1900".toList = none ∧
    ParseDate "02/29/2000".toList = some ⟨2000, 2, 29⟩ ∧
    ParseDate [] = none := by
  refine ⟨ParseDate_some_iff, ?_, ?_, ?_, ?_, ?_, ?_, ?_, ?_, ?_, ?_, ?_, ?_, ?_, ?_⟩ <;> decide

/-- C13: on every adult row that `ToAdultUser` maps without error, `Positions` is
`strings.Split` of the positions cell at the separator ` | `: it is never the empty sequence,
it is the cell alone when the separator does not occur in it (so `A|B` is not split), it is
one empty text when the cell is empty, joining it with ` | ` gives back the cell, and no
piece contains the separator. -/
theorem ToAdultUser_positions (u : AdultScoutbookUser) (a : AdultUser)
    (h : u.ToAdultUser = (a, none)) :
    a.Positions = strings.Split u.Positions " | ".toList ∧
    a.Positions ≠ [] ∧
    (¬ " | ".toList <:+: u.Positions → a.Positions = [u.Positions]) ∧
    (u.Positions = [] → a.Positions = [[]]) ∧
    strings.Join a.Positions " | ".toList = u.Positions ∧
    (∀ p ∈ a.Positions, ¬ " | ".toList <:+: p) := by
  have hsep : " | ".toList ≠ [] := by decide
  have hpos : a.Positions = strings.genSplit " | ".toList u.Positions.length u.Positions := by
    rcases ToAdultUser_cases u with ⟨hf, tr, sw, -, -, -, e⟩ | ⟨e, he, -⟩
    · rw [e] at h
      injection h with h1 _
      rw [← h1]
      simp only [strings.Split, if_neg hsep]
    · rw [he] at h
      injection h with _ h2
      cases h2
  refine ⟨?_, ?_, ?_, ?_, ?_, ?_⟩
  · rw [hpos]
    simp only [strings.Split, if_neg hsep]
  · rw [hpos]
    exact strings.genSplit_ne_nil _ _ _
  · intro hn
    rw [hpos]
    exact strings.genSplit_absent _ hsep _ _ hn
  · intro he
    rw [hpos, he]
    rfl
  · rw [hpos]
    exact strings.Join_genSplit _ hsep _ _
  · rw [hpos]
    exact strings.genSplit_pieces _ hsep _ _ (le_refl _)

/-- C13, at the row `Dan Dewey` with the positions cell `A|B`, which stays in one piece, and
with the cell of the test, which is cut in two. -/
theorem ToAdultUser_positions_witness :
    (adultRow "A|B".toList).ToAdultUser.2 = none ∧
    (adultRow "A|B".toList).ToAdultUser.1.Positions = ["A|B".toList] ∧
    (adultRow "Committee Member | Unit Advancement Chair".toList).ToAdultUser.1.Positions =
      ["Committee Member".toList, "Unit Advancement Chair".toList] ∧
    (adultRow []).ToAdultUser.1.Positions = [[]] :=
  ⟨by decide,
    (ToAdultUser_positions (adultRow "A|B".toList) (adultRow "A|B".toList).ToAdultUser.1
      (by decide)).2.2.1 (by
        rw [← strings.Contains_iff]
        decide),
    ((ToAdultUser_positions (adultRow "Committee Member | Unit Advancement Chair".toList)
      (adultRow "Committee Member | Unit Advancement Chair".toList).ToAdultUser.1
      (by decide)).1).trans (by decide),
    (ToAdultUser_positions (adultRow []) (adultRow []).ToAdultUser.1 (by decide)).2.2.2.1 rfl⟩

/-- C14: on every youth row whose date of birth parses and that `ToYouthUser` maps without
error, `Positions` is the empty sequence when the positions cell is empty, and otherwise the
fields of the cell between its pipes, in order, each without the whitespace touching a pipe;
it is never the sequence of one empty text. -/
theorem ToYouthUser_positions (u : YouthScoutbookUser) (y : YouthUser) (bday : Date)
    (hb : ParseDate u.DateOfBirth = some bday) (h : u.ToYouthUser = .returned y none) :
    (u.Positions = [] → y.Positions = []) ∧
    (u.Positions ≠ [] → y.Positions = paddedPieces u.Positions) ∧
    y.Positions ≠ [[]] := by
  have hpos : y.Positions =
      if u.Positions = [] then [] else paddedPipePattern.Split u.Positions noLimit := by
    rcases ToYouthUser_cases u bday hb with
      ⟨hf, tr, sw, -, -, -, ⟨-, e1⟩ | ⟨c, t, -, e1⟩⟩ | ⟨e1, he, -⟩
    · rw [e1] at h
      cases h
    · rw [e1] at h
      injection h with h1 _
      rw [← h1]
    · rw [he] at h
      injection h with _ h2
      cases h2
  refine ⟨?_, ?_, ?_⟩
  · intro he
    rw [hpos, if_pos he]
  · intro hne
    rw [hpos, if_neg hne, Split_paddedPieces]
  · rw [hpos]
    by_cases he : u.Positions = []
    · rw [if_pos he]
      simp
    · rw [if_neg he, Split_paddedPieces]
      exact paddedPieces_ne_single_empty _ he

/-- C14, at the row `Abe Ames` with the positions cells `A|B`, `A | B`, `A  |  B`, the cell
of the test and the empty cell. -/
theorem ToYouthUser_positions_witness :
    paddedPieces "A|B".toList = ["A".toList, "B".toList] ∧
    paddedPieces "A | B".toList = ["A".toList, "B".toList] ∧
    paddedPieces "A  |  B".toList = ["A".toList, "B".toList] ∧
    (youthRow "Abe".toList "07/04/2014".toList "A  |  B".toList).ToYouthUser =
      .returned
        { Name := "A. Ames".toList, BsaId := 100, Email := [], Gender := "M".toList,
          DateOfBirth := ⟨2014, 7, 4⟩, Age := 10, Patrol := "Vikings".toList, Training := [],
          HealthForms := [HealthFormABRecord ⟨2026, 6, 19⟩, HealthFormCRecord ⟨2026, 6, 8⟩],
          SwimClass := NonSwimmerRecord, Positions := ["A".toList, "B".toList] } none ∧
    ["A".toList, "B".toList] ≠ [[]] :=
  ⟨by decide, by decide, by decide, by decide,
    (ToYouthUser_positions (youthRow "Abe".toList "07/04/2014".toList "A  |  B".toList)
      { Name := "A. Ames".toList, BsaId := 100, Email := [], Gender := "M".toList,
        DateOfBirth := ⟨2014, 7, 4⟩, Age := 10, Patrol := "Vikings".toList, Training := [],
        HealthForms := [HealthFormABRecord ⟨2026, 6, 19⟩, HealthFormCRecord ⟨2026, 6, 8⟩],
        SwimClass := NonSwimmerRecord, Positions := ["A".toList, "B".toList] }
      ⟨2014, 7, 4⟩ (by decide) (by decide)).2.2⟩

/-- C15 fails in the code: `ToYouthUser` takes the first byte of the first name, not its
first character.  For the first name `Émile` (first character U+00C9, first byte `0xC3`) and
the last name `Ames` the display name starts with the character U+00C3 and is not
`É. Ames`; for a first name starting with an ASCII character the name is the one claimed. -/
theorem ToYouthUser_name_first_byte :
    (youthRow (Char.ofNat 0xC9 :: "mile".toList) "07/04/2014".toList []).ToYouthUser =
      .returned
        { Name := Char.ofNat 0xC3 :: ". Ames".toList, BsaId := 100, Email := [],
          Gender := "M".toList, DateOfBirth := ⟨2014, 7, 4⟩, Age := 10,
          Patrol := "Vikings".toList, Training := [],
          HealthForms := [HealthFormABRecord ⟨2026, 6, 19⟩, HealthFormCRecord ⟨2026, 6, 8⟩],
          SwimClass := NonSwimmerRecord, Positions := [] } none ∧
    Char.ofNat 0xC3 :: ". Ames".toList ≠ Char.ofNat 0xC9 :: ". Ames".toList ∧
    (∀ (u : YouthScoutbookUser) (y : YouthUser) (bday : Date) (c : Char) (t : Text),
      ParseDate u.DateOfBirth = some bday → u.FirstName = c :: t → c.toNat < 128 →
      u.ToYouthUser = .returned y none → y.Name = c :: ". ".toList ++ u.LastName) := by
  refine ⟨by decide, by decide, ?_⟩
  intro u y bday c t hb hn hc h
  rcases ToYouthUser_cases u bday hb with ⟨hf, tr, sw, -, -, -, hcase⟩ | ⟨e, he, -⟩
  · rcases hcase with ⟨he, -⟩ | ⟨c1, t1, hn1, e⟩
    · rw [hn] at he
      cases he
    · rw [hn] at hn1
      injection hn1 with hc1 _
      subst hc1
      rw [e] at h
      injection h with h1 _
      rw [← h1]
      simp only [byteToString, firstByte, if_pos hc, Char.ofNat_toNat]
      rfl
  · rw [he] at h
    injection h with _ h2
    cases h2

/-- C16 fails in the code: there is no error for an empty first name.  The row `Abe Ames`
with its first name emptied makes `ToYouthUser` panic on indexing the first byte, and with
its date of birth emptied as well it returns the zero member with a nil error. -/
theorem ToYouthUser_empty_first_name_panics :
    (youthRow [] "07/04/2014".toList []).ToYouthUser = .panicked ∧
    (youthRow [] [] []).ToYouthUser = .returned YouthUser.zero none := by
  constructor <;> decide

/-- C17: when the date-of-birth cell is not a date that `ParseDate` accepts, `ToYouthUser`
returns the zero-value `YouthUser` and a nil error, whatever the other cells hold. -/
theorem ToYouthUser_unparseable_birthday (u : YouthScoutbookUser)
    (h : ParseDate u.DateOfBirth = none) :
    u.ToYouthUser = .returned YouthUser.zero none :=
  ToYouthUser_no_birthday u h

/-- C17, at a row with the date of birth `7/4/2014`, an empty first name, a non-empty
training-expiration cell and a swimmer cell without a date. -/
theorem ToYouthUser_unparseable_birthday_witness :
    ParseDate "7/4/2014".toList = none ∧
    YouthScoutbookUser.ToYouthUser
      { FirstName := [], LastName := "Ames".toList, BsaId := 100, Email := [],
        DateOfBirth := "7/4/2014".toList, Age := 10, Gender := "M".toList,
        HealthForms := "06/19/2026(AB)".toList, SwimClass := "Swimmer".toList,
        SwimClassExpiration := [], Positions := "Scribe".toList, Patrol := [],
        Training := "X (Expiration Date: 03/26/2027)".toList,
        TrainingExpiration := "03/26/2027".toList } = .returned YouthUser.zero none :=
  ⟨by decide, ToYouthUser_unparseable_birthday _ (by decide)⟩

/-- C18: both mappers hand on the errors of the extractors and return no partial member.
`ToAdultUser` returns an error exactly when `parseHealthForms`, `parseAdultTraining` or
`parseSwimClass` fails on the cells of the row, and `ToYouthUser`, on a row whose date of
birth parses, returns an error exactly when `parseHealthForms`, `parseYouthTraining` or
`parseSwimClass` fails; the error returned is the one of the first extractor that fails, in
that order, and the member returned with it is the zero value. -/
theorem mappers_propagate_errors :
    (∀ u : AdultScoutbookUser,
      ((∃ a e, u.ToAdultUser = (a, some e)) ↔
        ((∃ e, parseHealthForms u.HealthForms = .error e) ∨
          (∃ e, parseAdultTraining u.Training u.TrainingExpiration = .error e) ∨
          (∃ e, parseSwimClass u.SwimClass u.SwimClassExpiration = .error e))) ∧
      (∀ a e, u.ToAdultUser = (a, some e) →
        a = AdultUser.zero ∧
        (parseHealthForms u.HealthForms = .error e ∨
          ((∃ hf, parseHealthForms u.HealthForms = .ok hf) ∧
            parseAdultTraining u.Training u.TrainingExpiration = .error e) ∨
          ((∃ hf, parseHealthForms u.HealthForms = .ok hf) ∧
            (∃ tr, parseAdultTraining u.Training u.TrainingExpiration = .ok tr) ∧
            parseSwimClass u.SwimClass u.SwimClassExpiration = .error e)))) ∧
    (∀ (u : YouthScoutbookUser) (bday : Date), ParseDate u.DateOfBirth = some bday →
      ((∃ y e, u.ToYouthUser = .returned y (some e)) ↔
        ((∃ e, parseHealthForms u.HealthForms = .error e) ∨
          (∃ e, parseYouthTraining u.Training u.TrainingExpiration = .error e) ∨
          (∃ e, parseSwimClass u.SwimClass u.SwimClassExpiration = .error e))) ∧
      (∀ y e, u.ToYouthUser = .returned y (some e) →
        y = YouthUser.zero ∧
        (parseHealthForms u.HealthForms = .error e ∨
          ((∃ hf, parseHealthForms u.HealthForms = .ok hf) ∧
            parseYouthTraining u.Training u.TrainingExpiration = .error e) ∨
          ((∃ hf, parseHealthForms u.HealthForms = .ok hf) ∧
            (∃ tr, parseYouthTraining u.Training u.TrainingExpiration = .ok tr) ∧
            parseSwimClass u.SwimClass u.SwimClassExpiration = .error e)))) ∧
    AdultScoutbookUser.ToAdultUser
      { FirstName := "Jeff".toList, LastName := "Jones".toList, Email := [],
        Gender := "M".toList, BsaId := 10, UnitNumber := [],
        Training := "Y01 Youth Protection Training Certification".toList,
        TrainingExpiration := "06/13/26".toList, HealthForms := "03/05/2019(AB)".toList,
        SwimClass := "Swimmer".toList, SwimClassExpiration := [], Positions := [] } =
      (AdultUser.zero,
        some (errInvalidTrainingDate "Y01 Youth Protection Training Certification".toList)) ∧
    YouthScoutbookUser.ToYouthUser
      { FirstName := "Billy".toList, LastName := "Brown".toList, BsaId := 101, Email := [],
        DateOfBirth := "08/01/2007".toList, Age := 17, Gender := "M".toList,
        HealthForms := "06/19/2026(AB)".toList, SwimClass := "Swimmer".toList,
        SwimClassExpiration := [], Positions := [], Patrol := [], Training := [],
        TrainingExpiration := [] } =
      .returned YouthUser.zero (some errInvalidSwimExpiration) := by
  refine ⟨?_, ?_, by decide, by decide⟩
  · intro u
    have hc := ToAdultUser_cases u
    constructor
    · constructor
      · rintro ⟨a, e, h⟩
        rcases hc with ⟨hf, tr, sw, -, -, -, e1⟩ | ⟨e1, -, h1 | ⟨-, h2⟩ | ⟨-, -, h3⟩⟩
        · rw [e1] at h
          injection h with _ h2
          cases h2
        · exact Or.inl ⟨e1, h1⟩
        · exact Or.inr (Or.inl ⟨e1, h2⟩)
        · exact Or.inr (Or.inr ⟨e1, h3⟩)
      · intro h
        rcases hc with ⟨hf, tr, sw, h1, h2, h3, -⟩ | ⟨e1, he, -⟩
        · rcases h with ⟨e, h⟩ | ⟨e, h⟩ | ⟨e, h⟩
          · rw [h1] at h; cases h
          · rw [h2] at h; cases h
          · rw [h3] at h; cases h
        · exact ⟨_, e1, he⟩
    · intro a e h
      rcases hc with ⟨hf, tr, sw, -, -, -, e1⟩ | ⟨e1, he, hx⟩
      · rw [e1] at h
        injection h with _ h2
        cases h2
      · rw [he] at h
        injection h with h1 h2
        injection h2 with h2
        subst h2
        exact ⟨h1.symm, hx⟩
  · intro u bday hb
    have hc := ToYouthUser_cases u bday hb
    constructor
    · constructor
      · rintro ⟨y, e, h⟩
        rcases hc with ⟨hf, tr, sw, -, -, -, ⟨-, e1⟩ | ⟨c, t, -, e1⟩⟩ |
          ⟨e1, -, h1 | ⟨-, h2⟩ | ⟨-, -, h3⟩⟩
        · rw [e1] at h
          cases h
        · rw [e1] at h
          injection h with _ h2
          cases h2
        · exact Or.inl ⟨e1, h1⟩
        · exact Or.inr (Or.inl ⟨e1, h2⟩)
        · exact Or.inr (Or.inr ⟨e1, h3⟩)
      · intro h
        rcases hc with ⟨hf, tr, sw, h1, h2, h3, -⟩ | ⟨e1, he, -⟩
        · rcases h with ⟨e, h⟩ | ⟨e, h⟩ | ⟨e, h⟩
          · rw [h1] at h; cases h
          · rw [h2] at h; cases h
          · rw [h3] at h; cases h
        · exact ⟨_, e1, he⟩
    · intro y e h
      rcases hc with ⟨hf, tr, sw, -, -, -, ⟨-, e1⟩ | ⟨c, t, -, e1⟩⟩ | ⟨e1, he, hx⟩
      · rw [e1] at h
        cases h
      · rw [e1] at h
        injection h with _ h2
        cases h2
      · rw [he] at h
        injection h with h1 h2
        injection h2 with h2
        subst h2
        exact ⟨h1.symm, hx⟩

/-- C19 as stated fails: a youth row whose date of birth does not parse is returned without
error as the zero member, whose `SwimClass` is the zero record, of kind `Training` and with
an empty name. -/
theorem ToYouthUser_swimClass_absent_counterexample :
    (youthRow "Abe".toList [] []).ToYouthUser = .returned YouthUser.zero none ∧
    YouthUser.zero.SwimClass.Type_ = RecordType.Training ∧
    YouthUser.zero.SwimClass ≠ NonSwimmerRecord ∧
    (∀ d, YouthUser.zero.SwimClass ≠ SwimmerRecord d) := by
  refine ⟨by decide, rfl, by decide, ?_⟩
  intro d h
  have := congrArg UserStatusRecord.Type_ h
  cases this

/-- C19, amended: for every adult row that `ToAdultUser` maps without error, and for every
youth row whose date of birth parses and that `ToYouthUser` maps without error, the
`SwimClass` of the member is of kind `SwimClass` and is either the Non-Swimmer record, with
the zero date, or the Swimmer record carrying the date parsed from the expiration cell. -/
theorem mappers_swimClass_present :
    (∀ (u : AdultScoutbookUser) (a : AdultUser), u.ToAdultUser = (a, none) →
      a.SwimClass.Type_ = RecordType.SwimClass ∧
      (a.SwimClass = NonSwimmerRecord ∨
        ∃ d, ParseDate u.SwimClassExpiration = some d ∧ a.SwimClass = SwimmerRecord d)) ∧
    (∀ (u : YouthScoutbookUser) (y : YouthUser) (bday : Date),
      ParseDate u.DateOfBirth = some bday → u.ToYouthUser = .returned y none →
      y.SwimClass.Type_ = RecordType.SwimClass ∧
      (y.SwimClass = NonSwimmerRecord ∨
        ∃ d, ParseDate u.SwimClassExpiration = some d ∧ y.SwimClass = SwimmerRecord d)) ∧
    (adultRow []).ToAdultUser.2 = none ∧
    (adultRow []).ToAdultUser.1.SwimClass = NonSwimmerRecord ∧
    (youthRow "Abe".toList "07/04/2014".toList []).ToYouthUser =
      .returned
        { Name := "A. Ames".toList, BsaId := 100, Email := [], Gender := "M".toList,
          DateOfBirth := ⟨2014, 7, 4⟩, Age := 10, Patrol := "Vikings".toList, Training := [],
          HealthForms := [HealthFormABRecord ⟨2026, 6, 19⟩, HealthFormCRecord ⟨2026, 6, 8⟩],
          SwimClass := NonSwimmerRecord, Positions := [] } none := by
  have key : ∀ (sw : UserStatusRecord) (cell : Text),
      (sw = NonSwimmerRecord ∨ ∃ d, ParseDate cell = some d ∧ sw = SwimmerRecord d) →
      sw.Type_ = RecordType.SwimClass ∧
      (sw = NonSwimmerRecord ∨ ∃ d, ParseDate cell = some d ∧ sw = SwimmerRecord d) := by
    intro sw cell h
    refine ⟨?_, h⟩
    rcases h with rfl | ⟨d, -, rfl⟩ <;> rfl
  refine ⟨?_, ?_, by decide, by decide, by decide⟩
  · intro u a h
    rcases ToAdultUser_cases u with ⟨hf, tr, sw, -, -, h3, e1⟩ | ⟨e1, he, -⟩
    · rw [e1] at h
      injection h with h1 _
      rw [← h1]
      exact key sw _ (parseSwimClass_ok _ _ sw h3)
    · rw [he] at h
      injection h with _ h2
      cases h2
  · intro u y bday hb h
    rcases ToYouthUser_cases u bday hb with
      ⟨hf, tr, sw, -, -, h3, ⟨-, e1⟩ | ⟨c, t, -, e1⟩⟩ | ⟨e1, he, -⟩
    · rw [e1] at h
      cases h
    · rw [e1] at h
      injection h with h1 _
      rw [← h1]
      exact key sw _ (parseSwimClass_ok _ _ sw h3)
    · rw [he] at h
      injection h with _ h2
      cases h2

/-- C20: `parseHealthForms` ignores the `(Expired)` marker.  For every health-form cell,
inserting ` (Expired)` or `(Expired)` right after an occurrence of `(AB)` or `(C)`, the tag
of a segment among them, leaves the returned records unchanged. -/
theorem parseHealthForms_ignores_expired (pre post tag marker : Text)
    (htag : tag = "(AB)".toList ∨ tag = "(C)".toList)
    (hmarker : marker = " (Expired)".toList ∨ marker = "(Expired)".toList) :
    parseHealthForms (pre ++ tag ++ marker ++ post) = parseHealthForms (pre ++ tag ++ post) := by
  have hx : Regex.isReSpace '(' = false := by decide
  rcases htag with rfl | rfl <;> rcases hmarker with rfl | rfl
  · exact parseHealthForms_inserted '(' "AB".toList " (Expired".toList pre post hx
      (by decide) (by decide) (by decide) (by decide)
  · exact parseHealthForms_inserted '(' "AB".toList "(Expired".toList pre post hx
      (by decide) (by decide) (by decide) (by decide)
  · exact parseHealthForms_inserted '(' "C".toList " (Expired".toList pre post hx
      (by decide) (by decide) (by decide) (by decide)
  · exact parseHealthForms_inserted '(' "C".toList "(Expired".toList pre post hx
      (by decide) (by decide) (by decide) (by decide)

/-- C20, at the cell `05/06/2025(AB) | 05/06/2025 (C)` with ` (Expired)` after its first
tag and with `(Expired)` after its second. -/
theorem parseHealthForms_ignores_expired_witness :
    parseHealthForms "05/06/2025(AB) (Expired) | 05/06/2025 (C)".toList =
      parseHealthForms "05/06/2025(AB) | 05/06/2025 (C)".toList ∧
    parseHealthForms "05/06/2025(AB) | 05/06/2025 (C)(Expired)".toList =
      parseHealthForms "05/06/2025(AB) | 05/06/2025 (C)".toList ∧
    parseHealthForms "05/06/2025(AB) | 05/06/2025 (C)".toList =
      .ok [HealthFormABRecord ⟨2025, 5, 6⟩, HealthFormCRecord ⟨2025, 5, 6⟩] :=
  ⟨parseHealthForms_ignores_expired "05/06/2025".toList " | 05/06/2025 (C)".toList
      "(AB)".toList " (Expired)".toList (Or.inl rfl) (Or.inl rfl),
    parseHealthForms_ignores_expired "05/06/2025(AB) | 05/06/2025 ".toList []
      "(C)".toList "(Expired)".toList (Or.inr rfl) (Or.inr rfl),
    by decide⟩

/-- C21: a segment without a health-form token contributes nothing to `parseHealthForms` and
causes no error.  The result is the list of the records of the fields between the pipes of
the cell, a field without a token giving none; so removing such a field between two pipes,
at the end or at the start of the cell, or adding one, leaves the result unchanged, and a
cell none of whose fields has a token yields the empty sequence. -/
theorem parseHealthForms_skips_segments :
    (∀ cell : Text, parseHealthForms cell = .ok ((pipeFields cell).filterMap healthFormOf)) ∧
    (∀ seg : Text, ¬ HasHealthToken seg → healthFormOf seg = none) ∧
    (∀ pre seg post : Text, '|' ∉ seg → ¬ HasHealthToken seg →
      parseHealthForms (pre ++ '|' :: seg ++ '|' :: post) =
        parseHealthForms (pre ++ '|' :: post)) ∧
    (∀ cell seg : Text, '|' ∉ seg → ¬ HasHealthToken seg →
      parseHealthForms (cell ++ '|' :: seg) = parseHealthForms cell ∧
      parseHealthForms (seg ++ '|' :: cell) = parseHealthForms cell) ∧
    (∀ cell : Text, (∀ seg ∈ pipeFields cell, ¬ HasHealthToken seg) →
      parseHealthForms cell = .ok []) ∧
    parseHealthForms "03/05/2019(AB) (Expired) |".toList =
      parseHealthForms "03/05/2019(AB) (Expired)".toList ∧
    parseHealthForms "05/06/2025(AB) | see file | 05/06/2025 (C)".toList =
      parseHealthForms "05/06/2025(AB) | 05/06/2025 (C)".toList ∧
    parseHealthForms "none on file | n/a".toList = .ok [] := by
  have hone : ∀ seg : Text, '|' ∉ seg → ¬ HasHealthToken seg →
      (pipeFields seg).filterMap healthFormOf = [] := by
    intro seg hp hn
    rw [pipeFields_no_pipe seg hp, List.filterMap_cons, healthFormOf_none seg hn]
    rfl
  refine ⟨parseHealthForms_fields, healthFormOf_none, ?_, ?_, ?_, by decide, by decide,
    by decide⟩
  · intro pre seg post hp hn
    have e : pre ++ '|' :: seg ++ '|' :: post = pre ++ '|' :: (seg ++ '|' :: post) := by simp
    rw [e, parseHealthForms_fields, parseHealthForms_fields, pipeFields_pipe, pipeFields_pipe,
      pipeFields_pipe, List.filterMap_append, List.filterMap_append, List.filterMap_append,
      hone seg hp hn, List.nil_append]
  · intro cell seg hp hn
    constructor
    · rw [parseHealthForms_fields, parseHealthForms_fields, pipeFields_pipe,
        List.filterMap_append, hone seg hp hn, List.append_nil]
    · rw [parseHealthForms_fields, parseHealthForms_fields, pipeFields_pipe,
        List.filterMap_append, hone seg hp hn, List.nil_append]
  · intro cell h
    rw [parseHealthForms_fields]
    have : (pipeFields cell).filterMap healthFormOf = [] := by
      rw [List.filterMap_eq_nil_iff]
      intro seg hs
      exact healthFormOf_none seg (h seg hs)
    rw [this]

/-- C22: empty cells give empty sequences and no error.  `parseHealthForms` of the empty cell,
`parseAdultTraining` of the empty training cell with any expiration cell, and
`parseYouthTraining` of two empty cells all return the empty sequence. -/
theorem empty_cells_give_empty_sequences :
    parseHealthForms [] = .ok [] ∧
    (∀ expiration : Text, parseAdultTraining [] expiration = .ok []) ∧
    parseYouthTraining [] [] = .ok [] := by
  refine ⟨by decide, ?_, by decide⟩
  intro expiration
  unfold parseAdultTraining
  rw [if_pos rfl]

/-- C23 as stated fails: the name group is lazy, so the name stops at the first marker of
the segment, not the last; `strings.TrimSpace` removes the whitespace at both ends of the
name, not only at its end; and the name group does not cross a line feed, so the name starts
after the last line feed before the marker. -/
theorem parseYouthTraining_name_counterexample :
    parseYouthTraining
        " A (Expiration Date: 01/01/2020) B (Expiration Date: 02/02/2021)".toList [] =
      .ok [TrainingRecord "A".toList ⟨2020, 1, 1⟩] ∧
    parseYouthTraining " X (Expiration Date: 03/26/2027)".toList [] =
      .ok [TrainingRecord "X".toList ⟨2027, 3, 26⟩] ∧
    parseYouthTraining "A\nB (Expiration Date: 03/26/2027)".toList [] =
      .ok [TrainingRecord "B".toList ⟨2027, 3, 26⟩] ∧
    TrainingRecord "A".toList ⟨2020, 1, 1⟩ ≠
      TrainingRecord " A (Expiration Date: 01/01/2020) B".toList ⟨2021, 2, 2⟩ ∧
    TrainingRecord "X".toList ⟨2027, 3, 26⟩ ≠ TrainingRecord " X".toList ⟨2027, 3, 26⟩ ∧
    TrainingRecord "B".toList ⟨2027, 3, 26⟩ ≠ TrainingRecord "A\nB".toList ⟨2027, 3, 26⟩ := by
  refine ⟨by decide, by decide, by decide, by decide, by decide, by decide⟩

/-- C23, amended: whenever `parseYouthTraining` succeeds, its records are those of the
segments of the padded-pipe split, in order, a segment without an expiration marker giving
none.  The record of a segment `pre ++ s`, where `s` begins with the leftmost expiration
marker of the segment (optional whitespace included), carries the date of that marker, and
its name is the part of `pre` after its last line feed with the whitespace at both of its
ends removed; what follows the first marker plays no part.  The date token of the leftmost
marker of every segment is then a calendar date. -/
theorem parseYouthTraining_name_first_marker (training : Text)
    (records : List UserStatusRecord) (h : parseYouthTraining training [] = .ok records) :
    ∃ f : Text → Option UserStatusRecord,
      records = (paddedPipePattern.Split training noLimit).filterMap f ∧
      (∀ seg, ¬ HasExpiration seg → f seg = none) ∧
      (∀ (pre s dt : Text) (d : Date), ExpirationAt s dt →
        (∀ pre2 s2 dt2, pre ++ s = pre2 ++ s2 → ExpirationAt s2 dt2 →
          pre.length ≤ pre2.length) →
        ParseDate dt = some d →
        f (pre ++ s) = some (TrainingRecord (strings.TrimSpace (lastLine pre)) d)) ∧
      (∀ seg ∈ paddedPipePattern.Split training noLimit, ∀ dt, FirstExpiration seg dt →
        ∃ d, ParseDate dt = some d) := by
  have hdates : ∀ seg dt, seg ∈ paddedPipePattern.Split training noLimit →
      firstExpiration? seg = some dt → ParseDate dt ≠ none := by
    intro seg dt hm h1 h2
    by_cases ht : training = []
    · subst ht
      have hs : paddedPipePattern.Split [] noLimit = [[]] := by decide
      rw [hs, List.mem_singleton] at hm
      subst hm
      simp [firstExpiration?] at h1
    · obtain ⟨e, he⟩ := youth_loop_bad _ [] seg dt hm h1 h2
      unfold parseYouthTraining at h
      rw [if_neg (by simp), if_neg ht, he] at h
      cases h
  refine ⟨youthRecordOf, ?_, ?_, ?_, ?_⟩
  · unfold parseYouthTraining at h
    rw [if_neg (by simp)] at h
    by_cases ht : training = []
    · subst ht
      rw [if_pos rfl] at h
      injection h with h
      rw [← h]
      decide
    · rw [if_neg ht, youth_loop_ok _ _ hdates] at h
      injection h with h
      rw [← h]
      rfl
  · intro seg hn
    exact youthRecordOf_none seg ((firstExpiration_none seg).mpr hn)
  · intro pre s dt d hat hfirst hd
    obtain ⟨post, hs⟩ := (expirationAt_spec s dt).mpr hat
    obtain ⟨a, e, hdot, ha⟩ := lastLine_spec pre
    have hnone : ∀ p1 p2, a ++ lastLine pre = p1 ++ p2 → p2 ≠ [] →
        expirationAt? (p2 ++ s) = none := by
      intro p1 p2 he hp2
      cases hx : expirationAt? (p2 ++ s) with
      | none => rfl
      | some q =>
        exfalso
        have hle := hfirst p1 (p2 ++ s) q.1 (by rw [e, he]; simp)
          ((expirationAt_spec _ _).mp ⟨q.2, hx⟩)
        have hlen : pre.length = p1.length + p2.length := by
          rw [e, he, List.length_append]
        have : 0 < p2.length := List.length_pos.mpr hp2
        omega
    obtain ⟨whole, hfind⟩ := find_first_marker a (lastLine pre) s dt post hdot ha hs hnone
    have hseg : pre ++ s = a ++ (lastLine pre ++ s) := by
      rw [← List.append_assoc, ← e]
    have h1 : trainingPattern.SubexpIndex "name".toList = 1 := by decide
    have h2 : trainingPattern.SubexpIndex "date".toList = 2 := by decide
    unfold youthRecordOf
    rw [hseg, hfind]
    simp only [h1, h2]
    have e1 : ([whole, lastLine pre, dt] : List Text)[1]?.getD [] = lastLine pre := rfl
    have e2 : ([whole, lastLine pre, dt] : List Text)[2]?.getD [] = dt := rfl
    rw [e1, e2, hd]
  · intro seg hm dt hf
    have h1 := (firstExpiration_iff seg dt).mpr hf
    cases hd : ParseDate dt with
    | none => exact absurd hd (hdates seg dt hm h1)
    | some d => exact ⟨d, rfl⟩

/-- C23, amended, at a cell of two segments, the first of which holds two markers. -/
theorem parseYouthTraining_name_first_marker_witness :
    parseYouthTraining
        (" A (Expiration Date: 01/01/2020) B (Expiration Date: 02/02/2021) | " ++
          "X (Expiration Date: 03/26/2027)").toList [] =
      .ok [TrainingRecord "A".toList ⟨2020, 1, 1⟩, TrainingRecord "X".toList ⟨2027, 3, 26⟩] ∧
    ∃ f : Text → Option UserStatusRecord,
      [TrainingRecord "A".toList ⟨2020, 1, 1⟩, TrainingRecord "X".toList ⟨2027, 3, 26⟩] =
        (paddedPipePattern.Split
          (" A (Expiration Date: 01/01/2020) B (Expiration Date: 02/02/2021) | " ++
            "X (Expiration Date: 03/26/2027)").toList noLimit).filterMap f ∧
      (∀ seg, ¬ HasExpiration seg → f seg = none) ∧
      (∀ (pre s dt : Text) (d : Date), ExpirationAt s dt →
        (∀ pre2 s2 dt2, pre ++ s = pre2 ++ s2 → ExpirationAt s2 dt2 →
          pre.length ≤ pre2.length) →
        ParseDate dt = some d →
        f (pre ++ s) = some (TrainingRecord (strings.TrimSpace (lastLine pre)) d)) ∧
      (∀ seg ∈ paddedPipePattern.Split
          (" A (Expiration Date: 01/01/2020) B (Expiration Date: 02/02/2021) | " ++
            "X (Expiration Date: 03/26/2027)").toList noLimit,
        ∀ dt, FirstExpiration seg dt → ∃ d, ParseDate dt = some d) :=
  ⟨by decide, parseYouthTraining_name_first_marker _ _ (by decide)⟩

/-- C24 as stated fails: `NewDate(10000, 1, 1)` is January 1 of the year 10000, whose text
`01/01/10000` has eleven characters and is rejected by `ParseDate`. -/
theorem NewDate_String_long_year_counterexample :
    NewDate 10000 1 1 = ⟨10000, 1, 1⟩ ∧
    (NewDate 10000 1 1).String = "01/01/10000".toList ∧
    (NewDate 10000 1 1).String.length = 11 ∧
    ParseDate (NewDate 10000 1 1).String = none := by
  refine ⟨by decide, by decide, by decide, by decide⟩

/-- C24, amended: for every day built by `NewDate` whose year, after normalisation, lies
between 0 and 9999, `String()` is ten characters of the form two digits, `/`, two digits,
`/`, four digits, and `ParseDate` of it succeeds and returns that day. -/
theorem NewDate_String_roundtrip (year month day : Int)
    (h0 : 0 ≤ (NewDate year month day).year) (h1 : (NewDate year month day).year ≤ 9999) :
    dateShaped (NewDate year month day).String = true ∧
    (NewDate year month day).String.length = 10 ∧
    ∃ d, ParseDate (NewDate year month day).String = some d ∧
      d.toDay = NewDate year month day := by
  obtain ⟨hm1, hm2, hd1, hd2⟩ := NewDate_valid year month day
  generalize NewDate year month day = c at h0 h1 hm1 hm2 hd1 hd2
  obtain ⟨y, m, dd⟩ := c
  simp only [] at h0 h1 hm1 hm2 hd1 hd2
  obtain ⟨n, rfl⟩ := Int.eq_ofNat_of_zero_le h0
  rw [daysInMonth_cast] at hd2
  have hp := Day_String_parses n m dd (by omega) hm1 hm2 hd1 hd2
  have hs := ParseDate_shaped _ _ hp
  exact ⟨hs, dateShaped_length _ hs, ⟨n, m, dd⟩, hp, rfl⟩

/-- C24, amended, at `NewDate(2025, 13, 32)`, which is normalised to February 1, 2026. -/
theorem NewDate_String_roundtrip_witness :
    NewDate 2025 13 32 = ⟨2026, 2, 1⟩ ∧
    (NewDate 2025 13 32).String = "02/01/2026".toList ∧
    (dateShaped (NewDate 2025 13 32).String = true ∧
      (NewDate 2025 13 32).String.length = 10 ∧
      ∃ d, ParseDate (NewDate 2025 13 32).String = some d ∧ d.toDay = NewDate 2025 13 32) :=
  ⟨by decide, by decide, NewDate_String_roundtrip 2025 13 32 (by decide) (by decide)⟩

/-- C25: on every adult row that `ToAdultUser` maps without error, the display name is the
first name, one space and the last name, and `BsaId`, `Email`, `Gender` and `UnitNumber` are
the cells of the row. -/
theorem ToAdultUser_name_and_cells (u : AdultScoutbookUser) (a : AdultUser)
    (h : u.ToAdultUser = (a, none)) :
    a.Name = u.FirstName ++ ' ' :: u.LastName ∧ a.BsaId = u.BsaId ∧ a.Email = u.Email ∧
    a.Gender = u.Gender ∧ a.UnitNumber = u.UnitNumber := by
  rcases ToAdultUser_cases u with ⟨hf, tr, sw, -, -, -, e⟩ | ⟨e, he, -⟩
  · rw [e] at h
    injection h with h1 _
    rw [← h1]
    refine ⟨?_, rfl, rfl, rfl, rfl⟩
    simp
  · rw [he] at h
    injection h with _ h2
    cases h2

/-- C25, at the row `Dan Dewey` of the test and at a row whose first name is empty. -/
theorem ToAdultUser_name_and_cells_witness :
    ((adultRow []).ToAdultUser.1.Name = "Dan Dewey".toList ∧
      (adultRow []).ToAdultUser.1.BsaId = 4 ∧
      (adultRow []).ToAdultUser.1.Email = "ddewey@example.com".toList ∧
      (adultRow []).ToAdultUser.1.Gender = "M".toList ∧
      (adultRow []).ToAdultUser.1.UnitNumber = "Troop 77 B".toList) ∧
    (AdultScoutbookUser.ToAdultUser
      { FirstName := [], LastName := "Dewey".toList, Email := [], Gender := [], BsaId := 4,
        UnitNumber := [], Training := [], TrainingExpiration := [], HealthForms := [],
        SwimClass := [], SwimClassExpiration := [], Positions := [] }).1.Name =
      " Dewey".toList :=
  ⟨ToAdultUser_name_and_cells (adultRow []) (adultRow []).ToAdultUser.1 (by decide),
    (ToAdultUser_name_and_cells
      { FirstName := [], LastName := "Dewey".toList, Email := [], Gender := [], BsaId := 4,
        UnitNumber := [], Training := [], TrainingExpiration := [], HealthForms := [],
        SwimClass := [], SwimClassExpiration := [], Positions := [] } _ (by decide)).1⟩

/-- C26 as stated fails: the row `Abe Ames` with an empty date of birth is returned as the
zero member, whose `BsaId`, `Gender`, `Age` and `Patrol` are zero and empty, not the cells
of the row. -/
theorem ToYouthUser_cells_not_copied_counterexample :
    (youthRow "Abe".toList [] []).ToYouthUser = .returned YouthUser.zero none ∧
    YouthUser.zero.BsaId ≠ (youthRow "Abe".toList [] []).BsaId ∧
    YouthUser.zero.Gender ≠ (youthRow "Abe".toList [] []).Gender ∧
    YouthUser.zero.Age ≠ (youthRow "Abe".toList [] []).Age ∧
    YouthUser.zero.Patrol ≠ (youthRow "Abe".toList [] []).Patrol := by
  refine ⟨by decide, by decide, by decide, by decide, by decide⟩

/-- C26, amended: whatever the `Email` cell of a youth row holds, every `YouthUser` that
`ToYouthUser` returns has an empty `Email`; and when the date of birth parses and no error
is returned, `BsaId`, `Gender`, `Age` and `Patrol` are the cells of the row. -/
theorem ToYouthUser_email_and_cells :
    (∀ (u : YouthScoutbookUser) (y : YouthUser) (e : Option Text),
      u.ToYouthUser = .returned y e → y.Email = []) ∧
    (∀ (u : YouthScoutbookUser) (y : YouthUser) (bday : Date),
      ParseDate u.DateOfBirth = some bday → u.ToYouthUser = .returned y none →
      y.BsaId = u.BsaId ∧ y.Gender = u.Gender ∧ y.Age = u.Age ∧ y.Patrol = u.Patrol) ∧
    YouthScoutbookUser.ToYouthUser
      { FirstName := "Abe".toList, LastName := "Ames".toList, BsaId := 100,
        Email := "abe@example.com".toList, DateOfBirth := "07/04/2014".toList, Age := 10,
        Gender := "M".toList, HealthForms := [], SwimClass := [], SwimClassExpiration := [],
        Positions := [], Patrol := "Vikings".toList, Training := [],
        TrainingExpiration := [] } =
      .returned
        { Name := "A. Ames".toList, BsaId := 100, Email := [], Gender := "M".toList,
          DateOfBirth := ⟨2014, 7, 4⟩, Age := 10, Patrol := "Vikings".toList, Training := [],
          HealthForms := [], SwimClass := NonSwimmerRecord, Positions := [] } none := by
  refine ⟨?_, ?_, by decide⟩
  · intro u y e h
    cases hb : ParseDate u.DateOfBirth with
    | none =>
      rw [ToYouthUser_no_birthday u hb] at h
      injection h with h1 _
      rw [← h1]
      rfl
    | some bday =>
      rcases ToYouthUser_cases u bday hb with
        ⟨hf, tr, sw, -, -, -, ⟨-, e1⟩ | ⟨c, t, -, e1⟩⟩ | ⟨e1, he, -⟩
      · rw [e1] at h
        cases h
      · rw [e1] at h
        injection h with h1 _
        rw [← h1]
      · rw [he] at h
        injection h with h1 _
        rw [← h1]
        rfl
  · intro u y bday hb h
    rcases ToYouthUser_cases u bday hb with
      ⟨hf, tr, sw, -, -, -, ⟨-, e1⟩ | ⟨c, t, -, e1⟩⟩ | ⟨e1, he, -⟩
    · rw [e1] at h
      cases h
    · rw [e1] at h
      injection h with h1 _
      rw [← h1]
      exact ⟨rfl, rfl, rfl, rfl⟩
    · rw [he] at h
      injection h with _ h2
      cases h2

/-- C27 fails in the code: the key joins name and email with a comma, so two entries whose
names differ and whose emails differ can share a key.  Of the entries (`a,b`, `c`) and
(`a`, `b,c`) the second is removed although their names differ, whatever the rune map of
`strings.ToLower` is.  What the loop does decide by is the key: an entry is dropped exactly
when an earlier entry has the same key, and the entries kept stay in their order. -/
theorem removeDuplicates_key_collision :
    (∀ lower : Char → Char,
      removeDuplicates lower [⟨"a,b".toList, "c".toList⟩, ⟨"a".toList, "b,c".toList⟩] =
        [⟨"a,b".toList, "c".toList⟩] ∧
      strings.ToLower lower "a,b".toList ≠ strings.ToLower lower "a".toList) ∧
    (∀ (lower : Char → Char) (users : List user) (u : user),
      ((∃ v ∈ users, removeDuplicates.key lower v = removeDuplicates.key lower u) →
        removeDuplicates lower (users ++ [u]) = removeDuplicates lower users) ∧
      ((¬ ∃ v ∈ users, removeDuplicates.key lower v = removeDuplicates.key lower u) →
        removeDuplicates lower (users ++ [u]) = removeDuplicates lower users ++ [u])) := by
  constructor
  · intro lower
    constructor
    · have hk : removeDuplicates.key lower ⟨"a".toList, "b,c".toList⟩ =
          removeDuplicates.key lower ⟨"a,b".toList, "c".toList⟩ := rfl
      unfold removeDuplicates
      rw [removeDuplicates.loop, if_neg (List.not_mem_nil _), removeDuplicates.loop,
        if_pos (by rw [hk]; exact List.mem_cons_self _ _)]
      rfl
    · intro h
      have := congrArg List.length h
      simp [strings.ToLower] at this
  · intro lower users u
    have h := removeDuplicates_loop_snoc lower users u [] []
    simp only [List.not_mem_nil, false_or] at h
    constructor
    · intro he
      unfold removeDuplicates
      rw [h, if_pos he, List.append_nil]
    · intro hne
      unfold removeDuplicates
      rw [h, if_neg hne]

/-- C28: for every list of users, every step of the generator of `sort.Slice` and every rune
map of `strings.ToLower`, the list after `sortUsers` is a permutation of the list before, and
no entry has a lower-cased name that is less, in the order of Go strings, than the
lower-cased name of an entry before it.  Two runs follow: the insertion sort on four users,
and the quicksort on fourteen, with the identity for the generator, which puts `Carl` before
`carl` although `carl` came first. -/
theorem sortUsers_sorted_permutation :
    (∀ (next : Nat → Nat) (lower : Char → Char) (users : List user),
      (sortUsers next lower users).Perm users ∧
      (sortUsers next lower users).Pairwise (fun a b =>
        strings.less (strings.ToLower lower b.Name) (strings.ToLower lower a.Name) = false)) ∧
    (∀ next : Nat → Nat, sortUsers next Char.toLower
        [⟨"bob Brown".toList, "b@example.com".toList⟩,
          ⟨"Carol Carson".toList, "c@example.com".toList⟩,
          ⟨"alice Ames".toList, "a@example.com".toList⟩,
          ⟨"Bob Brown".toList, "bb@example.com".toList⟩] =
      [⟨"alice Ames".toList, "a@example.com".toList⟩,
        ⟨"bob Brown".toList, "b@example.com".toList⟩,
        ⟨"Bob Brown".toList, "bb@example.com".toList⟩,
        ⟨"Carol Carson".toList, "c@example.com".toList⟩]) ∧
    sortUsers id Char.toLower
        [⟨"dan".toList, []⟩, ⟨"Bob".toList, []⟩, ⟨"carl".toList, []⟩, ⟨"bob".toList, []⟩,
          ⟨"al".toList, []⟩, ⟨"Al".toList, []⟩, ⟨"ed".toList, []⟩, ⟨"BOB".toList, []⟩,
          ⟨"fay".toList, []⟩, ⟨"gus".toList, []⟩, ⟨"Carl".toList, []⟩, ⟨"hal".toList, []⟩,
          ⟨"ian".toList, []⟩, ⟨"AL".toList, []⟩] =
      [⟨"al".toList, []⟩, ⟨"Al".toList, []⟩, ⟨"AL".toList, []⟩, ⟨"Bob".toList, []⟩,
        ⟨"bob".toList, []⟩, ⟨"BOB".toList, []⟩, ⟨"Carl".toList, []⟩, ⟨"carl".toList, []⟩,
        ⟨"dan".toList, []⟩, ⟨"ed".toList, []⟩, ⟨"fay".toList, []⟩, ⟨"gus".toList, []⟩,
        ⟨"hal".toList, []⟩, ⟨"ian".toList, []⟩] := by
  refine ⟨?_, fun next => rfl, by decide⟩
  intro next lower users
  unfold sortUsers
  exact sort.Slice_spec next
    (fun a b : user =>
      strings.less (strings.ToLower lower a.Name) (strings.ToLower lower b.Name))
    ⟨fun a b h => strings.less_asymm _ _ h, fun a b c h => strings.less_cotrans _ _ _ h⟩ users

/-- C29: when the file decodes to at most two records, `ParseAdultRoster` and
`ParseYouthRoster` both return `EmptyRosterError` and no users; when it decodes to more than
two records, each record after the two header rows having at least 13 fields for the adult
roster and 14 for the youth roster, they succeed and return one raw user per such record,
in the order of the records. -/
theorem roster_parsers_rows :
    (∀ records : List (List Text), records.length ≤ 2 →
      csvParser.ParseAdultRoster (.ok records) = .returned [] (some EmptyRosterError) ∧
      csvParser.ParseYouthRoster (.ok records) = .returned [] (some EmptyRosterError)) ∧
    (∀ records : List (List Text), 2 < records.length →
      (∀ r ∈ records.drop 2, 13 ≤ r.length) →
      csvParser.ParseAdultRoster (.ok records) =
        .returned ((records.drop 2).map adultOfRecord) none) ∧
    (∀ records : List (List Text), 2 < records.length →
      (∀ r ∈ records.drop 2, 14 ≤ r.length) →
      csvParser.ParseYouthRoster (.ok records) =
        .returned ((records.drop 2).map youthOfRecord) none) ∧
    csvParser.ParseAdultRoster (.ok []) = .returned [] (some EmptyRosterError) ∧
    csvParser.ParseYouthRoster (.ok []) = .returned [] (some EmptyRosterError) ∧
    csvParser.ParseAdultRoster
        (.ok [List.replicate 13 [], List.replicate 13 [],
          [[], " Dan".toList, "Dewey ".toList, "ddewey@example.com".toList, "M".toList,
            " 4".toList, "Troop 77 B".toList,
            "Y01 Youth Protection Training Certification".toList, "02/22/2027".toList, [],
            [], [], "Committee Member | Unit Advancement Chair".toList]]) =
      .returned [adultRow "Committee Member | Unit Advancement Chair".toList] none := by
  refine ⟨?_, ?_, ?_, by decide, by decide, by decide⟩
  · intro records h
    constructor
    · unfold csvParser.ParseAdultRoster
      simp only []
      rw [if_pos h]
    · unfold csvParser.ParseYouthRoster
      simp only []
      rw [if_pos h]
  · intro records h hw
    unfold csvParser.ParseAdultRoster
    simp only []
    rw [if_neg (by omega), adult_rows_loop _ _ hw]
    rfl
  · intro records h hw
    unfold csvParser.ParseYouthRoster
    simp only []
    rw [if_neg (by omega), youth_rows_loop _ _ hw]
    rfl

/-- C30: `parseHealthForms` returns a record sequence and no error on every cell.  The type
group of its pattern captures only `AB` or `C`, so the branch that builds the error is never
taken; and a segment whose date token is not a calendar day, such as `13/45/2025(AB)`, is
dropped without an error. -/
theorem parseHealthForms_total :
    (∀ cell : Text, ∃ records, parseHealthForms cell = .ok records) ∧
    (∀ (form : Text) (submatches : List Text),
      healthFormPattern.FindStringSubmatch form = some submatches →
      submatches[healthFormPattern.SubexpIndex "type".toList]?.getD [] = "AB".toList ∨
      submatches[healthFormPattern.SubexpIndex "type".toList]?.getD [] = "C".toList) ∧
    parseHealthForms "13/45/2025(AB)".toList = .ok [] ∧
    parseHealthForms "13/45/2025(AB) | 05/06/2025 (C)".toList =
      .ok [HealthFormCRecord ⟨2025, 5, 6⟩] := by
  refine ⟨fun cell => ⟨_, parseHealthForms_ok cell⟩, ?_, by decide, by decide⟩
  intro form submatches h
  have hf := find_healthFormPattern form
  rw [h] at hf
  simp only [Option.map_some'] at hf
  exact firstHealthToken_tag form _ _ hf.symm

/-- C31: the swimmer check is a case-sensitive substring test.  The label `Non-Swimmer`
contains `Swimmer`, so `parseSwimClass` of it returns the Swimmer record when the expiration
cell is a date, fails when that cell is empty or is not a date, and never returns the
Non-Swimmer record; the lower-case text `swimmer` does not contain `Swimmer`, so
`parseSwimClass` of it returns the Non-Swimmer record for every expiration cell. -/
theorem parseSwimClass_case_sensitive :
    (∀ (e : Text) (d : Date), ParseDate e = some d →
      parseSwimClass "Non-Swimmer".toList e = .ok (SwimmerRecord d)) ∧
    (∀ e : Text, e = [] ∨ ParseDate e = none →
      parseSwimClass "Non-Swimmer".toList e = .error errInvalidSwimExpiration) ∧
    (∀ e : Text, parseSwimClass "Non-Swimmer".toList e ≠ .ok NonSwimmerRecord) ∧
    (∀ e : Text, parseSwimClass "swimmer".toList e = .ok NonSwimmerRecord) ∧
    parseSwimClass "Non-Swimmer".toList "05/28/2019".toList =
      .ok (SwimmerRecord ⟨2019, 5, 28⟩) ∧
    parseSwimClass "Non-Swimmer".toList [] = .error errInvalidSwimExpiration ∧
    parseSwimClass "swimmer".toList "05/28/2019".toList = .ok NonSwimmerRecord := by
  have hne : "Non-Swimmer".toList ≠ [] := by decide
  have hc : strings.Contains "Non-Swimmer".toList "Swimmer".toList = true := by decide
  have hne2 : "swimmer".toList ≠ [] := by decide
  have hc2 : ¬ strings.Contains "swimmer".toList "Swimmer".toList = true := by decide
  have hdate : ∀ (e : Text) (d : Date), ParseDate e = some d →
      parseSwimClass "Non-Swimmer".toList e = .ok (SwimmerRecord d) := by
    intro e d hd
    have hx : e ≠ [] := by
      rintro rfl
      rw [ParseDate_nil] at hd
      cases hd
    unfold parseSwimClass
    rw [if_neg hne, if_pos hc, if_pos hx, hd]
  have hfail : ∀ e : Text, e = [] ∨ ParseDate e = none →
      parseSwimClass "Non-Swimmer".toList e = .error errInvalidSwimExpiration := by
    intro e h
    have hn : ParseDate e = none := by
      rcases h with rfl | h
      · exact ParseDate_nil
      · exact h
    unfold parseSwimClass
    rw [if_neg hne, if_pos hc, hn]
    simp
  refine ⟨hdate, hfail, ?_, ?_, by decide, by decide, by decide⟩
  · intro e h
    cases hd : ParseDate e with
    | none =>
      rw [hfail e (Or.inr hd)] at h
      cases h
    | some d =>
      rw [hdate e d hd] at h
      injection h with h
      have hname : "Swimmer".toList ≠ "Non-Swimmer".toList := by decide
      exact hname (congrArg UserStatusRecord.Name h)
  · intro e
    unfold parseSwimClass
    rw [if_neg hne2, if_neg hc2]

end Scoutbook
